import Mathlib

/-!
# Rendering core of `secrethub audit` (internals/secrethub/audit.go)

A shallow embedding of the column-width allocator, the column and JSON
formatters, the pagers, the render loop and the audit tables, and of the
record loop of the Thycotic import (internals/secrethub/import_thycotic.go),
followed by the properties proved about them.

Conventions of the embedding:
* a Go `string` / `[]byte` is a list of bytes (`GoString`), so `len` is
  `List.length`;
* a Go `int` is an `Int`; the quantities handled here are terminal widths and
  string lengths, far away from the 64-bit bounds, so no wrap-around is
  modelled;
* `/` and `%` on `int` truncate toward zero (`Int.tdiv`, `Int.tmod`) and
  panic on a zero divisor;
* a function that can panic at run time returns an `Option`, `none` being the
  panic; a loop whose number of iterations is not syntactically bounded takes
  a fuel argument and returns `none` when the fuel is used up;
* a method with a pointer receiver that mutates the receiver returns the new
  receiver next to its result.
-/

namespace Secrethub

/-- A Go string or byte slice: its sequence of bytes. -/
abbrev GoString := List UInt8

/-- Go integer division, truncating toward zero; `none` is the
division-by-zero panic. -/
def goDiv (a b : Int) : Option Int :=
  if b = 0 then none else some (Int.tdiv a b)

/-- Go integer remainder, with the sign of the dividend; `none` is the
division-by-zero panic. -/
def goMod (a b : Int) : Option Int :=
  if b = 0 then none else some (Int.tmod a b)

/-- The `auditTableColumn` struct. -/
structure auditTableColumn where
  name : GoString
  maxWidth : Int
deriving DecidableEq, Repr

/-- The `columnFormatter` struct; `computedColumnWidths` is `none` for the
nil slice. -/
structure columnFormatter where
  tableWidth : Int
  computedColumnWidths : Option (List Int)
  columns : List auditTableColumn
deriving DecidableEq, Repr

/-- The constructor `newColumnFormatter`. -/
def newColumnFormatter (tableWidth : Int) (columns : List auditTableColumn) :
    columnFormatter :=
  ⟨tableWidth, none, columns⟩

/-- One execution of the inner loop `for i, col := range f.columns` of
`columnWidths`, for the even share `widthPerColumn` that is fixed during the
pass. The slice `res` has one entry per column, so the loop walks `columns`
and `res` together. Returns `(res, widthLeft, columnsLeft, adjusted)`. -/
def pinPass (widthPerColumn : Int) :
    List auditTableColumn → List Int → Int → Int → Bool → List Int × Int × Int × Bool
  | col :: cols, r :: res, widthLeft, columnsLeft, adjusted =>
    if r = 0 ∧ col.maxWidth ≠ 0 ∧ col.maxWidth < widthPerColumn then
      let out := pinPass widthPerColumn cols res (widthLeft - col.maxWidth) (columnsLeft - 1) true
      (col.maxWidth :: out.1, out.2)
    else
      let out := pinPass widthPerColumn cols res widthLeft columnsLeft adjusted
      (r :: out.1, out.2)
  | _, res, widthLeft, columnsLeft, adjusted => (res, widthLeft, columnsLeft, adjusted)

/-- The outer loop `for adjusted { ... }` of `columnWidths`; each unit of fuel
pays for one pass. Returns the slice `res` and the value of `widthPerColumn`
when the loop is left. -/
def pinLoop (columns : List auditTableColumn) :
    Nat → List Int → Int → Int → Int → Option (List Int × Int)
  | 0, _, _, _, _ => none
  | fuel + 1, res, widthLeft, columnsLeft, widthPerColumn =>
    match pinPass widthPerColumn columns res widthLeft columnsLeft false with
    | (res1, widthLeft1, columnsLeft1, adjusted) =>
      if columnsLeft1 = 0 then
        -- `res[i] += widthLeft / len(res)` for every `i`, then `break`
        some (res1.map (fun r => r + Int.tdiv widthLeft1 res1.length), widthPerColumn)
      else
        match goDiv widthLeft1 columnsLeft1 with
        | none => none
        | some widthPerColumn1 =>
          if adjusted then pinLoop columns fuel res1 widthLeft1 columnsLeft1 widthPerColumn1
          else some (res1, widthPerColumn1)

/-- The last loop of `columnWidths`: every entry still `0` gets the even
share. -/
def fillUnpinned (widthPerColumn : Int) (res : List Int) : List Int :=
  res.map (fun r => if r = 0 then widthPerColumn else r)

/-- The method `columnFormatter.columnWidths`: the cached vector when there is
one, otherwise the allocation, which is stored in the receiver. -/
def columnFormatter.columnWidths (f : columnFormatter) :
    Option (List Int × columnFormatter) :=
  match f.computedColumnWidths with
  | some ws => some (ws, f)
  | none =>
    let res := List.replicate f.columns.length (0 : Int)
    let columnsLeft : Int := f.columns.length
    let widthLeft : Int := f.tableWidth - 2 * ((f.columns.length : Int) - 1)
    match goDiv widthLeft columnsLeft with
    | none => none
    | some widthPerColumn =>
      match pinLoop f.columns (f.columns.length + 1) res widthLeft columnsLeft widthPerColumn with
      | none => none
      | some (res1, widthPerColumn1) =>
        let res2 := fillUnpinned widthPerColumn1 res1
        some (res2, ⟨f.tableWidth, some res2, f.columns⟩)

/-- Bytes of an ASCII text. -/
def ascii (s : String) : GoString := s.toList.map (fun c => c.toNat.toUInt8)

/-- The columns built by `newBaseAuditTable` for the given middle columns. -/
def newBaseAuditTableColumns (midColumns : List auditTableColumn) : List auditTableColumn :=
  ([⟨ascii "AUTHOR", 32⟩, ⟨ascii "EVENT", 22⟩] ++ midColumns) ++
    [⟨ascii "IP ADDRESS", 45⟩, ⟨ascii "DATE", 22⟩]

/-! ## The column formatter -/

/-- The Go `error` values met in this file. -/
inductive GoError where
  /-- The package variable `errPagerNotFound`. -/
  | errPagerNotFound
  /-- An error made by `fmt.Errorf` with the given text. -/
  | errorf (msg : GoString)
  /-- Any other error value, such as one returned by an underlying writer. -/
  | other (code : Nat)
deriving DecidableEq, Repr

/-- The slice expression `s[b:e]` on a string; `none` is the out-of-range
panic. -/
def goSlice (s : GoString) (b e : Int) : Option GoString :=
  if 0 ≤ b ∧ b ≤ e ∧ e ≤ (s.length : Int) then
    some ((s.drop b.toNat).take (e - b).toNat)
  else none

/-- The call `strings.Repeat(" ", count)`, which panics on a negative
count. -/
def repeatSpace (count : Int) : Option GoString :=
  if count < 0 then none else some (List.replicate count.toNat 32)

/-- The call `strings.Join(elems, sep)`. -/
def stringsJoin (elems : List GoString) (sep : GoString) : GoString :=
  List.intercalate sep elems

/-- The call `strings.TrimSuffix(s, suffix)`. -/
def trimSuffix (s suffix : GoString) : GoString :=
  if suffix.isSuffixOf s then s.take (s.length - suffix.length) else s

/-- The loop `for j := lo; j < hi; j++ { body }`, run as `count = hi - lo`
iterations that start at `j = lo`; a panic of the body ends the loop. -/
def forRange {σ : Type} (body : Int → σ → Option σ) : Nat → Int → σ → Option σ
  | 0, _, s => some s
  | count + 1, j, s =>
    match body j s with
    | none => none
    | some s1 => forRange body count (j + 1) s1

/-- The assignment `splitCells[j][i] = s`; `none` is the index-out-of-range
panic. -/
def setCell (splitCells : List (List GoString)) (j : Int) (i : Nat) (s : GoString) :
    Option (List (List GoString)) :=
  if 0 ≤ j ∧ j.toNat < splitCells.length ∧ i < (splitCells.getD j.toNat []).length then
    some (splitCells.set j.toNat ((splitCells.getD j.toNat []).set i s))
  else none

/-- The first loop of `formatRow`, from cell number `i` on: the maximum number
of lines a cell value is broken into. -/
def maxLinesLoop (columnWidths : List Int) : List GoString → Nat → Int → Option Int
  | [], _, maxLinesPerCell => some maxLinesPerCell
  | cell :: rest, i, maxLinesPerCell =>
    match columnWidths[i]? with
    | none => none
    | some w =>
      match goDiv cell.length w, goMod cell.length w with
      | some q, some r =>
        let lines := if r ≠ 0 then q + 1 else q
        maxLinesLoop columnWidths rest (i + 1)
          (if lines > maxLinesPerCell then lines else maxLinesPerCell)
      | _, _ => none

/-- The body of the loop `for i, cell := range row` that fills the grid:
column `i` of `splitCells` receives the slices of `cell`. -/
def splitCell (columnWidth maxLinesPerCell : Int) (i : Nat) (cell : GoString)
    (splitCells : List (List GoString)) : Option (List (List GoString)) := do
  let lineCount ← goDiv cell.length columnWidth
  let g1 ← forRange (fun j g => do
      let s ← goSlice cell (j * columnWidth) ((j + 1) * columnWidth)
      setCell g j i s) lineCount.toNat 0 splitCells
  let charactersLeft ← goMod cell.length columnWidth
  let g2 ←
    if charactersLeft ≠ 0 then do
      let rest ← goSlice cell (cell.length - charactersLeft) cell.length
      let pad ← repeatSpace (columnWidth - charactersLeft)
      setCell g1 lineCount i (rest ++ pad)
    else if lineCount < maxLinesPerCell then do
      let pad ← repeatSpace columnWidth
      setCell g1 lineCount i pad
    else some g1
  forRange (fun j g => do
      let pad ← repeatSpace columnWidth
      setCell g j i pad) (maxLinesPerCell - (lineCount + 1)).toNat (lineCount + 1) g2

/-- The second loop of `formatRow`, from cell number `i` on. -/
def splitLoop (columnWidths : List Int) (maxLinesPerCell : Int) :
    List GoString → Nat → List (List GoString) → Option (List (List GoString))
  | [], _, splitCells => some splitCells
  | cell :: rest, i, splitCells =>
    match columnWidths[i]? with
    | none => none
    | some columnWidth =>
      match splitCell columnWidth maxLinesPerCell i cell splitCells with
      | none => none
      | some g => splitLoop columnWidths maxLinesPerCell rest (i + 1) g

/-- The grid `splitCells` that `formatRow` builds for the given widths: the
allocation `make([][]string, maxLinesPerCell)` with its rows, then the second
loop. Returns `maxLinesPerCell` and the grid. -/
def splitGrid (columnWidths : List Int) (row : List GoString) :
    Option (Int × List (List GoString)) := do
  let maxLinesPerCell ← maxLinesLoop columnWidths row 0 1
  let empty := List.replicate maxLinesPerCell.toNat (List.replicate row.length ([] : GoString))
  let splitCells ← splitLoop columnWidths maxLinesPerCell row 0 empty
  some (maxLinesPerCell, splitCells)

/-- The last loop of `formatRow`: every grid row joined with two spaces and
ended by a newline, appended to the builder `strRes`. -/
def gridToString (maxLinesPerCell : Int) (splitCells : List (List GoString)) :
    Option GoString :=
  forRange (fun j (strRes : GoString) =>
      if 0 ≤ j then
        (splitCells[j.toNat]?).map (fun line => strRes ++ (stringsJoin line [32, 32] ++ [10]))
      else none)
    maxLinesPerCell.toNat 0 []

/-- The method `columnFormatter.formatRow`; the returned error is always
nil. -/
def columnFormatter.formatRow (f : columnFormatter) (row : List GoString) :
    Option ((GoString × Option GoError) × columnFormatter) := do
  let (columnWidths, f1) ← f.columnWidths
  let (maxLinesPerCell, splitCells) ← splitGrid columnWidths row
  let strRes ← gridToString maxLinesPerCell splitCells
  some ((trimSuffix strRes [10], none), f1)

/-- The method `columnFormatter.printHeader`. -/
def columnFormatter.printHeader (_f : columnFormatter) : Bool := true

/-! ## The JSON formatter -/

/-- The `jsonFormatter` struct. -/
structure jsonFormatter where
  fields : List GoString
deriving DecidableEq, Repr

/-- The constructor `newJSONFormatter`. -/
def newJSONFormatter (fieldNames : List GoString) : jsonFormatter :=
  ⟨fieldNames⟩

/-- The method `jsonFormatter.printHeader`. -/
def jsonFormatter.printHeader (_f : jsonFormatter) : Bool := false

/-- A Go `map[string]string`, kept as a list of entries with distinct keys. -/
abbrev GoMap := List (GoString × GoString)

/-- The map assignment `m[k] = v`: the entry of `k` is overwritten when there
is one, added otherwise. -/
def mapSet : GoMap → GoString → GoString → GoMap
  | [], k, v => [(k, v)]
  | (k1, v1) :: m, k, v => if k1 = k then (k, v) :: m else (k1, v1) :: mapSet m k v

/-- The map read `m[k]`, `none` when the key is absent. -/
def mapGet : GoMap → GoString → Option GoString
  | [], _ => none
  | (k1, v1) :: m, k => if k1 = k then some v1 else mapGet m k

/-- The loop `for i, element := range row { jsonMap[f.fields[i]] = element }`,
from element number `i` on; `none` is the index-out-of-range panic. -/
def jsonMapLoop (fields : List GoString) : List GoString → Nat → GoMap → Option GoMap
  | [], _, jsonMap => some jsonMap
  | element :: rest, i, jsonMap =>
    match fields[i]? with
    | none => none
    | some name => jsonMapLoop fields rest (i + 1) (mapSet jsonMap name element)

/-- Byte-wise lexicographic `a <= b` on strings, the order in which
`json.Marshal` writes the keys of a map. -/
def bytesLe : GoString → GoString → Bool
  | [], _ => true
  | _ :: _, [] => false
  | a :: as, b :: bs => a < b || (a == b && bytesLe as bs)

/-- Insertion of an entry into a list of entries sorted by key. -/
def insertEntry (e : GoString × GoString) : GoMap → GoMap
  | [] => [e]
  | e1 :: m => if bytesLe e.1 e1.1 then e :: e1 :: m else e1 :: insertEntry e m

/-- The entries of a map sorted by key. -/
def sortEntries : GoMap → GoMap
  | [] => []
  | e :: m => insertEntry e (sortEntries m)

/-- The call `json.Marshal(jsonMap)` for a `map[string]string`, which cannot
fail: an object whose members are the entries sorted by key, without white
space. The encoder of a JSON string (quoting and escaping) belongs to
`encoding/json` and is the parameter `encodeString`. -/
def jsonMarshal (encodeString : GoString → GoString) (jsonMap : GoMap) : GoString :=
  [123] ++ stringsJoin
    ((sortEntries jsonMap).map (fun e => encodeString e.1 ++ [58] ++ encodeString e.2)) [44]
    ++ [125]

/-- The method `jsonFormatter.formatRow`. -/
def jsonFormatter.formatRow (encodeString : GoString → GoString) (f : jsonFormatter)
    (row : List GoString) : Option (GoString × Option GoError) :=
  if f.fields.length ≠ row.length then
    some ([], some (GoError.errorf (ascii "unexpected number of json fields")))
  else
    match jsonMapLoop f.fields row 0 [] with
    | none => none
    | some jsonMap => some (jsonMarshal encodeString jsonMap, none)

/-! ## The fallback pager -/

/-- The constant `fallbackPagerLineCount`. -/
def fallbackPagerLineCount : Int := 100

/-- An `io.Writer` whose state has type `σ`: `Write` returns the byte count,
the error and the new state. -/
structure ioWriter (σ : Type) where
  Write : σ → GoString → (Int × Option GoError) × σ

/-- The `fallbackPager` struct; `writer` is the state of the underlying
writer. -/
structure fallbackPager (σ : Type) where
  writer : σ
  linesLeft : Int

/-- The constructor `newFallbackPager`. -/
def newFallbackPager {σ : Type} (w : σ) : fallbackPager σ :=
  ⟨w, fallbackPagerLineCount⟩

/-- The call `bytes.Count(data, []byte{'\n'})`. -/
def countNewlines (data : GoString) : Int := (data.count 10 : Nat)

/-- The call `bytes.Split(data, []byte{'\n'})`. -/
def splitNewlines : GoString → List GoString
  | [] => [[]]
  | b :: data =>
    if b = 10 then [] :: splitNewlines data
    else
      match splitNewlines data with
      | [] => [[b]]
      | part :: parts => (b :: part) :: parts

/-- The slice expression `parts[:k]`; `none` is the out-of-range panic. -/
def sliceTo {α : Type} (parts : List α) (k : Int) : Option (List α) :=
  if 0 ≤ k ∧ k ≤ (parts.length : Int) then some (parts.take k.toNat) else none

/-- The method `fallbackPager.Write` over the underlying writer `w`. -/
def fallbackPager.Write {σ : Type} (w : ioWriter σ) (p : fallbackPager σ) (data : GoString) :
    Option ((Int × Option GoError) × fallbackPager σ) :=
  if p.linesLeft = 0 then
    some ((0, some GoError.errPagerNotFound), p)
  else
    let lines := countNewlines data
    let truncated : Option GoString :=
      if lines > p.linesLeft then
        (sliceTo (splitNewlines data) p.linesLeft).map (fun parts => stringsJoin parts [10] ++ [10])
      else some data
    match truncated with
    | none => none
    | some data1 =>
      let linesLeft1 := p.linesLeft - countNewlines data1
      let out := w.Write p.writer data1
      let err := if linesLeft1 = 0 then some GoError.errPagerNotFound else out.1.2
      some ((out.1.1, err), ⟨out.2, linesLeft1⟩)

/-- The method `fallbackPager.IsClosed`. -/
def fallbackPager.IsClosed {σ : Type} (p : fallbackPager σ) : Bool :=
  decide (p.linesLeft = 0)

/-- A writer that appends every payload to the bytes written so far and
reports the payload length, as a file or terminal does. -/
def bufferWriter : ioWriter GoString :=
  ⟨fun buf data => (((data.length : Int), none), buf ++ data)⟩

/-! ## Observers of the allocation loop -/

/-- The even shares of the loop `for adjusted` of `columnWidths`: the value
that `widthPerColumn` has in each pass that is executed, in order. The
recursion is that of `pinLoop`. -/
def pinLoopShares (columns : List auditTableColumn) :
    Nat → List Int → Int → Int → Int → List Int
  | 0, _, _, _, _ => []
  | fuel + 1, res, widthLeft, columnsLeft, widthPerColumn =>
    match pinPass widthPerColumn columns res widthLeft columnsLeft false with
    | (res1, widthLeft1, columnsLeft1, adjusted) =>
      if columnsLeft1 = 0 then [widthPerColumn]
      else
        match goDiv widthLeft1 columnsLeft1 with
        | none => [widthPerColumn]
        | some widthPerColumn1 =>
          if adjusted then
            widthPerColumn :: pinLoopShares columns fuel res1 widthLeft1 columnsLeft1 widthPerColumn1
          else [widthPerColumn]

/-- The even shares against which `columnWidths` compares the columns of a
formatter: none when the widths are cached or the first division panics. -/
def columnFormatter.evenShares (f : columnFormatter) : List Int :=
  match f.computedColumnWidths with
  | some _ => []
  | none =>
    let res := List.replicate f.columns.length (0 : Int)
    let columnsLeft : Int := f.columns.length
    let widthLeft : Int := f.tableWidth - 2 * ((f.columns.length : Int) - 1)
    match goDiv widthLeft columnsLeft with
    | none => []
    | some widthPerColumn =>
      pinLoopShares f.columns (f.columns.length + 1) res widthLeft columnsLeft widthPerColumn

/-! ## Writers, closers and the pager interface -/

/-- An `io.WriteCloser` whose state has type `σ`: an `io.Writer` with `Close`,
which returns the error and the new state. -/
structure ioWriteCloser (σ : Type) extends ioWriter σ where
  Close : σ → Option GoError × σ

/-- The method `fallbackPager.Close` over the underlying writer `w`. -/
def fallbackPager.Close {σ : Type} (w : ioWriteCloser σ) (p : fallbackPager σ) :
    Option GoError × fallbackPager σ :=
  ((w.Close p.writer).1, ⟨(w.Close p.writer).2, p.linesLeft⟩)

/-- The `pager` interface (`io.WriteCloser` with `IsClosed`) over a state of
type `π`. `Write` is `none` when it panics; `IsClosed` may change the state. -/
structure pager (π : Type) where
  Write : π → GoString → Option ((Int × Option GoError) × π)
  Close : π → Option GoError × π
  IsClosed : π → Bool × π

/-- The fallback pager as a `pager`, over the underlying writer `w`. -/
def fallbackPagerAsPager {σ : Type} (w : ioWriteCloser σ) : pager (fallbackPager σ) :=
  ⟨fun p data => fallbackPager.Write w.toioWriter p data,
   fun p => fallbackPager.Close w p,
   fun p => (fallbackPager.IsClosed p, p)⟩

/-- A sequence of calls of `fallbackPager.Write`, one per payload, on the same
pager; `none` when one of them panics. -/
def fallbackPager.writeAll {σ : Type} (w : ioWriter σ) :
    fallbackPager σ → List GoString → Option (fallbackPager σ)
  | p, [] => some p
  | p, data :: rest =>
    match fallbackPager.Write w p data with
    | none => none
    | some (_, p1) => fallbackPager.writeAll w p1 rest

/-- A writer that hands every payload to the writer `w` and keeps, next to
the state of `w`, the bytes it was handed so far. -/
def recordingWriter {σ : Type} (w : ioWriter σ) : ioWriter (σ × GoString) :=
  ⟨fun s data => ((w.Write s.1 data).1, ((w.Write s.1 data).2, s.2 ++ data))⟩

/-- The writer `bufferWriter` with a `Close` that always succeeds, as the
standard output of a terminal. -/
def bufferWriteCloser : ioWriteCloser GoString :=
  ⟨bufferWriter, fun buf => (none, buf)⟩

/-! ## Resolution of the pager command -/

/-- The function `pagerCommand`. The lookup `exec.LookPath` is the parameter
`lookPath` (`none` when the name does not resolve) and `pagerName` is the value
of `os.ExpandEnv(pagerEnvvar)`. Returns the path and the error. -/
def pagerCommand (lookPath : GoString → Option GoString) (pagerName : GoString) :
    GoString × Option GoError :=
  match lookPath pagerName with
  | some pager => (pager, none)
  | none =>
    match lookPath (ascii "less") with
    | some pager => (pager, none)
    | none =>
      match lookPath (ascii "more") with
      | some pager => (pager, none)
      | none => ([], some GoError.errPagerNotFound)

/-! ## The render loop of `AuditCommand.run` -/

/-- What `Next` of an event iterator returns: an event, the sentinel
`iterator.Done`, or another error. -/
inductive NextResult (E : Type) where
  | event (e : E)
  | done
  | failed (err : GoError)

/-- The interface `secrethub.AuditEventIterator` over a state of type `ι`, for
events of type `E`. -/
structure AuditEventIterator (ι E : Type) where
  Next : ι → NextResult E × ι

/-- The `auditTable` interface for events of type `E`; `row` returns the row
and the error. -/
structure auditTable (E : Type) where
  header : List GoString
  row : E → List GoString × Option GoError
  columns : List auditTableColumn

/-- The `tableFormatter` interface, with its two implementations. -/
inductive tableFormatter where
  | json (f : jsonFormatter)
  | column (f : columnFormatter)

/-- The method `printHeader` of a `tableFormatter`. -/
def tableFormatter.printHeader : tableFormatter → Bool
  | tableFormatter.json f => f.printHeader
  | tableFormatter.column f => f.printHeader

/-- The method `formatRow` of a `tableFormatter`; `none` when it panics. -/
def tableFormatter.formatRow (encodeString : GoString → GoString) :
    tableFormatter → List GoString → Option ((GoString × Option GoError) × tableFormatter)
  | tableFormatter.json f, row =>
    (f.formatRow encodeString row).map (fun r => (r, tableFormatter.json f))
  | tableFormatter.column f, row =>
    (f.formatRow row).map (fun r => (r.1, tableFormatter.column r.2))

/-- The choice of the formatter in `AuditCommand.run`: the JSON formatter over
the header when `cmd.json` is set, otherwise the column formatter for the
terminal width, `defaultTerminalWidth` when the probe `cmd.terminalWidth`
returned an error. -/
def AuditCommand.formatter {E : Type} (json : Bool) (terminalWidth : Int × Option GoError)
    (table : auditTable E) : tableFormatter :=
  if json then tableFormatter.json (newJSONFormatter table.header)
  else
    match terminalWidth with
    | (_, some _) => tableFormatter.column (newColumnFormatter 80 table.columns)
    | (width, none) => tableFormatter.column (newColumnFormatter width table.columns)

/-- The call `fmt.Fprintln(w, s)` on a pager for a string `s`: one `Write` of
the text followed by a newline. -/
def Fprintln {π : Type} (pg : pager π) (p : π) (s : GoString) :
    Option ((Int × Option GoError) × π) :=
  pg.Write p (s ++ [10])

/-- The variables of `AuditCommand.run` that change while it runs: the
iterator, the formatter and the pager. -/
structure runState (ι π : Type) where
  iter : ι
  formatter : tableFormatter
  sink : π

/-- The loop `for { ... }` of `AuditCommand.run`, from any of its iterations on;
each unit of fuel pays for one iteration. Returns the error with which `run`
leaves the loop (nil after `break`) and the state. -/
def runLoop {ι E π : Type} (encodeString : GoString → GoString)
    (iter : AuditEventIterator ι E) (table : auditTable E) (pg : pager π) :
    Nat → runState ι π → Option (Option GoError × runState ι π)
  | 0, _ => none
  | fuel + 1, s =>
    match iter.Next s.iter with
    | (NextResult.done, it1) => some (none, ⟨it1, s.formatter, s.sink⟩)
    | (NextResult.failed err, it1) => some (some err, ⟨it1, s.formatter, s.sink⟩)
    | (NextResult.event event, it1) =>
      match table.row event with
      | (_, some err) => some (some err, ⟨it1, s.formatter, s.sink⟩)
      | (row, none) =>
        match s.formatter.formatRow encodeString row with
        | none => none
        | some ((_, some err), fmtr1) => some (some err, ⟨it1, fmtr1, s.sink⟩)
        | some ((formattedRow, none), fmtr1) =>
          match pg.IsClosed s.sink with
          | (true, p1) => some (none, ⟨it1, fmtr1, p1⟩)
          | (false, p1) =>
            match Fprintln pg p1 formattedRow with
            | none => none
            | some ((_, some err), p2) => some (some err, ⟨it1, fmtr1, p2⟩)
            | some ((_, none), p2) =>
              runLoop encodeString iter table pg fuel ⟨it1, fmtr1, p2⟩

/-- The header part of `AuditCommand.run`: when the formatter asks for a
header, the header is formatted and written; the result of the write is
dropped. Returns the error with which `run` returns here, if any. -/
def writeHeader {ι E π : Type} (encodeString : GoString → GoString) (table : auditTable E)
    (pg : pager π) (s : runState ι π) : Option (Option GoError × runState ι π) :=
  if s.formatter.printHeader then
    match s.formatter.formatRow encodeString table.header with
    | none => none
    | some ((_, some err), fmtr1) => some (some err, ⟨s.iter, fmtr1, s.sink⟩)
    | some ((header, none), fmtr1) =>
      match Fprintln pg s.sink header with
      | none => none
      | some (_, p1) => some (none, ⟨s.iter, fmtr1, p1⟩)
  else some (none, s)

/-- The part of `AuditCommand.run` that follows `defer paginatedWriter.Close()`:
the header, the loop, and on every return the deferred `Close`, whose error is
dropped. -/
def runWithPager {ι E π : Type} (encodeString : GoString → GoString)
    (iter : AuditEventIterator ι E) (table : auditTable E) (pg : pager π)
    (fuel : Nat) (s : runState ι π) : Option (Option GoError × runState ι π) :=
  let body : Option (Option GoError × runState ι π) :=
    match writeHeader encodeString table pg s with
    | none => none
    | some (some err, s1) => some (some err, s1)
    | some (none, s1) => runLoop encodeString iter table pg fuel s1
  body.map (fun r => (r.1, ⟨r.2.iter, r.2.formatter, (pg.Close r.2.sink).2⟩))

/-- The method `AuditCommand.run` from the call `cmd.newPaginatedWriter(os.Stdout)`
on. `acquired` is what that call returned, `pg` the methods of the pager it
returns, `stdout` the standard output with the state `out`, which backs the
fallback pager. The pager in the result is the paginated one (`Sum.inl`), the
fallback one (`Sum.inr`), or none when `run` returned before it had one. -/
def AuditCommand.run {ι E π σ : Type} (encodeString : GoString → GoString)
    (iter : AuditEventIterator ι E) (table : auditTable E) (pg : pager π)
    (stdout : ioWriteCloser σ) (out : σ) (acquired : Except GoError π)
    (fuel : Nat) (it : ι) (formatter : tableFormatter) :
    Option (Option GoError × runState ι (Option (π ⊕ fallbackPager σ))) :=
  match acquired with
  | Except.ok p =>
    (runWithPager encodeString iter table pg fuel ⟨it, formatter, p⟩).map
      (fun r => (r.1, ⟨r.2.iter, r.2.formatter, some (Sum.inl r.2.sink)⟩))
  | Except.error err =>
    if err = GoError.errPagerNotFound then
      (runWithPager encodeString iter table (fallbackPagerAsPager stdout) fuel
        ⟨it, formatter, newFallbackPager out⟩).map
        (fun r => (r.1, ⟨r.2.iter, r.2.formatter, some (Sum.inr r.2.sink)⟩))
    else some (some err, ⟨it, formatter, none⟩)

/-- An event iterator over a list: the events of the list in order, then
`iterator.Done` for ever. -/
def listIterator (E : Type) : AuditEventIterator (List E) E :=
  ⟨fun es =>
    match es with
    | [] => (NextResult.done, [])
    | e :: rest => (NextResult.event e, rest)⟩

/-- The state of a pager with a record of the calls made on it: the payloads
of the `Write` calls, in order, and the number of `Close` calls. -/
structure recorded (π : Type) where
  inner : π
  writes : List GoString
  closes : Nat

/-- A pager that behaves as `pg` and records the calls made on it. -/
def recordingPager {π : Type} (pg : pager π) : pager (recorded π) :=
  ⟨fun p data => (pg.Write p.inner data).map (fun r => (r.1, ⟨r.2, p.writes ++ [data], p.closes⟩)),
   fun p => ((pg.Close p.inner).1, ⟨(pg.Close p.inner).2, p.writes, p.closes + 1⟩),
   fun p => ((pg.IsClosed p.inner).1, ⟨(pg.IsClosed p.inner).2, p.writes, p.closes⟩)⟩

/-! ## The audit tables -/

/-- What the row mappers take from the rest of the package and from the
`api.Audit` event of type `E`: the helpers `getAuditActor`, `getEventAction`
and `getAuditSubject` (over a tree of type `T`), the field `IPAddress`, and
`formatLoggedAt` for `table.timeFormatter.Format(event.LoggedAt)`. -/
structure auditHelpers (E T : Type) where
  getAuditActor : E → GoString × Option GoError
  getEventAction : E → GoString
  getAuditSubject : E → T → GoString × Option GoError
  IPAddress : E → GoString
  formatLoggedAt : E → GoString

/-- The `baseAuditTable` struct; its time formatter is part of the
helpers. -/
structure baseAuditTable where
  tableColumns : List auditTableColumn

/-- The constructor `newBaseAuditTable`. -/
def newBaseAuditTable (midColumns : List auditTableColumn) : baseAuditTable :=
  ⟨newBaseAuditTableColumns midColumns⟩

/-- The method `baseAuditTable.header`. -/
def baseAuditTable.header (table : baseAuditTable) : List GoString :=
  table.tableColumns.map (fun col => col.name)

/-- The method `baseAuditTable.row`. -/
def baseAuditTable.row {E T : Type} (h : auditHelpers E T) (_table : baseAuditTable)
    (event : E) (content : List GoString) : List GoString × Option GoError :=
  match h.getAuditActor event with
  | (_, some err) => ([], some err)
  | (actor, none) =>
    (([actor, h.getEventAction event] ++ content)
      ++ [h.IPAddress event, h.formatLoggedAt event], none)

/-- The method `baseAuditTable.columns`. -/
def baseAuditTable.columns (table : baseAuditTable) : List auditTableColumn :=
  table.tableColumns

/-- The `secretAuditTable` struct. -/
structure secretAuditTable where
  base : baseAuditTable

/-- The constructor `newSecretAuditTable`. -/
def newSecretAuditTable : secretAuditTable :=
  ⟨newBaseAuditTable []⟩

/-- The method `secretAuditTable.header`. -/
def secretAuditTable.header (table : secretAuditTable) : List GoString :=
  table.base.header

/-- The method `secretAuditTable.row`. -/
def secretAuditTable.row {E T : Type} (h : auditHelpers E T) (table : secretAuditTable)
    (event : E) : List GoString × Option GoError :=
  table.base.row h event []

/-- The `repoAuditTable` struct, over a tree of type `T`. -/
structure repoAuditTable (T : Type) where
  base : baseAuditTable
  tree : T

/-- The constructor `newRepoAuditTable`. -/
def newRepoAuditTable {T : Type} (tree : T) : repoAuditTable T :=
  ⟨newBaseAuditTable [⟨ascii "EVENT SUBJECT", 0⟩], tree⟩

/-- The method `repoAuditTable.row`. -/
def repoAuditTable.row {E T : Type} (h : auditHelpers E T) (table : repoAuditTable T)
    (event : E) : List GoString × Option GoError :=
  match h.getAuditSubject event table.tree with
  | (_, some err) => ([], some err)
  | (subject, none) => table.base.row h event [subject]

/-- The secret audit table as an `auditTable`; `columns` is the method of the
embedded `baseAuditTable`. -/
def secretAuditTable.toAuditTable {E T : Type} (h : auditHelpers E T)
    (table : secretAuditTable) : auditTable E :=
  ⟨table.header, table.row h, table.base.columns⟩

/-- The repo audit table as an `auditTable`; `header` and `columns` are the
methods of the embedded `baseAuditTable`. -/
def repoAuditTable.toAuditTable {E T : Type} (h : auditHelpers E T)
    (table : repoAuditTable T) : auditTable E :=
  ⟨table.base.header, table.row h, table.base.columns⟩

/-! ## The paginated writer -/

/-- Where the goroutine started by `newPaginatedWriter` stands: in
`cmd.Wait()`, between the return of `cmd.Wait()` and the send on `done`, or
after the send. -/
inductive watcherState where
  | waiting
  | sending
  | finished
deriving DecidableEq, Repr

/-- The `paginatedWriter` struct with what its fields refer to. `writer` is
the state of the pipe to the standard input of the pager; `done` is the number
of values in the buffer of the channel `done`, whose capacity is 1; `closed` is
the latch. For the subprocess `cmd`, `exited` tells whether it has terminated;
`watcher` tells where the goroutine stands and `sent` how many values it has
sent on `done`. -/
structure paginatedWriter (ω : Type) where
  writer : ω
  exited : Bool
  watcher : watcherState
  sent : Nat
  done : Nat
  closed : Bool

/-- The writer that `newPaginatedWriter` returns once the pager is started:
the subprocess runs, the goroutine is in `cmd.Wait()`, the channel is empty
and the latch is not set. -/
def newPaginatedWriterState {ω : Type} (writer : ω) : paginatedWriter ω :=
  ⟨writer, false, watcherState.waiting, 0, 0, false⟩

/-- The method `paginatedWriter.Write`. -/
def paginatedWriter.Write {ω : Type} (w : ioWriteCloser ω) (p : paginatedWriter ω)
    (data : GoString) : (Int × Option GoError) × paginatedWriter ω :=
  ((w.Write p.writer data).1,
    ⟨(w.Write p.writer data).2, p.exited, p.watcher, p.sent, p.done, p.closed⟩)

/-- The method `paginatedWriter.IsClosed`: the latch, or a receive from `done`
when a value is ready (`select` with a `default` case), which sets the
latch. -/
def paginatedWriter.IsClosed {ω : Type} (p : paginatedWriter ω) : Bool × paginatedWriter ω :=
  if p.closed then (true, p)
  else if 0 < p.done then (true, ⟨p.writer, p.exited, p.watcher, p.sent, p.done - 1, true⟩)
  else (false, p)

/-- How a call of `paginatedWriter.Close` goes on: it has returned with an
error value, or it waits in the receive `<-p.done`. -/
inductive closeOutcome (ω : Type) where
  | returned (err : Option GoError) (p : paginatedWriter ω)
  | waits (p : paginatedWriter ω)

/-- The method `paginatedWriter.Close` up to its return or to the point where
the receive `<-p.done` has to wait. -/
def paginatedWriter.Close {ω : Type} (w : ioWriteCloser ω) (p : paginatedWriter ω) :
    closeOutcome ω :=
  match w.Close p.writer with
  | (some err, writer1) =>
    closeOutcome.returned (some err) ⟨writer1, p.exited, p.watcher, p.sent, p.done, p.closed⟩
  | (none, writer1) =>
    if p.closed then
      closeOutcome.returned none ⟨writer1, p.exited, p.watcher, p.sent, p.done, p.closed⟩
    else if 0 < p.done then
      closeOutcome.returned none ⟨writer1, p.exited, p.watcher, p.sent, p.done - 1, p.closed⟩
    else closeOutcome.waits ⟨writer1, p.exited, p.watcher, p.sent, p.done, p.closed⟩

/-- The end of a call of `paginatedWriter.Close` that waits in the receive
`<-p.done`: once a value is in the channel it is received and `Close` returns
nil; `none` as long as the channel is empty. -/
def paginatedWriter.closeResume {ω : Type} (p : paginatedWriter ω) :
    Option (paginatedWriter ω) :=
  if 0 < p.done then some ⟨p.writer, p.exited, p.watcher, p.sent, p.done - 1, p.closed⟩
  else none

/-- The steps of the subprocess and of the goroutine
`go func() { _ = cmd.Wait(); done <- struct{}{} }()`: the subprocess
terminates; `cmd.Wait()` returns, which it does only after the subprocess has
terminated; the value is sent on `done`, which needs room in the buffer. -/
inductive watcherStep {ω : Type} : paginatedWriter ω → paginatedWriter ω → Prop where
  | exit (p : paginatedWriter ω) :
      watcherStep p ⟨p.writer, true, p.watcher, p.sent, p.done, p.closed⟩
  | waitReturns (p : paginatedWriter ω) (hexit : p.exited = true)
      (hw : p.watcher = watcherState.waiting) :
      watcherStep p ⟨p.writer, p.exited, watcherState.sending, p.sent, p.done, p.closed⟩
  | send (p : paginatedWriter ω) (hw : p.watcher = watcherState.sending) (hroom : p.done < 1) :
      watcherStep p ⟨p.writer, p.exited, watcherState.finished, p.sent + 1, p.done + 1, p.closed⟩

/-- The states that a paginated writer over the pipe `w` can be in: the one
after `newPaginatedWriter`, and those reached by steps of the subprocess and
the goroutine and by calls of `Write`, `IsClosed` and `Close` in any order. -/
inductive paginatedWriter.Reachable {ω : Type} (w : ioWriteCloser ω) :
    paginatedWriter ω → Prop where
  | start (writer : ω) : paginatedWriter.Reachable w (newPaginatedWriterState writer)
  | step (p p1 : paginatedWriter ω) (h : paginatedWriter.Reachable w p)
      (hstep : watcherStep p p1) : paginatedWriter.Reachable w p1
  | write (p : paginatedWriter ω) (data : GoString) (h : paginatedWriter.Reachable w p) :
      paginatedWriter.Reachable w (paginatedWriter.Write w p data).2
  | isClosed (p : paginatedWriter ω) (h : paginatedWriter.Reachable w p) :
      paginatedWriter.Reachable w (paginatedWriter.IsClosed p).2
  | closeReturned (p p1 : paginatedWriter ω) (err : Option GoError)
      (h : paginatedWriter.Reachable w p)
      (hclose : paginatedWriter.Close w p = closeOutcome.returned err p1) :
      paginatedWriter.Reachable w p1
  | closeWaits (p p1 : paginatedWriter ω) (h : paginatedWriter.Reachable w p)
      (hclose : paginatedWriter.Close w p = closeOutcome.waits p1) :
      paginatedWriter.Reachable w p1
  | closeResumed (p p1 : paginatedWriter ω) (h : paginatedWriter.Reachable w p)
      (hresume : paginatedWriter.closeResume p = some p1) :
      paginatedWriter.Reachable w p1


/-! ## The states of the allocation loop -/

/-- The states of the loop `for adjusted { ... }` of `columnWidths`: the
values `(res, widthLeft, columnsLeft, widthPerColumn)` at the start of every
pass that is executed, in order, followed by the values with which the loop is
left (before the leftover is spread). The recursion is that of `pinLoop`. -/
def pinLoopTrace (columns : List auditTableColumn) :
    Nat → List Int → Int → Int → Int → List (List Int × Int × Int × Int)
  | 0, res, widthLeft, columnsLeft, widthPerColumn =>
    [(res, widthLeft, columnsLeft, widthPerColumn)]
  | fuel + 1, res, widthLeft, columnsLeft, widthPerColumn =>
    match pinPass widthPerColumn columns res widthLeft columnsLeft false with
    | (res1, widthLeft1, columnsLeft1, adjusted) =>
      if columnsLeft1 = 0 then
        [(res, widthLeft, columnsLeft, widthPerColumn),
          (res1, widthLeft1, columnsLeft1, widthPerColumn)]
      else
        match goDiv widthLeft1 columnsLeft1 with
        | none => [(res, widthLeft, columnsLeft, widthPerColumn)]
        | some widthPerColumn1 =>
          if adjusted then
            (res, widthLeft, columnsLeft, widthPerColumn) ::
              pinLoopTrace columns fuel res1 widthLeft1 columnsLeft1 widthPerColumn1
          else
            [(res, widthLeft, columnsLeft, widthPerColumn),
              (res1, widthLeft1, columnsLeft1, widthPerColumn1)]

/-- The states of the allocation loop of a formatter: none when the widths are
cached or the first division panics. -/
def columnFormatter.loopStates (f : columnFormatter) : List (List Int × Int × Int × Int) :=
  match f.computedColumnWidths with
  | some _ => []
  | none =>
    let res := List.replicate f.columns.length (0 : Int)
    let columnsLeft : Int := f.columns.length
    let widthLeft : Int := f.tableWidth - 2 * ((f.columns.length : Int) - 1)
    match goDiv widthLeft columnsLeft with
    | none => []
    | some widthPerColumn =>
      pinLoopTrace f.columns (f.columns.length + 1) res widthLeft columnsLeft widthPerColumn

/-! ## The import of a Thycotic export (internals/secrethub/import_thycotic.go) -/

/-- The call `strings.ReplaceAll(s, old, new)` for strings `old` and `new` of
one byte each. -/
def replaceByte (s : GoString) (old new : UInt8) : GoString :=
  s.map (fun b => if b = old then new else b)

/-- What a call of `csvReader.Read()` returns besides `io.EOF`: a record, or
an error with its text. -/
inductive csvRead where
  | record (fields : List GoString)
  | failed (text : GoString)
deriving DecidableEq, Repr

/-- The Go set `map[string]struct{}`, kept as the list of its keys. -/
abbrev GoSet := List GoString

/-- The assignment `dirs[k] = struct{}{}`. -/
def setAdd (dirs : GoSet) (k : GoString) : GoSet :=
  if k ∈ dirs then dirs else dirs ++ [k]

/-- The loop `for i, field := range record[1:]` of `ImportThycoticCommand.Run`,
from index `i` on, over the fields that are left. `secretpath.Join` is the
parameter `join`. The result is the map `secrets`, or the error with which
`Run` returns; `none` is the index-out-of-range panic of `header[i]`. -/
def registerFields (join : GoString → GoString → GoString) (header : List GoString)
    (dirPath : GoString) : List GoString → Nat → GoMap → Option (GoError ⊕ GoMap)
  | [], _, secrets => some (Sum.inr secrets)
  | field :: rest, i, secrets =>
    match header[i]? with
    | none => none
    | some name =>
      let secretPath := join dirPath (replaceByte name 32 95)
      match mapGet secrets secretPath with
      | some _ =>
        some (Sum.inl (GoError.errorf
          (ascii "secret \x27" ++ secretPath ++ ascii "\x27 encountered twice")))
      | none => registerFields join header dirPath rest (i + 1) (mapSet secrets secretPath field)

/-- The loop `for { record, err := csvReader.Read() ... }` of
`ImportThycoticCommand.Run` over the reads that are left, the end of the list
being `io.EOF`. The result is the pair of the maps `dirs` and `secrets`, or
the error with which `Run` returns; `none` is a run-time panic (`record[1]`,
`record[0]` or `header[i]` out of range). -/
def importRecords (join : GoString → GoString → GoString) (header : List GoString) :
    List csvRead → GoSet → GoMap → Option (GoError ⊕ (GoSet × GoMap))
  | [], dirs, secrets => some (Sum.inr (dirs, secrets))
  | csvRead.failed text :: _, _, _ =>
    some (Sum.inl (GoError.errorf (ascii "could not read record: " ++ text)))
  | csvRead.record record :: reads, dirs, secrets =>
    match record[1]?, record[0]? with
    | some folderPath, some secretName =>
      if (47 : UInt8) ∈ folderPath then
        some (Sum.inl (GoError.errorf (ascii "path " ++ folderPath ++
          ascii " contains a \x27/\x27 character (forward slash), which is not allowed; paths should be separated with \x27\\\x27 characters (backslash)")))
      else
        let dirPath := replaceByte (join (replaceByte folderPath 92 47) secretName) 32 95
        match registerFields join header dirPath (record.drop 1) 0 secrets with
        | none => none
        | some (Sum.inl err) => some (Sum.inl err)
        | some (Sum.inr secrets1) => importRecords join header reads (setAdd dirs dirPath) secrets1
    | _, _ => none

/-- The method `ImportThycoticCommand.Run` from the checks of the header that
`csvReader.Read()` returned to the end of the loop over the records:
`newClient` is the error value of `cmd.newClient()`, `reads` what the later
calls of `csvReader.Read()` return. The result is the pair of the maps `dirs`
and `secrets` that `Run` goes on to print and to create. -/
def ImportThycoticCommand.collect (join : GoString → GoString → GoString)
    (newClient : Option GoError) (header : List GoString) (reads : List csvRead) :
    Option (GoError ⊕ (GoSet × GoMap)) :=
  if header.length < 1 ∨ header[0]? ≠ some (ascii "SecretName") then
    some (Sum.inl (GoError.errorf
      (ascii "first column of .csv file should contain the SecretName")))
  else if header.length < 2 ∨ header[1]? ≠ some (ascii "FolderPath") then
    some (Sum.inl (GoError.errorf
      (ascii "second column of .csv file should contain the FolderPath")))
  else if header.length < 3 then
    some (Sum.inl (GoError.errorf (ascii "nothing to import; there should be at least one column next to SecretName and FolderPath, that contains secrets to import")))
  else
    match newClient with
    | some err => some (Sum.inl err)
    | none => importRecords join header reads [] []

/-! ## The method `AuditCommand.Run` -/

/-- The whole of the method `AuditCommand.Run`, which is `cmd.beforeRun()`,
setting the time formatter that is part of the helpers of the table, followed
by `cmd.run()`: the check of `cmd.perPage`, the call `cmd.iterAndAuditTable()`,
of which `opened` is the error and `iter`, `it` and `table` are the iterator
and the table it returns, the choice of the formatter for `cmd.json` and the
probed terminal width, and the rest of `run` as `AuditCommand.run` embeds it.
The state is `none` when the method returns before it has a formatter. -/
def AuditCommand.Run {ι E π σ : Type} (encodeString : GoString → GoString)
    (perPage : Int) (opened : Option GoError) (json : Bool)
    (terminalWidth : Int × Option GoError)
    (iter : AuditEventIterator ι E) (table : auditTable E) (pg : pager π)
    (stdout : ioWriteCloser σ) (out : σ) (acquired : Except GoError π)
    (fuel : Nat) (it : ι) :
    Option (Option GoError × Option (runState ι (Option (π ⊕ fallbackPager σ)))) :=
  if perPage < 1 then
    some (some (GoError.errorf
      (ascii "per-page should be positive, got " ++ ascii (toString perPage))), none)
  else
    match opened with
    | some err => some (some err, none)
    | none =>
      (AuditCommand.run encodeString iter table pg stdout out acquired fuel it
        (AuditCommand.formatter json terminalWidth table)).map (fun r => (r.1, some r.2))

/-! ## Predicates used in the proofs -/

/-- The relation between the schema and the slice `res` during the loop: an
entry is `0` (unpinned) or the non-zero `maxWidth` of its column. -/
def Pinned (columns : List auditTableColumn) (res : List Int) : Prop :=
  List.Forall₂ (fun col r => r = 0 ∨ (r = col.maxWidth ∧ col.maxWidth ≠ 0)) columns res

/-- How the slice `pinned`, reached from the slice `start` by passes with the
even shares `shares`, relates to the schema: a set `maxWidth` below one of the
shares is pinned, a pinned entry was pinned before or is below one of the
shares, and what was pinned stays. -/
structure TraceFacts (cols : List auditTableColumn) (start : List Int) (shares : List Int)
    (pinned : List Int) : Prop where
  pin : ∀ (i : Nat) (col : auditTableColumn), cols[i]? = some col → col.maxWidth ≠ 0 →
    (∃ s ∈ shares, col.maxWidth < s) → pinned[i]? = some col.maxWidth
  origin : ∀ (i : Nat) (col : auditTableColumn) (r : Int), cols[i]? = some col →
    pinned[i]? = some r → r ≠ 0 →
    start[i]? = some r ∨ (col.maxWidth ≠ 0 ∧ ∃ s ∈ shares, col.maxWidth < s)
  keep : ∀ (i : Nat) (r : Int), start[i]? = some r → r ≠ 0 → pinned[i]? = some r

/-- The invariant of the loop `for adjusted` at the start of a pass, for the
width `total` that is distributed. -/
structure LoopInv (cols : List auditTableColumn) (total : Int) (res : List Int)
    (wl cl wpc : Int) : Prop where
  pinned : Pinned cols res
  count : cl = (res.count 0 : Int)
  sum : wl + res.sum = total
  share : 1 ≤ wpc
  pool : cl * wpc ≤ wl
  even : wpc = Int.tdiv wl cl

/-- What holds of the pair `(res, widthPerColumn)` with which the loop is
left, started on the slice `start` and run with the even shares `shares`.
The slice `pinned` is `res` before the leftover is spread. Either every column
is pinned and the leftover `L` was spread, or some column is unpinned, `res`
is `pinned`, `widthPerColumn` is the even share of the pool and no unpinned
column has a set `maxWidth` below it. -/
def LoopPost (cols : List auditTableColumn) (total : Int) (start shares : List Int)
    (res : List Int) (wpc : Int) : Prop :=
  ∃ pinned, Pinned cols pinned ∧ TraceFacts cols start shares pinned ∧
    ((pinned.count 0 = 0 ∧ ∃ L, L + pinned.sum = total ∧ 0 ≤ L ∧
        res = pinned.map (fun r => r + Int.tdiv L pinned.length))
    ∨ (0 < pinned.count 0 ∧ res = pinned ∧ 1 ≤ wpc ∧
        (∃ wl, wl + res.sum = total ∧ wpc = Int.tdiv wl (res.count 0 : Nat) ∧ 0 ≤ wl) ∧
        ∀ (i : Nat) (col : auditTableColumn), cols[i]? = some col → res[i]? = some 0 →
          col.maxWidth = 0 ∨ wpc ≤ col.maxWidth))

/-- The entry `splitCells[j][i]` of a grid, the empty string outside of it. -/
def cellAt (g : List (List GoString)) (j i : Nat) : GoString :=
  (g.getD j []).getD i []

/-- A grid of `lines` rows that all have `n` entries. -/
def GridDims (g : List (List GoString)) (lines n : Nat) : Prop :=
  g.length = lines ∧ ∀ r ∈ g, r.length = n

/-- Slice number `j` of a cell in a column of width `w`: the bytes
`[j*w, (j+1)*w)` of the cell, right-padded with spaces to `w` bytes. -/
def sliceAt (cell : GoString) (w j : Nat) : GoString :=
  ((cell.drop (j * w)).take w) ++ List.replicate (w - ((cell.drop (j * w)).take w).length) 32

/-- The number of slices of a cell of `len` bytes in a column of width `w`:
`len / w`, rounded up. -/
def cellLines (len w : Nat) : Nat :=
  if len % w ≠ 0 then len / w + 1 else len / w

/-- The value of `maxLinesPerCell` after the first loop of `formatRow` over the
given cells and their column widths, started from `m`: the maximum of `m` and
of the numbers of slices of the cells. -/
def maxLinesFrom : List GoString → List Int → Nat → Nat
  | cell :: rest, w :: ws, m => maxLinesFrom rest ws (max m (cellLines cell.length w.toNat))
  | _, _, m => m

/-- Row `j` of the grid of a row of cells: slice number `j` of every cell in
its column. -/
def gridRow (ws : List Int) (row : List GoString) (j : Nat) : List GoString :=
  List.zipWith (fun cell w => sliceAt cell w.toNat j) row ws

/-- The grid of `lines` rows of a row of cells. -/
def gridSpec (ws : List Int) (row : List GoString) (lines : Nat) : List (List GoString) :=
  (List.range lines).map (gridRow ws row)

/-- The text of a row of cells for the given column widths: the rows of the
grid, each joined with two spaces, joined with newlines. -/
def formatRowSpec (ws : List Int) (row : List GoString) : GoString :=
  List.intercalate [10]
    ((gridSpec ws row (maxLinesFrom row ws 1)).map (fun line => List.intercalate [32, 32] line))

/-- The entries of column `i` of a grid, from the first line to the last. -/
def gridColumn (grid : List (List GoString)) (i : Nat) : List GoString :=
  grid.map (fun line => line.getD i [])

/-! ## Inputs of the examples -/

/-- A schema of two columns of maximum width 2. -/
def twoNarrowColumns : List auditTableColumn := [⟨ascii "A", 2⟩, ⟨ascii "B", 2⟩]

/-- A JSON string encoder for the examples: the text between double quotes,
without escaping. -/
def quoteOnly (s : GoString) : GoString := [34] ++ s ++ [34]

/-- The line-budget invariant of a fallback pager over a recording writer: the
budget is between 0 and `fallbackPagerLineCount`, and the newline bytes handed
to the underlying writer so far are what is missing from the budget. -/
def BudgetInv {σ : Type} (p : fallbackPager (σ × GoString)) : Prop :=
  0 ≤ p.linesLeft ∧ p.linesLeft ≤ fallbackPagerLineCount ∧
    countNewlines p.writer.2 + p.linesLeft = fallbackPagerLineCount

/-- The iterator yields, from the state `it` on, the events `es` and then
`iterator.Done`. -/
def Yields {ι E : Type} (iter : AuditEventIterator ι E) : ι → List E → Prop
  | it, [] => (iter.Next it).1 = NextResult.done
  | it, e :: es => (iter.Next it).1 = NextResult.event e ∧ Yields iter (iter.Next it).2 es

/-- The texts that a formatter returns for the given rows, formatted one
after the other, and the formatter after them; `none` when a call of
`formatRow` panics or returns an error. -/
def formatAll (encodeString : GoString → GoString) :
    tableFormatter → List (List GoString) → Option (List GoString × tableFormatter)
  | fmtr, [] => some ([], fmtr)
  | fmtr, row :: rows =>
    match fmtr.formatRow encodeString row with
    | some ((text, none), fmtr1) =>
      (formatAll encodeString fmtr1 rows).map (fun r => (text :: r.1, r.2))
    | _ => none

/-- The rows that `AuditCommand.run` formats for the events `es`: the header
when the formatter asks for one, then the row of every event. -/
def rowsOf {E : Type} (table : auditTable E) (fmtr : tableFormatter) (es : List E) :
    List (List GoString) :=
  (if fmtr.printHeader then [table.header] else []) ++ es.map (fun e => (table.row e).1)

/-- One iteration of the loop of `AuditCommand.run` that runs to its end:
the iterator gives an event, the event is mapped and formatted without error,
the pager is not closed and accepts the row. -/
def NormalStep {ι E π : Type} (encodeString : GoString → GoString)
    (iter : AuditEventIterator ι E) (table : auditTable E) (pg : pager π)
    (s s1 : runState ι π) : Prop :=
  ∃ (e : E) (row : List GoString) (text : GoString) (p1 : π) (n : Int),
    iter.Next s.iter = (NextResult.event e, s1.iter) ∧ table.row e = (row, none) ∧
    s.formatter.formatRow encodeString row = some ((text, none), s1.formatter) ∧
    pg.IsClosed s.sink = (false, p1) ∧
    Fprintln pg p1 text = some ((n, none), s1.sink)

/-- A run of `k` iterations of the loop that all run to their end. -/
def NormalSteps {ι E π : Type} (encodeString : GoString → GoString)
    (iter : AuditEventIterator ι E) (table : auditTable E) (pg : pager π) :
    Nat → runState ι π → runState ι π → Prop
  | 0, s, s1 => s1 = s
  | k + 1, s, s1 => ∃ s0, NormalStep encodeString iter table pg s s0 ∧
      NormalSteps encodeString iter table pg k s0 s1

/-! ## Inputs of the examples of the render loop -/

/-- A table with the single column AUTHOR for events that are author names;
the mapping fails on the empty name. -/
def authorTable : auditTable GoString :=
  ⟨[ascii "AUTHOR"],
   fun e => if e = [] then ([], some (GoError.errorf (ascii "no author"))) else ([e], none),
   [⟨ascii "AUTHOR", 32⟩]⟩

/-- A pager over a buffer that accepts every write and never reports
closed. -/
def openPager : pager GoString :=
  ⟨fun buf data => some (((data.length : Int), none), buf ++ data),
   fun buf => (none, buf),
   fun buf => (false, buf)⟩

/-- A pager over a buffer that accepts every write and reports closed once
something was written, as a pager that its reader quits after the first
row. -/
def quitPager : pager GoString :=
  ⟨fun buf data => some (((data.length : Int), none), buf ++ data),
   fun buf => (none, buf),
   fun buf => (!buf.isEmpty, buf)⟩

/-- The number of lines that `fmt.Fprintln` writes for the given texts: for
each text its newline bytes and the newline that ends it. -/
def linesOf (texts : List GoString) : Int :=
  (texts.map (fun t => countNewlines t + 1)).sum

/-- What holds in every state of a paginated writer: the goroutine sends at
most one value, after the subprocess has terminated, and a value in the
channel or a set latch come from that send. -/
def WatcherInv {ω : Type} (p : paginatedWriter ω) : Prop :=
  (p.watcher = watcherState.waiting → p.sent = 0 ∧ p.done = 0 ∧ p.closed = false) ∧
  (p.watcher = watcherState.sending → p.sent = 0 ∧ p.done = 0 ∧ p.closed = false ∧
    p.exited = true) ∧
  (p.watcher = watcherState.finished → p.sent = 1 ∧ p.done ≤ 1 ∧ p.exited = true)

/-- A pipe whose `Close` fails. -/
def brokenPipe : ioWriteCloser GoString :=
  ⟨bufferWriter, fun buf => (some (GoError.other 1), buf)⟩


/-- Helpers over events that are an author name: the actor is the name, the
action is "read", the subject is "secret". -/
def plainHelpers : auditHelpers GoString Unit :=
  ⟨fun e => (e, none), fun _ => ascii "read", fun _ _ => (ascii "secret", none),
   fun _ => ascii "::1", fun _ => ascii "now"⟩

/-- An executable lookup that resolves `more` only. -/
def onlyMore (name : GoString) : Option GoString :=
  if name = ascii "more" then some (ascii "/bin/more") else none

/-! ## Inputs of the examples of the import -/

/-- A join of two path elements with a slash, standing for `secretpath.Join`
on elements that need no cleaning. -/
def slashJoin (a b : GoString) : GoString := a ++ [47] ++ b

/-! ## Predicates on the last state of the allocation loop -/

/-- What holds of the state `last` with which the loop of `columnWidths` is
left and of the pair `(res, widthPerColumn)` that it hands to the rest of the
function, for the width `total` that is distributed: the entries of `last` are
`0` or the `maxWidth` of their column, `columnsLeft` counts the entries `0`,
the pinned widths and the pool `widthLeft >= 0` add up to `total`; either no
entry is `0` and `res` is `last` with the share of the pool added to every
entry, or some entry is `0`, `res` is `last`, `widthPerColumn >= 1` is the even
share of the pool and no column left at `0` has a set `maxWidth` below it. -/
def LoopExit (cols : List auditTableColumn) (total : Int) (start shares : List Int)
    (last : List Int × Int × Int × Int) (res : List Int) (wpc : Int) : Prop :=
  Pinned cols last.1 ∧ TraceFacts cols start shares last.1 ∧
    last.2.2.1 = (last.1.count 0 : Int) ∧ last.2.1 + last.1.sum = total ∧ 0 ≤ last.2.1 ∧
    ((last.1.count 0 = 0 ∧ res = last.1.map (fun r => r + Int.tdiv last.2.1 last.1.length))
    ∨ (0 < last.1.count 0 ∧ res = last.1 ∧ wpc = last.2.2.2 ∧ 1 ≤ wpc ∧
        wpc = Int.tdiv last.2.1 last.2.2.1 ∧
        ∀ (i : Nat) (col : auditTableColumn), cols[i]? = some col → last.1[i]? = some 0 →
          col.maxWidth = 0 ∨ wpc ≤ col.maxWidth))

/-! ## Inputs of the examples of the allocator -/

/-- The columns of the repo audit table. -/
def repoColumns : List auditTableColumn :=
  newBaseAuditTableColumns [⟨ascii "EVENT SUBJECT", 0⟩]

/-! ## The trimming of the round-trip law and a table of the examples -/

/-- The text without its trailing spaces, as `strings.TrimRight(s, " ")`
gives it: the trimming of the round-trip law of the wrapper. -/
def trimRightSpaces (s : GoString) : GoString :=
  (s.reverse.dropWhile (fun b => b = 32)).reverse

/-- The secret audit table over events that are author names. -/
def plainSecretTable : auditTable GoString :=
  newSecretAuditTable.toAuditTable plainHelpers
/-! ## The column-width allocator: one pass -/

theorem pinPass_length (wpc : Int) : ∀ (cols : List auditTableColumn) (res : List Int)
    (wl cl : Int) (adj : Bool), (pinPass wpc cols res wl cl adj).1.length = res.length := by
  intro cols
  induction cols with
  | nil => intro res wl cl adj; simp [pinPass]
  | cons col cols ih =>
    intro res wl cl adj
    cases res with
    | nil => simp [pinPass]
    | cons r res =>
      simp only [pinPass]
      split_ifs <;> simp [ih]

theorem pinPass_sum (wpc : Int) : ∀ (cols : List auditTableColumn) (res : List Int)
    (wl cl : Int) (adj : Bool),
    (pinPass wpc cols res wl cl adj).2.1 + (pinPass wpc cols res wl cl adj).1.sum
      = wl + res.sum := by
  intro cols
  induction cols with
  | nil => intro res wl cl adj; simp [pinPass]
  | cons col cols ih =>
    intro res wl cl adj
    cases res with
    | nil => simp [pinPass]
    | cons r res =>
      simp only [pinPass]
      split_ifs with h
      · have := ih res (wl - col.maxWidth) (cl - 1) true
        simp only [List.sum_cons]
        obtain ⟨h0, -, -⟩ := h
        omega
      · have := ih res wl cl adj
        simp only [List.sum_cons]
        omega

theorem pinPass_count (wpc : Int) : ∀ (cols : List auditTableColumn) (res : List Int)
    (wl cl : Int) (adj : Bool),
    (pinPass wpc cols res wl cl adj).2.2.1 + (res.count 0 : Int)
      = cl + ((pinPass wpc cols res wl cl adj).1.count 0 : Int) := by
  intro cols
  induction cols with
  | nil => intro res wl cl adj; simp [pinPass]
  | cons col cols ih =>
    intro res wl cl adj
    cases res with
    | nil => simp [pinPass]
    | cons r res =>
      simp only [pinPass]
      split_ifs with h
      · have := ih res (wl - col.maxWidth) (cl - 1) true
        obtain ⟨h0, h1, -⟩ := h
        subst h0
        have h2 : (col.maxWidth == 0) = false := by simpa using h1
        simp only [List.count_cons, h2, beq_self_eq_true, if_true]
        simp
        omega
      · have := ih res wl cl adj
        simp only [List.count_cons]
        push_cast
        omega

theorem pinPass_pinned (wpc : Int) : ∀ (cols : List auditTableColumn) (res : List Int)
    (wl cl : Int) (adj : Bool), Pinned cols res →
    Pinned cols (pinPass wpc cols res wl cl adj).1 := by
  intro cols
  induction cols with
  | nil => intro res wl cl adj h; cases h; simp [pinPass, Pinned]
  | cons col cols ih =>
    intro res wl cl adj h
    cases h with
    | cons hr hrest =>
      rename_i r res
      simp only [pinPass]
      split_ifs with hc
      · exact List.Forall₂.cons (Or.inr ⟨rfl, hc.2.1⟩) (ih res _ _ _ hrest)
      · exact List.Forall₂.cons hr (ih res _ _ _ hrest)

/-- During a pass the pool keeps at least the even share for every column
still in it. -/
theorem pinPass_pool (wpc : Int) : ∀ (cols : List auditTableColumn) (res : List Int)
    (wl cl : Int) (adj : Bool), cl * wpc ≤ wl →
    (pinPass wpc cols res wl cl adj).2.2.1 * wpc ≤ (pinPass wpc cols res wl cl adj).2.1 := by
  intro cols
  induction cols with
  | nil => intro res wl cl adj h; simpa [pinPass] using h
  | cons col cols ih =>
    intro res wl cl adj h
    cases res with
    | nil => simpa [pinPass] using h
    | cons r res =>
      simp only [pinPass]
      split_ifs with hc
      · apply ih
        have : (cl - 1) * wpc = cl * wpc - wpc := by ring
        omega
      · exact ih res wl cl adj h

/-- A pass that reports no adjustment changed nothing. -/
theorem pinPass_unadjusted (wpc : Int) : ∀ (cols : List auditTableColumn) (res : List Int)
    (wl cl : Int) (adj : Bool), (pinPass wpc cols res wl cl adj).2.2.2 = false →
    adj = false ∧ pinPass wpc cols res wl cl adj = (res, wl, cl, false) := by
  intro cols
  induction cols with
  | nil => intro res wl cl adj h; simp [pinPass] at h ⊢; exact h
  | cons col cols ih =>
    intro res wl cl adj h
    cases res with
    | nil => simp [pinPass] at h ⊢; exact h
    | cons r res =>
      simp only [pinPass] at h ⊢
      split_ifs at h ⊢ with hc
      · exact absurd (ih res _ _ true h).1 (by simp)
      · obtain ⟨h1, h2⟩ := ih res wl cl adj h
        refine ⟨h1, ?_⟩
        rw [h2]

/-- A pass never un-pins a column. -/
theorem pinPass_count_le (wpc : Int) : ∀ (cols : List auditTableColumn) (res : List Int)
    (wl cl : Int) (adj : Bool),
    (pinPass wpc cols res wl cl adj).1.count 0 ≤ res.count 0 := by
  intro cols
  induction cols with
  | nil => intro res wl cl adj; simp [pinPass]
  | cons col cols ih =>
    intro res wl cl adj
    cases res with
    | nil => simp [pinPass]
    | cons r res =>
      simp only [pinPass]
      split_ifs with h
      · have := ih res (wl - col.maxWidth) (cl - 1) true
        obtain ⟨h0, h1, -⟩ := h
        subst h0
        have h2 : (col.maxWidth == 0) = false := by simpa using h1
        simp only [List.count_cons, h2, beq_self_eq_true, if_true]
        simp
        omega
      · have := ih res wl cl adj
        simp only [List.count_cons]
        omega

/-- A pass that reports an adjustment pinned at least one column. -/
theorem pinPass_adjusted (wpc : Int) : ∀ (cols : List auditTableColumn) (res : List Int)
    (wl cl : Int) (adj : Bool), (pinPass wpc cols res wl cl adj).2.2.2 = true →
    adj = true ∨ (pinPass wpc cols res wl cl adj).1.count 0 < res.count 0 := by
  intro cols
  induction cols with
  | nil => intro res wl cl adj h; simp [pinPass] at h; exact Or.inl h
  | cons col cols ih =>
    intro res wl cl adj h
    cases res with
    | nil => simp [pinPass] at h; exact Or.inl h
    | cons r res =>
      simp only [pinPass] at h ⊢
      split_ifs at h ⊢ with hc1
      · right
        have h3 := pinPass_count_le wpc cols res (wl - col.maxWidth) (cl - 1) true
        simp only [List.count_cons]
        obtain ⟨h0, h1, -⟩ := hc1
        subst h0
        have h2 : (col.maxWidth == 0) = false := by simpa using h1
        simp only [h2, beq_self_eq_true, if_true]
        simp
        omega
      · rcases ih res wl cl adj h with h1 | h1
        · exact Or.inl h1
        · right
          simp only [List.count_cons]
          omega

/-- What a pass does to entry `i` of `res`. -/
theorem pinPass_entry (wpc : Int) : ∀ (cols : List auditTableColumn) (res : List Int)
    (wl cl : Int) (adj : Bool) (i : Nat) (col : auditTableColumn) (r : Int),
    cols[i]? = some col → res[i]? = some r →
    (pinPass wpc cols res wl cl adj).1[i]? =
      some (if r = 0 ∧ col.maxWidth ≠ 0 ∧ col.maxWidth < wpc then col.maxWidth else r) := by
  intro cols
  induction cols with
  | nil => intro res wl cl adj i col r h; simp at h
  | cons c cols ih =>
    intro res wl cl adj i col r hc hr
    cases res with
    | nil => simp at hr
    | cons r0 res =>
      cases i with
      | zero =>
        simp only [List.getElem?_cons_zero, Option.some.injEq] at hc hr
        subst hc hr
        simp only [pinPass]
        split_ifs <;> simp
      | succ i =>
        simp only [List.getElem?_cons_succ] at hc hr
        by_cases h : r0 = 0 ∧ c.maxWidth ≠ 0 ∧ c.maxWidth < wpc
        · simp only [pinPass, if_pos h, List.getElem?_cons_succ]
          exact ih res _ _ _ i col r hc hr
        · simp only [pinPass, if_neg h, List.getElem?_cons_succ]
          exact ih res _ _ _ i col r hc hr
/-! ## The column-width allocator: the loop -/

theorem goDiv_pos (a b : Int) (hb : 0 < b) : goDiv a b = some (Int.tdiv a b) := by
  unfold goDiv
  rw [if_neg (by omega)]

theorem tdiv_eq_div (a b : Int) (ha : 0 ≤ a) (hb : 0 ≤ b) : Int.tdiv a b = a / b :=
  Int.tdiv_eq_ediv ha hb

theorem pinned_length {cols : List auditTableColumn} {res : List Int} (h : Pinned cols res) :
    res.length = cols.length :=
  (List.Forall₂.length_eq h).symm

theorem pinned_get {cols : List auditTableColumn} {res : List Int} (h : Pinned cols res) :
    ∀ (i : Nat) (col : auditTableColumn), cols[i]? = some col →
      ∃ r, res[i]? = some r ∧ (r = 0 ∨ (r = col.maxWidth ∧ col.maxWidth ≠ 0)) := by
  induction h with
  | nil => intro i col hc; simp at hc
  | @cons c r cols res hhead _ ih =>
    intro i col hc
    cases i with
    | zero =>
      simp only [List.getElem?_cons_zero, Option.some.injEq] at hc
      subst hc
      exact ⟨r, by simp, hhead⟩
    | succ i =>
      simp only [List.getElem?_cons_succ] at hc ⊢
      exact ih i col hc

theorem pinned_get_col {cols : List auditTableColumn} {res : List Int} (h : Pinned cols res) :
    ∀ (i : Nat) (r : Int), res[i]? = some r → ∃ col, cols[i]? = some col := by
  intro i r hr
  have hlt : i < res.length := (List.getElem?_eq_some.mp hr).1
  rw [pinned_length h] at hlt
  exact ⟨cols[i], List.getElem?_eq_getElem hlt⟩

theorem pass_traceFacts (wpc : Int) (cols : List auditTableColumn) (res : List Int)
    (wl cl : Int) (adj : Bool) (h : Pinned cols res) :
    TraceFacts cols res [wpc] (pinPass wpc cols res wl cl adj).1 := by
  refine ⟨?_, ?_, ?_⟩
  · intro i col hc hmw hs
    obtain ⟨s, hs1, hs2⟩ := hs
    rw [List.mem_singleton] at hs1
    rw [hs1] at hs2
    obtain ⟨r, hr, hr2⟩ := pinned_get h i col hc
    rw [pinPass_entry wpc cols res wl cl adj i col r hc hr]
    rcases hr2 with h0 | ⟨h1, -⟩
    · rw [if_pos ⟨h0, hmw, hs2⟩]
    · rw [h1]
      simp
  · intro i col r1 hc hr1 hne
    obtain ⟨r, hr, -⟩ := pinned_get h i col hc
    rw [pinPass_entry wpc cols res wl cl adj i col r hc hr] at hr1
    by_cases hcond : r = 0 ∧ col.maxWidth ≠ 0 ∧ col.maxWidth < wpc
    · exact Or.inr ⟨hcond.2.1, wpc, by simp, hcond.2.2⟩
    · rw [if_neg hcond] at hr1
      left
      rw [hr, hr1]
  · intro i r hr hne
    obtain ⟨col, hc⟩ := pinned_get_col h i r hr
    rw [pinPass_entry wpc cols res wl cl adj i col r hc hr]
    rw [if_neg (fun hcond => hne hcond.1)]

theorem TraceFacts.trans {cols : List auditTableColumn} {a b c : List Int} {s t : List Int}
    (h1 : TraceFacts cols a s b) (h2 : TraceFacts cols b t c) :
    TraceFacts cols a (s ++ t) c := by
  refine ⟨?_, ?_, ?_⟩
  · intro i col hc hmw hs
    obtain ⟨x, hx1, hx2⟩ := hs
    rcases List.mem_append.mp hx1 with hx | hx
    · exact h2.keep i _ (h1.pin i col hc hmw ⟨x, hx, hx2⟩) hmw
    · exact h2.pin i col hc hmw ⟨x, hx, hx2⟩
  · intro i col r hc hr hne
    rcases h2.origin i col r hc hr hne with hb | ⟨hmw, x, hx1, hx2⟩
    · rcases h1.origin i col r hc hb hne with ha | ⟨hmw, x, hx1, hx2⟩
      · exact Or.inl ha
      · exact Or.inr ⟨hmw, x, List.mem_append_left _ hx1, hx2⟩
    · exact Or.inr ⟨hmw, x, List.mem_append_right _ hx1, hx2⟩
  · intro i r hr hne
    exact h2.keep i r (h1.keep i r hr hne) hne

theorem pinLoop_spec (cols : List auditTableColumn) (total : Int) :
    ∀ (fuel : Nat) (res : List Int) (wl cl wpc : Int),
      LoopInv cols total res wl cl wpc → res.count 0 < fuel →
      ∃ res1 wpc1, pinLoop cols fuel res wl cl wpc = some (res1, wpc1) ∧
        LoopPost cols total res (pinLoopShares cols fuel res wl cl wpc) res1 wpc1 := by
  intro fuel
  induction fuel with
  | zero => intro res wl cl wpc _ h; omega
  | succ fuel ih =>
    intro res wl cl wpc inv hfuel
    have hlen := pinPass_length wpc cols res wl cl false
    have hsum := pinPass_sum wpc cols res wl cl false
    have hcount := pinPass_count wpc cols res wl cl false
    have hpin := pinPass_pinned wpc cols res wl cl false inv.pinned
    have hpool := pinPass_pool wpc cols res wl cl false inv.pool
    have hadj := pinPass_adjusted wpc cols res wl cl false
    have hunadj := pinPass_unadjusted wpc cols res wl cl false
    have htrace := pass_traceFacts wpc cols res wl cl false inv.pinned
    have hentry := pinPass_entry wpc cols res wl cl false
    rcases hout : pinPass wpc cols res wl cl false with ⟨res1, wl1, cl1, adjusted⟩
    rw [hout] at hlen hsum hcount hpin hpool hadj htrace hunadj hentry
    simp only at hlen hsum hcount hpin hpool hadj htrace hunadj hentry
    have hcl1 : cl1 = (res1.count 0 : Int) := by
      have := inv.count
      omega
    have hsum1 : wl1 + res1.sum = total := by
      have := inv.sum
      omega
    simp only [pinLoop, pinLoopShares, hout]
    by_cases hz : cl1 = 0
    · rw [if_pos hz, if_pos hz]
      refine ⟨_, _, rfl, res1, hpin, htrace, Or.inl ⟨by omega, wl1, hsum1, ?_, rfl⟩⟩
      rw [hz] at hpool
      omega
    · rw [if_neg hz, if_neg hz]
      have hpos : 0 < cl1 := by omega
      rw [goDiv_pos wl1 cl1 hpos]
      have hshare := inv.share
      have hwl1 : 0 ≤ wl1 := by
        have : 0 ≤ cl1 * wpc := by positivity
        omega
      have hdiv : Int.tdiv wl1 cl1 = wl1 / cl1 := tdiv_eq_div wl1 cl1 hwl1 hpos.le
      have hge : wpc ≤ wl1 / cl1 := by
        apply Int.le_ediv_of_mul_le hpos
        rw [mul_comm]
        exact hpool
      have hmul : cl1 * (wl1 / cl1) ≤ wl1 := Int.mul_ediv_self_le (by omega)
      simp only []
      cases adjusted with
      | true =>
        simp only [if_true]
        have hcnt : res1.count 0 < fuel := by
          rcases hadj rfl with h | h
          · exact absurd h (by simp)
          · omega
        obtain ⟨res2, wpc2, heq, pinned, hp2, ht2, hcase⟩ :=
          ih res1 wl1 cl1 (Int.tdiv wl1 cl1)
            ⟨hpin, hcl1, hsum1, by omega, by rw [hdiv]; exact hmul, rfl⟩ hcnt
        exact ⟨res2, wpc2, heq, pinned, hp2, htrace.trans ht2, hcase⟩
      | false =>
        obtain ⟨-, hsame⟩ := hunadj rfl
        simp only [Prod.mk.injEq, and_true] at hsame
        obtain ⟨hres, hwl, hcl⟩ := hsame
        refine ⟨res1, Int.tdiv wl1 cl1, by simp, res1, hpin, by simpa using htrace,
          Or.inr ⟨by omega, rfl, by omega, ⟨wl1, hsum1, by rw [← hcl1], hwl1⟩, ?_⟩⟩
        intro i col hc hr
        have hwpc : Int.tdiv wl1 cl1 = wpc := by rw [hwl, hcl]; exact inv.even.symm
        rw [hwpc]
        rw [hres] at hr
        have := hentry i col 0 hc hr
        rw [hres, hr] at this
        by_cases hcond : (0 : Int) = 0 ∧ col.maxWidth ≠ 0 ∧ col.maxWidth < wpc
        · rw [if_pos hcond] at this
          simp only [Option.some.injEq] at this
          exact absurd this.symm hcond.2.1
        · by_cases h0 : col.maxWidth = 0
          · exact Or.inl h0
          · right
            by_contra hlt
            exact hcond ⟨rfl, h0, by omega⟩
/-! ## The column-width allocator: the result -/

theorem pinned_replicate (cols : List auditTableColumn) :
    Pinned cols (List.replicate cols.length (0 : Int)) := by
  induction cols with
  | nil => exact List.Forall₂.nil
  | cons col cols ih => exact List.Forall₂.cons (Or.inl rfl) ih

theorem pinned_nonneg {cols : List auditTableColumn} {res : List Int} (h : Pinned cols res)
    (hmw : ∀ col ∈ cols, 0 ≤ col.maxWidth) : ∀ r ∈ res, r = 0 ∨ 0 < r := by
  induction h with
  | nil => intro r hr; simp at hr
  | @cons col r cols res hhead _ ih =>
    intro x hx
    rcases List.mem_cons.mp hx with rfl | hx
    · rcases hhead with h0 | ⟨h1, h2⟩
      · exact Or.inl h0
      · right
        have := hmw col (List.mem_cons_self _ _)
        omega
    · exact ih (fun c hc => hmw c (List.mem_cons_of_mem _ hc)) x hx

theorem sum_map_add_const (c : Int) (res : List Int) :
    (res.map (fun r => r + c)).sum = res.sum + res.length * c := by
  induction res with
  | nil => simp
  | cons r res ih =>
    simp only [List.map_cons, List.sum_cons, List.length_cons, ih]
    push_cast
    ring

theorem sum_fillUnpinned (wpc : Int) (res : List Int) :
    (fillUnpinned wpc res).sum = res.sum + (res.count 0 : Nat) * wpc := by
  unfold fillUnpinned
  induction res with
  | nil => simp
  | cons r res ih =>
    simp only [List.map_cons, List.sum_cons, ih, List.count_cons]
    by_cases h : r = 0
    · subst h
      simp
      ring
    · have h2 : (r == 0) = false := by simpa using h
      simp [h, h2]
      ring

theorem fillUnpinned_length (wpc : Int) (res : List Int) :
    (fillUnpinned wpc res).length = res.length := by
  simp [fillUnpinned]

theorem fillUnpinned_of_no_zero (wpc : Int) (res : List Int) (h : ∀ r ∈ res, r ≠ 0) :
    fillUnpinned wpc res = res := by
  unfold fillUnpinned
  induction res with
  | nil => rfl
  | cons r res ih =>
    have h1 : r ≠ 0 := h r (List.mem_cons_self _ _)
    simp only [List.map_cons, if_neg h1]
    rw [ih (fun x hx => h x (List.mem_cons_of_mem _ hx))]

/-- The allocation of a formatter without cached widths: the loop is left
with a pair described by `LoopPost`, and the result is stored. -/
theorem columnWidths_fresh (W : Int) (cols : List auditTableColumn)
    (hn : 1 ≤ cols.length) (hW : 2 * ((cols.length : Int) - 1) + cols.length ≤ W) :
    ∃ res wpc, LoopPost cols (W - 2 * ((cols.length : Int) - 1))
        (List.replicate cols.length (0 : Int)) (newColumnFormatter W cols).evenShares res wpc ∧
      (newColumnFormatter W cols).columnWidths =
        some (fillUnpinned wpc res, ⟨W, some (fillUnpinned wpc res), cols⟩) := by
  have hnpos : (0 : Int) < cols.length := by omega
  have htot : (0 : Int) ≤ W - 2 * ((cols.length : Int) - 1) := by omega
  have hdiv := tdiv_eq_div (W - 2 * ((cols.length : Int) - 1)) cols.length htot hnpos.le
  have hinv : LoopInv cols (W - 2 * ((cols.length : Int) - 1))
      (List.replicate cols.length (0 : Int)) (W - 2 * ((cols.length : Int) - 1)) cols.length
      (Int.tdiv (W - 2 * ((cols.length : Int) - 1)) cols.length) := by
    refine ⟨pinned_replicate cols, by simp, by simp, ?_, ?_, rfl⟩
    · rw [hdiv]
      apply Int.le_ediv_of_mul_le hnpos
      omega
    · rw [hdiv]
      exact Int.mul_ediv_self_le (by omega)
  obtain ⟨res, wpc, hloop, hpost⟩ := pinLoop_spec cols _ (cols.length + 1) _ _ _ _ hinv
    (by simp)
  refine ⟨res, wpc, ?_, ?_⟩
  · simpa only [columnFormatter.evenShares, newColumnFormatter, goDiv_pos _ _ hnpos] using hpost
  · simp only [columnFormatter.columnWidths, newColumnFormatter, goDiv_pos _ _ hnpos, hloop]

/-- The widths allocated from a `LoopPost` pair: one per column, all positive,
summing to at most the distributed width. -/
theorem loopPost_widths (cols : List auditTableColumn) (total : Int) (start shares : List Int)
    (res : List Int) (wpc : Int) (hn : 1 ≤ cols.length) (hmw : ∀ col ∈ cols, 0 ≤ col.maxWidth)
    (h : LoopPost cols total start shares res wpc) :
    (fillUnpinned wpc res).length = cols.length ∧ (∀ w ∈ fillUnpinned wpc res, 0 < w) ∧
      (fillUnpinned wpc res).sum ≤ total := by
  obtain ⟨res1, hpin, -, hcase⟩ := h
  rcases hcase with ⟨hcount, L, hsum, hL, rfl⟩ | ⟨hcount, rfl, hshare, ⟨wl, hsum, hwpc, hwl⟩, -⟩
  · have hlen := pinned_length hpin
    have hpos1 : ∀ r ∈ res1, 0 < r := by
      intro r hr
      rcases pinned_nonneg hpin hmw r hr with h0 | h0
      · subst h0
        have : 0 < res1.count 0 := List.count_pos_iff.mpr hr
        omega
      · exact h0
    have hlpos : (0 : Int) < res1.length := by omega
    have hq : 0 ≤ Int.tdiv L res1.length := by
      rw [tdiv_eq_div L _ hL hlpos.le]
      exact Int.ediv_nonneg hL hlpos.le
    have hpos : ∀ r ∈ res1.map (fun r => r + Int.tdiv L res1.length), 0 < r := by
      intro r hr
      obtain ⟨r1, hr1, rfl⟩ := List.mem_map.mp hr
      have := hpos1 r1 hr1
      omega
    rw [fillUnpinned_of_no_zero _ _ (fun r hr => (hpos r hr).ne')]
    refine ⟨by simp [hlen], hpos, ?_⟩
    rw [sum_map_add_const, tdiv_eq_div L _ hL hlpos.le]
    have := Int.mul_ediv_self_le (x := L) (k := (res1.length : Int)) (by omega)
    omega
  · refine ⟨by rw [fillUnpinned_length, pinned_length hpin], ?_, ?_⟩
    · intro w hw
      unfold fillUnpinned at hw
      obtain ⟨r, hr, rfl⟩ := List.mem_map.mp hw
      split_ifs with h0
      · omega
      · rcases pinned_nonneg hpin hmw r hr with h1 | h1
        · exact absurd h1 h0
        · exact h1
    · rw [sum_fillUnpinned, hwpc]
      have hcpos : (0 : Int) < (res.count 0 : Nat) := by exact_mod_cast hcount
      rw [tdiv_eq_div wl _ hwl hcpos.le]
      have := Int.mul_ediv_self_le (x := wl) (k := ((res.count 0 : Nat) : Int)) (by omega)
      omega

/-- C1: for a schema of `n >= 1` columns whose `maxWidth` is `0` (unset) or
positive and a table width `W >= 2(n-1)+n`, `columnWidths` on a formatter
without cached widths returns `n` widths, each strictly positive, whose sum is
at most `W`. -/
theorem columnWidths_count_positive_sum (W : Int) (cols : List auditTableColumn)
    (hn : 1 ≤ cols.length) (hmw : ∀ col ∈ cols, 0 ≤ col.maxWidth)
    (hW : 2 * ((cols.length : Int) - 1) + cols.length ≤ W) :
    ∃ ws f1, (newColumnFormatter W cols).columnWidths = some (ws, f1) ∧
      ws.length = cols.length ∧ (∀ w ∈ ws, 0 < w) ∧ ws.sum ≤ W := by
  obtain ⟨res, wpc, hpost, heq⟩ := columnWidths_fresh W cols hn hW
  obtain ⟨h1, h2, h3⟩ := loopPost_widths cols _ _ _ res wpc hn hmw hpost
  exact ⟨_, _, heq, h1, h2, by omega⟩

/-- Witness of C1: the secret audit table's schema at width 121. -/
theorem columnWidths_count_positive_sum_witness :
    ∃ ws f1, (newColumnFormatter 121 (newBaseAuditTableColumns [])).columnWidths = some (ws, f1) ∧
      ws.length = (newBaseAuditTableColumns []).length ∧ (∀ w ∈ ws, 0 < w) ∧ ws.sum ≤ 121 :=
  columnWidths_count_positive_sum 121 (newBaseAuditTableColumns []) (by decide) (by decide)
    (by decide)
/-! ## Pinned columns and the two audit-table scenarios -/

theorem pinned_all {cols : List auditTableColumn} {res : List Int} (h : Pinned cols res)
    (hcount : res.count 0 = 0) : res = cols.map (fun c => c.maxWidth) := by
  induction h with
  | nil => rfl
  | @cons col r cols res hhead _ ih =>
    have hr : r ≠ 0 := by
      intro h0
      subst h0
      simp at hcount
    have hr2 : (r == 0) = false := by simpa using hr
    have hrest : res.count 0 = 0 := by
      simpa [List.count_cons, hr2] using hcount
    rcases hhead with h0 | ⟨h1, -⟩
    · exact absurd h0 hr
    · simp only [List.map_cons, h1]
      rw [← ih hrest]

theorem allPinned_spread {cols : List auditTableColumn} {pinned : List Int} (wpc L : Int)
    (hpin : Pinned cols pinned) (hcount : pinned.count 0 = 0) (hL : 0 ≤ L)
    (hmw : ∀ col ∈ cols, 0 ≤ col.maxWidth) :
    fillUnpinned wpc (pinned.map (fun r => r + Int.tdiv L pinned.length))
      = pinned.map (fun r => r + Int.tdiv L pinned.length) := by
  apply fillUnpinned_of_no_zero
  intro r hr
  obtain ⟨r1, hr1, rfl⟩ := List.mem_map.mp hr
  have hpos1 : 0 < r1 := by
    rcases pinned_nonneg hpin hmw r1 hr1 with h0 | h0
    · subst h0
      have : 0 < pinned.count 0 := List.count_pos_iff.mpr hr1
      omega
    · exact h0
  have hlen : (0 : Int) ≤ pinned.length := Int.ofNat_nonneg _
  have hq : 0 ≤ Int.tdiv L pinned.length := by
    rw [tdiv_eq_div L _ hL hlen]
    exact Int.ediv_nonneg hL hlen
  omega

/-- C2, amended: for a schema of `n >= 1` columns and a table width
`W >= 2(n-1)+n`, a column whose `maxWidth` is set and smaller than an even
share of the loop is assigned exactly `maxWidth` when some column of the
schema is not of that kind (it stays unpinned), and `maxWidth + floor(L/n)`
with `L = W - 2(n-1) - sum of all maxWidth` when every column of the schema
is of that kind (every column is pinned) and no `maxWidth` is negative. -/
theorem columnWidths_pinned_width (W : Int) (cols : List auditTableColumn)
    (hn : 1 ≤ cols.length)
    (hW : 2 * ((cols.length : Int) - 1) + cols.length ≤ W) :
    ∃ ws f1, (newColumnFormatter W cols).columnWidths = some (ws, f1) ∧
      ∀ (i : Nat) (col : auditTableColumn), cols[i]? = some col → col.maxWidth ≠ 0 →
        (∃ s ∈ (newColumnFormatter W cols).evenShares, col.maxWidth < s) →
        ((∃ c ∈ cols, ¬ (c.maxWidth ≠ 0 ∧
              ∃ s ∈ (newColumnFormatter W cols).evenShares, c.maxWidth < s)) →
            ws[i]? = some col.maxWidth) ∧
        ((∀ c ∈ cols, c.maxWidth ≠ 0 ∧
              ∃ s ∈ (newColumnFormatter W cols).evenShares, c.maxWidth < s) →
            (∀ c ∈ cols, 0 ≤ c.maxWidth) →
            ws[i]? = some (col.maxWidth +
              Int.tdiv (W - 2 * ((cols.length : Int) - 1) - (cols.map (fun c => c.maxWidth)).sum)
                cols.length)) := by
  obtain ⟨res, wpc, hpost, heq⟩ := columnWidths_fresh W cols hn hW
  obtain ⟨pinned, hpin, htr, hcase⟩ := hpost
  refine ⟨_, _, heq, ?_⟩
  intro i col hc hmw0 hs
  have hpi := htr.pin i col hc hmw0 hs
  rcases hcase with ⟨hcount, L, hsum, hL, rfl⟩ | ⟨hcount, rfl, -, -, -⟩
  · constructor
    · rintro ⟨c, hcmem, hnot⟩
      exfalso
      apply hnot
      obtain ⟨j, hj, hcj⟩ := List.getElem_of_mem hcmem
      have hcj2 : cols[j]? = some c := by rw [List.getElem?_eq_getElem hj, hcj]
      obtain ⟨r, hr, hr2⟩ := pinned_get hpin j c hcj2
      have hrne : r ≠ 0 := by
        intro h0
        subst h0
        have hmem : (0 : Int) ∈ pinned := List.getElem?_mem hr
        have : 0 < pinned.count 0 := List.count_pos_iff.mpr hmem
        omega
      rcases htr.origin j c r hcj2 hr hrne with hstart | hcond
      · exfalso
        have hmem : r ∈ List.replicate cols.length (0 : Int) := List.getElem?_mem hstart
        exact hrne (List.eq_of_mem_replicate hmem)
      · exact hcond
    · intro _ hmw
      rw [allPinned_spread wpc L hpin hcount hL hmw]
      rw [List.getElem?_map, hpi, Option.map_some']
      have hall := pinned_all hpin hcount
      have hlen := pinned_length hpin
      rw [hlen]
      have hL2 : L = W - 2 * ((cols.length : Int) - 1) - (cols.map (fun c => c.maxWidth)).sum := by
        rw [← hall]
        omega
      rw [hL2]
  · constructor
    · intro _
      unfold fillUnpinned
      rw [List.getElem?_map, hpi, Option.map_some', if_neg hmw0]
    · intro hall _
      exfalso
      have hmem : (0 : Int) ∈ res := List.count_pos_iff.mp hcount
      obtain ⟨j, hj, hrj⟩ := List.getElem_of_mem hmem
      have hrj2 : res[j]? = some 0 := by rw [List.getElem?_eq_getElem hj, hrj]
      obtain ⟨c, hcj⟩ := pinned_get_col hpin j 0 hrj2
      have hcmem : c ∈ cols := List.getElem?_mem hcj
      obtain ⟨h1, h2⟩ := hall c hcmem
      have := htr.pin j c hcj h1 h2
      rw [hrj2] at this
      simp only [Option.some.injEq] at this
      exact h1 this.symm

/-- Witness of the amended C2: two columns of maximum width 2 at width 20. -/
theorem columnWidths_pinned_width_witness :
    ∃ ws f1, (newColumnFormatter 20 twoNarrowColumns).columnWidths = some (ws, f1) ∧
      ∀ (i : Nat) (col : auditTableColumn), twoNarrowColumns[i]? = some col → col.maxWidth ≠ 0 →
        (∃ s ∈ (newColumnFormatter 20 twoNarrowColumns).evenShares, col.maxWidth < s) →
        ((∃ c ∈ twoNarrowColumns, ¬ (c.maxWidth ≠ 0 ∧
              ∃ s ∈ (newColumnFormatter 20 twoNarrowColumns).evenShares, c.maxWidth < s)) →
            ws[i]? = some col.maxWidth) ∧
        ((∀ c ∈ twoNarrowColumns, c.maxWidth ≠ 0 ∧
              ∃ s ∈ (newColumnFormatter 20 twoNarrowColumns).evenShares, c.maxWidth < s) →
            (∀ c ∈ twoNarrowColumns, 0 ≤ c.maxWidth) →
            ws[i]? = some (col.maxWidth +
              Int.tdiv (20 - 2 * ((twoNarrowColumns.length : Int) - 1)
                - (twoNarrowColumns.map (fun c => c.maxWidth)).sum) twoNarrowColumns.length)) :=
  columnWidths_pinned_width 20 twoNarrowColumns (by decide) (by decide)

/-- Counterexample to C2 as stated: with two columns of maximum width 2 and
table width 20 the only even share is 9, column 0 has a set `maxWidth` of 2
below it, and yet the widths returned are `[9, 9]`, so column 0 is not
assigned its `maxWidth`. -/
theorem columnWidths_pinned_exact_counterexample :
    (newColumnFormatter 20 twoNarrowColumns).evenShares = [9] ∧
    (newColumnFormatter 20 twoNarrowColumns).columnWidths
      = some ([9, 9], ⟨20, some [9, 9], twoNarrowColumns⟩) ∧
    ¬ (∀ (i : Nat) (col : auditTableColumn), twoNarrowColumns[i]? = some col →
        col.maxWidth ≠ 0 →
        (∃ s ∈ (newColumnFormatter 20 twoNarrowColumns).evenShares, col.maxWidth < s) →
        ([9, 9] : List Int)[i]? = some col.maxWidth) := by
  refine ⟨by decide, by decide, ?_⟩
  intro h
  have h0 := h 0 ⟨ascii "A", 2⟩ (by decide) (by decide) ⟨9, by decide, by decide⟩
  revert h0
  decide

/-- Counterexample to C3 as stated: the widths allocated to the secret audit
table at table width 121 are not `[32, 22, 45, 22]`. -/
theorem secret_table_widths_counterexample :
    (newColumnFormatter 121 (newBaseAuditTableColumns [])).columnWidths.map Prod.fst
      ≠ some [32, 22, 45, 22] := by
  decide

/-- C3, amended: for the schema `[{AUTHOR,32},{EVENT,22},{IP ADDRESS,45},{DATE,22}]`
and table width 121, `columnWidths` returns `[32, 22, 39, 22]`: AUTHOR, EVENT
and DATE are pinned at their `maxWidth` in passes with the even shares 28 and
35, and IP ADDRESS, whose `maxWidth` 45 is not below the last even share 39,
receives that share; the sum is `115 = 121 - 2*3`. -/
theorem columnWidths_secret_121 :
    newBaseAuditTableColumns [] =
      [⟨ascii "AUTHOR", 32⟩, ⟨ascii "EVENT", 22⟩, ⟨ascii "IP ADDRESS", 45⟩, ⟨ascii "DATE", 22⟩] ∧
    (newColumnFormatter 121 (newBaseAuditTableColumns [])).evenShares = [28, 35, 39] ∧
    (newColumnFormatter 121 (newBaseAuditTableColumns [])).columnWidths
      = some ([32, 22, 39, 22],
          ⟨121, some [32, 22, 39, 22], newBaseAuditTableColumns []⟩) := by
  refine ⟨by decide, by decide, by decide⟩

/-- C4: for the schema `[{AUTHOR,32},{EVENT,22},{IP ADDRESS,45},{DATE,22}]` and
table width 40, the loop of `columnWidths` runs one pass with the even share
`(40-6)/4 = 8`, pins no column (every entry of `res` is still `0` when the
loop is left), and `columnWidths` returns `[8, 8, 8, 8]`. -/
theorem columnWidths_secret_40 :
    (newColumnFormatter 40 (newBaseAuditTableColumns [])).evenShares = [8] ∧
    pinLoop (newBaseAuditTableColumns []) 5 [0, 0, 0, 0] (40 - 6) 4 ((40 - 6) / 4)
      = some ([0, 0, 0, 0], 8) ∧
    (newColumnFormatter 40 (newBaseAuditTableColumns [])).columnWidths
      = some ([8, 8, 8, 8], ⟨40, some [8, 8, 8, 8], newBaseAuditTableColumns []⟩) := by
  refine ⟨by decide, by decide, by decide⟩
/-! ## The grid of `formatRow` -/

theorem cellAt_set (g : List (List GoString)) (j i : Nat) (s : GoString) (j1 i1 : Nat)
    (hj : j < g.length) (hi : i < (g.getD j []).length) :
    cellAt (g.set j ((g.getD j []).set i s)) j1 i1
      = if j1 = j ∧ i1 = i then s else cellAt g j1 i1 := by
  unfold cellAt
  simp only [List.getD_eq_getElem?_getD, List.getElem?_set]
  by_cases h1 : j = j1
  · subst h1
    simp only [hj, if_true, Option.getD_some, true_and]
    by_cases h2 : i = i1
    · subst h2
      simp only [List.getD_eq_getElem?_getD] at hi
      simp [hi]
    · have h3 : ¬ i1 = i := fun h => h2 h.symm
      simp [h2, h3]
  · have h3 : ¬ j1 = j := fun h => h1 h.symm
    simp [h1, h3]

theorem gridDims_set (g : List (List GoString)) (lines n : Nat) (j i : Nat) (s : GoString)
    (hd : GridDims g lines n) : GridDims (g.set j ((g.getD j []).set i s)) lines n := by
  obtain ⟨h1, h2⟩ := hd
  refine ⟨by simp [h1], ?_⟩
  intro r hr
  by_cases hj : j < g.length
  · rcases List.mem_or_eq_of_mem_set hr with h | h
    · exact h2 r h
    · subst h
      simp only [List.length_set, List.getD_eq_getElem?_getD]
      rw [List.getElem?_eq_getElem hj, Option.getD_some]
      exact h2 _ (List.getElem_mem _)
  · rw [List.set_eq_of_length_le (by omega)] at hr
    exact h2 r hr

theorem setCell_spec (g : List (List GoString)) (lines n : Nat) (j : Nat) (i : Nat)
    (s : GoString) (hd : GridDims g lines n) (hj : j < lines) (hi : i < n) :
    ∃ g1, setCell g (j : Int) i s = some g1 ∧ GridDims g1 lines n ∧
      ∀ j1 i1, cellAt g1 j1 i1 = if j1 = j ∧ i1 = i then s else cellAt g j1 i1 := by
  have hjl : j < g.length := by rw [hd.1]; exact hj
  have hrow : (g.getD j []).length = n := by
    rw [List.getD_eq_getElem?_getD, List.getElem?_eq_getElem hjl, Option.getD_some]
    exact hd.2 _ (List.getElem_mem _)
  refine ⟨g.set j ((g.getD j []).set i s), ?_, gridDims_set g lines n j i s hd, ?_⟩
  · unfold setCell
    simp only [Int.toNat_ofNat]
    rw [if_pos ⟨by omega, hjl, by omega⟩]
  · intro j1 i1
    exact cellAt_set g j i s j1 i1 hjl (by omega)

/-- A loop that assigns `splitCells[j][i] = val j` for `j` from `lo` on. -/
theorem forRange_setCol (val : Int → Option GoString) (i lines n : Nat) (hi : i < n) :
    ∀ (count lo : Nat) (g : List (List GoString)), GridDims g lines n → lo + count ≤ lines →
      (∀ k : Nat, lo ≤ k → k < lo + count → ∃ s, val (k : Int) = some s) →
      ∃ g1, forRange (fun j g => (val j).bind (fun s => setCell g j i s)) count (lo : Int) g
          = some g1 ∧ GridDims g1 lines n ∧
        ∀ j1 i1, cellAt g1 j1 i1 =
          if i1 = i ∧ lo ≤ j1 ∧ j1 < lo + count then (val (j1 : Int)).getD [] else cellAt g j1 i1 := by
  intro count
  induction count with
  | zero =>
    intro lo g hd _ _
    refine ⟨g, rfl, hd, ?_⟩
    intro j1 i1
    rw [if_neg (by omega)]
  | succ count ih =>
    intro lo g hd hle hval
    obtain ⟨s, hs⟩ := hval lo (le_refl _) (by omega)
    obtain ⟨g0, hg0, hd0, hc0⟩ := setCell_spec g lines n lo i s hd (by omega) hi
    obtain ⟨g1, hg1, hd1, hc1⟩ := ih (lo + 1) g0 hd0 (by omega)
      (fun k hk1 hk2 => hval k (by omega) (by omega))
    refine ⟨g1, ?_, hd1, ?_⟩
    · simp only [forRange, hs, Option.some_bind, hg0]
      have hcast : ((lo : Int) + 1) = ((lo + 1 : Nat) : Int) := by push_cast; rfl
      rw [hcast]
      exact hg1
    · intro j1 i1
      rw [hc1 j1 i1, hc0 j1 i1]
      by_cases hi1 : i1 = i
      · by_cases hj1 : j1 = lo
        · subst hj1
          rw [if_neg (by omega), if_pos ⟨rfl, hi1⟩, if_pos ⟨hi1, le_refl _, by omega⟩, hs]
          rfl
        · by_cases hr : lo + 1 ≤ j1 ∧ j1 < lo + 1 + count
          · rw [if_pos ⟨hi1, hr⟩, if_pos ⟨hi1, by omega, by omega⟩]
          · rw [if_neg (fun h => hr h.2), if_neg (fun h => hj1 h.1), if_neg (by omega)]
      · rw [if_neg (fun h => hi1 h.1), if_neg (fun h => hi1 h.2), if_neg (fun h => hi1 h.1)]

/-! ## The slices of one cell -/

theorem goSlice_nat (s : GoString) (b e : Nat) (hbe : b ≤ e) (he : e ≤ s.length) :
    goSlice s (b : Int) (e : Int) = some ((s.drop b).take (e - b)) := by
  unfold goSlice
  rw [if_pos ⟨by omega, by omega, by omega⟩]
  have h1 : ((e : Int) - (b : Int)).toNat = e - b := by omega
  simp only [Int.toNat_ofNat, h1]

theorem repeatSpace_nat (k : Nat) : repeatSpace (k : Int) = some (List.replicate k 32) := by
  unfold repeatSpace
  rw [if_neg (by omega)]
  simp

theorem tdiv_natCast (a b : Nat) : Int.tdiv (a : Int) (b : Int) = ((a / b : Nat) : Int) := by
  rw [Int.tdiv_eq_ediv (by omega) (by omega)]
  norm_cast

theorem tmod_natCast (a b : Nat) : Int.tmod (a : Int) (b : Int) = ((a % b : Nat) : Int) := by
  rw [Int.tmod_eq_emod (by omega) (by omega)]
  norm_cast

theorem sliceAt_length (cell : GoString) (w j : Nat) : (sliceAt cell w j).length = w := by
  unfold sliceAt
  simp only [List.length_append, List.length_replicate, List.length_take]
  omega

theorem sliceAt_full (cell : GoString) (w j : Nat) (h : (j + 1) * w ≤ cell.length) :
    sliceAt cell w j = (cell.drop (j * w)).take ((j + 1) * w - j * w) := by
  unfold sliceAt
  have h1 : (j + 1) * w - j * w = w := by
    rw [Nat.add_mul]
    omega
  have h2 : ((cell.drop (j * w)).take w).length = w := by
    simp only [List.length_take, List.length_drop]
    rw [Nat.add_mul] at h
    omega
  rw [h1, h2]
  simp

theorem sliceAt_blank (cell : GoString) (w j : Nat) (h : cell.length ≤ j * w) :
    sliceAt cell w j = List.replicate w 32 := by
  unfold sliceAt
  rw [List.drop_of_length_le h]
  simp

theorem sliceAt_partial (cell : GoString) (w : Nat) (hw : 0 < w) :
    sliceAt cell w (cell.length / w)
      = (cell.drop (cell.length - cell.length % w)).take (cell.length - (cell.length - cell.length % w))
        ++ List.replicate (w - cell.length % w) 32 := by
  unfold sliceAt
  have hdm := Nat.div_add_mod cell.length w
  have hlt := Nat.mod_lt cell.length hw
  have h1 : cell.length / w * w = cell.length - cell.length % w := by
    rw [Nat.mul_comm]
    omega
  rw [h1]
  have h2 : cell.length - (cell.length - cell.length % w) = cell.length % w := by omega
  have h3 : ((cell.drop (cell.length - cell.length % w)).take w).length = cell.length % w := by
    simp only [List.length_take, List.length_drop]
    omega
  rw [h2, h3]
  congr 1
  rw [List.take_of_length_le (by simp only [List.length_drop]; omega),
    List.take_of_length_le (by simp only [List.length_drop]; omega)]

theorem cellLines_le (len w : Nat) (hw : 0 < w) : len ≤ cellLines len w * w := by
  unfold cellLines
  have hdm := Nat.div_add_mod len w
  have hlt := Nat.mod_lt len hw
  split_ifs with h
  · rw [Nat.add_mul, Nat.mul_comm]
    omega
  · rw [Nat.mul_comm]
    omega

theorem goSlice_slice (cell : GoString) (w k : Nat) (h : (k + 1) * w ≤ cell.length) :
    goSlice cell ((k : Int) * (w : Int)) (((k : Int) + 1) * (w : Int)) = some (sliceAt cell w k) := by
  have hk1 : k * w ≤ (k + 1) * w := Nat.mul_le_mul_right w (by omega)
  have := goSlice_nat cell (k * w) ((k + 1) * w) hk1 h
  push_cast at this
  rw [this, sliceAt_full cell w k h]

/-- The end of the body of the second loop of `formatRow`: the slice at line
`q` is stored and the lines after it are blanked. -/
theorem splitCell_tail (w lines i n : Nat) (hi : i < n) (cell : GoString)
    (g : List (List GoString)) (hd : GridDims g lines n) (q : Nat) (hq : q < lines)
    (hlen : cell.length ≤ (q + 1) * w) :
    ∃ g3, (setCell g (q : Int) i (sliceAt cell w q)).bind
        (fun y => forRange (fun j g => (repeatSpace (w : Int)).bind (fun pad => setCell g j i pad))
          ((lines : Int) - ((q : Int) + 1)).toNat ((q : Int) + 1) y) = some g3 ∧
      GridDims g3 lines n ∧
      ∀ j1 i1, cellAt g3 j1 i1 =
        if i1 = i ∧ q ≤ j1 ∧ j1 < lines then sliceAt cell w j1 else cellAt g j1 i1 := by
  obtain ⟨g2, hg2, hd2, hc2⟩ := setCell_spec g lines n q i (sliceAt cell w q) hd hq hi
  obtain ⟨g3, hg3, hd3, hc3⟩ := forRange_setCol (fun _ => repeatSpace (w : Int)) i lines n hi
    (lines - (q + 1)) (q + 1) g2 hd2 (by omega) (fun k _ _ => ⟨_, repeatSpace_nat w⟩)
  refine ⟨g3, ?_, hd3, ?_⟩
  · rw [hg2, Option.some_bind]
    have h1 : ((lines : Int) - ((q : Int) + 1)).toNat = lines - (q + 1) := by omega
    have h2 : ((q : Int) + 1) = ((q + 1 : Nat) : Int) := by push_cast; rfl
    rw [h1, h2]
    exact hg3
  · intro j1 i1
    rw [hc3 j1 i1, hc2 j1 i1]
    by_cases hi1 : i1 = i
    · by_cases hj1 : q + 1 ≤ j1 ∧ j1 < q + 1 + (lines - (q + 1))
      · rw [if_pos ⟨hi1, hj1⟩, if_pos ⟨hi1, by omega, by omega⟩, repeatSpace_nat, Option.getD_some]
        rw [sliceAt_blank]
        have : (q + 1) * w ≤ j1 * w := Nat.mul_le_mul_right w hj1.1
        omega
      · rw [if_neg (fun h => hj1 h.2)]
        by_cases hj2 : j1 = q
        · rw [if_pos ⟨hj2, hi1⟩, if_pos ⟨hi1, by omega, by omega⟩, hj2]
        · rw [if_neg (fun h => hj2 h.1), if_neg (by omega)]
    · rw [if_neg (fun h => hi1 h.1), if_neg (fun h => hi1 h.2), if_neg (fun h => hi1 h.1)]

/-- The body of the second loop of `formatRow` for a cell in a column of
positive width: column `i` of the grid receives the slices of the cell. -/
theorem splitCell_spec (w : Nat) (hw : 0 < w) (lines : Nat) (i n : Nat) (hi : i < n)
    (cell : GoString) (g : List (List GoString)) (hd : GridDims g lines n)
    (hlines : cellLines cell.length w ≤ lines) :
    ∃ g1, splitCell (w : Int) (lines : Int) i cell g = some g1 ∧ GridDims g1 lines n ∧
      ∀ j1 i1, cellAt g1 j1 i1 =
        if i1 = i ∧ j1 < lines then sliceAt cell w j1 else cellAt g j1 i1 := by
  have hwne : (w : Int) ≠ 0 := by omega
  have hdm := Nat.div_add_mod cell.length w
  have hlt := Nat.mod_lt cell.length hw
  have hq : cell.length / w ≤ lines := by
    unfold cellLines at hlines
    split_ifs at hlines <;> omega
  have hfull : ∀ k : Nat, k < cell.length / w → (k + 1) * w ≤ cell.length := by
    intro k hk
    have h1 : (k + 1) * w ≤ (cell.length / w) * w := Nat.mul_le_mul_right w (by omega)
    have h2 : (cell.length / w) * w ≤ cell.length := Nat.div_mul_le_self _ _
    omega
  -- first inner loop
  obtain ⟨g1, hg1, hd1, hc1⟩ := forRange_setCol
    (fun j => goSlice cell (j * (w : Int)) ((j + 1) * (w : Int))) i lines n hi
    (cell.length / w) 0 g hd (by omega)
    (fun k _ hk => ⟨_, goSlice_slice cell w k (hfull k (by omega))⟩)
  have hc1b : ∀ j1 i1, cellAt g1 j1 i1 =
      if i1 = i ∧ j1 < cell.length / w then sliceAt cell w j1 else cellAt g j1 i1 := by
    intro j1 i1
    rw [hc1 j1 i1]
    by_cases h : i1 = i ∧ j1 < cell.length / w
    · rw [if_pos ⟨h.1, by omega, by omega⟩, if_pos h, goSlice_slice cell w j1 (hfull j1 h.2),
        Option.getD_some]
    · rw [if_neg h, if_neg (by omega)]
  simp only [splitCell, goDiv, goMod, if_neg hwne, tdiv_natCast, tmod_natCast,
    Option.bind_eq_bind, Option.some_bind, Int.toNat_ofNat]
  rw [Nat.cast_zero] at hg1
  rw [hg1, Option.some_bind]
  by_cases hr : cell.length % w = 0
  · have hr2 : ¬ (((cell.length % w : Nat) : Int) ≠ 0) := by omega
    rw [if_neg hr2]
    by_cases hql : cell.length / w < lines
    · have hql2 : ((cell.length / w : Nat) : Int) < (lines : Int) := by omega
      rw [if_pos hql2]
      nth_rewrite 1 [repeatSpace_nat]
      rw [Option.some_bind]
      have hblank : List.replicate w (32 : UInt8) = sliceAt cell w (cell.length / w) := by
        rw [sliceAt_blank]
        rw [Nat.mul_comm]
        omega
      rw [hblank]
      obtain ⟨g3, hg3, hd3, hc3⟩ := splitCell_tail w lines i n hi cell g1 hd1 (cell.length / w) hql
        (by rw [Nat.add_mul, Nat.mul_comm]; omega)
      refine ⟨g3, hg3, hd3, ?_⟩
      intro j1 i1
      rw [hc3 j1 i1, hc1b j1 i1]
      by_cases h : i1 = i ∧ j1 < lines
      · rw [if_pos h]
        by_cases h2 : cell.length / w ≤ j1
        · rw [if_pos ⟨h.1, h2, h.2⟩]
        · rw [if_neg (by omega), if_pos ⟨h.1, by omega⟩]
      · rw [if_neg h, if_neg (by omega), if_neg (by omega)]
    · have hql2 : ¬ ((cell.length / w : Nat) : Int) < (lines : Int) := by omega
      rw [if_neg hql2]
      have h0 : ((lines : Int) - (((cell.length / w : Nat) : Int) + 1)).toNat = 0 := by omega
      rw [h0]
      refine ⟨g1, rfl, hd1, ?_⟩
      intro j1 i1
      rw [hc1b j1 i1]
      by_cases h : i1 = i ∧ j1 < lines
      · rw [if_pos h, if_pos ⟨h.1, by omega⟩]
      · rw [if_neg h, if_neg (by omega)]
  · have hr2 : ((cell.length % w : Nat) : Int) ≠ 0 := by omega
    rw [if_pos hr2]
    have hql : cell.length / w < lines := by
      unfold cellLines at hlines
      rw [if_pos hr] at hlines
      omega
    have hsl : goSlice cell ((cell.length : Int) - ((cell.length % w : Nat) : Int)) (cell.length : Int)
        = some ((cell.drop (cell.length - cell.length % w)).take
            (cell.length - (cell.length - cell.length % w))) := by
      have := goSlice_nat cell (cell.length - cell.length % w) cell.length (by omega) (le_refl _)
      rw [← this]
      congr 1
      omega
    have hpad : repeatSpace ((w : Int) - ((cell.length % w : Nat) : Int))
        = some (List.replicate (w - cell.length % w) 32) := by
      rw [← repeatSpace_nat]
      congr 1
      omega
    rw [hsl, Option.some_bind, hpad, Option.some_bind, ← sliceAt_partial cell w hw]
    obtain ⟨g3, hg3, hd3, hc3⟩ := splitCell_tail w lines i n hi cell g1 hd1 (cell.length / w) hql
      (by rw [Nat.add_mul, Nat.mul_comm]; omega)
    refine ⟨g3, hg3, hd3, ?_⟩
    intro j1 i1
    rw [hc3 j1 i1, hc1b j1 i1]
    by_cases h : i1 = i ∧ j1 < lines
    · rw [if_pos h]
      by_cases h2 : cell.length / w ≤ j1
      · rw [if_pos ⟨h.1, h2, h.2⟩]
      · rw [if_neg (by omega), if_pos ⟨h.1, by omega⟩]
    · rw [if_neg h, if_neg (by omega), if_neg (by omega)]

/-! ## The loops of `formatRow` over the cells -/

theorem le_maxLinesFrom : ∀ (rest : List GoString) (ws : List Int) (m : Nat),
    m ≤ maxLinesFrom rest ws m := by
  intro rest
  induction rest with
  | nil => intro ws m; simp [maxLinesFrom]
  | cons cell rest ih =>
    intro ws m
    cases ws with
    | nil => simp [maxLinesFrom]
    | cons w ws =>
      simp only [maxLinesFrom]
      exact le_trans (le_max_left _ _) (ih ws _)

theorem cellLines_le_maxLinesFrom : ∀ (rest : List GoString) (ws : List Int) (m k : Nat)
    (cell : GoString) (w : Int), rest[k]? = some cell → ws[k]? = some w →
    cellLines cell.length w.toNat ≤ maxLinesFrom rest ws m := by
  intro rest
  induction rest with
  | nil => intro ws m k cell w h; simp at h
  | cons c rest ih =>
    intro ws m k cell w hc hw
    cases ws with
    | nil => simp at hw
    | cons w0 ws =>
      simp only [maxLinesFrom]
      cases k with
      | zero =>
        simp only [List.getElem?_cons_zero, Option.some.injEq] at hc hw
        subst hc hw
        exact le_trans (le_max_right _ _) (le_maxLinesFrom rest ws _)
      | succ k =>
        simp only [List.getElem?_cons_succ] at hc hw
        exact ih ws _ k cell w hc hw

theorem maxLines_step (q r m : Nat) :
    (if (if ((r : Nat) : Int) ≠ 0 then ((q : Nat) : Int) + 1 else ((q : Nat) : Int)) > (m : Int)
      then (if ((r : Nat) : Int) ≠ 0 then ((q : Nat) : Int) + 1 else ((q : Nat) : Int))
      else (m : Int)) = ((max m (if r ≠ 0 then q + 1 else q) : Nat) : Int) := by
  by_cases hr : r = 0
  · have hr2 : ¬ (((r : Nat) : Int) ≠ 0) := by omega
    rw [if_neg hr2, if_neg (show ¬ (r ≠ 0) by omega)]
    by_cases h : (q : Int) > (m : Int)
    · rw [if_pos h, max_eq_right (by omega)]
    · rw [if_neg h, max_eq_left (by omega)]
  · have hr2 : ((r : Nat) : Int) ≠ 0 := by omega
    rw [if_pos hr2, if_pos hr]
    by_cases h : (q : Int) + 1 > (m : Int)
    · rw [if_pos h, max_eq_right (by omega)]
      push_cast
      rfl
    · rw [if_neg h, max_eq_left (by omega)]

theorem maxLinesLoop_spec (ws : List Int) (hpos : ∀ w ∈ ws, 0 < w) :
    ∀ (rest : List GoString) (i m : Nat), i + rest.length ≤ ws.length →
      maxLinesLoop ws rest i (m : Int) = some ((maxLinesFrom rest (ws.drop i) m : Nat) : Int) := by
  intro rest
  induction rest with
  | nil => intro i m _; simp [maxLinesLoop, maxLinesFrom]
  | cons cell rest ih =>
    intro i m hlen
    simp only [List.length_cons] at hlen
    have hi : i < ws.length := by omega
    have hw := hpos ws[i] (List.getElem_mem _)
    have hwn : ws[i] = ((ws[i].toNat : Nat) : Int) := by omega
    have hwne : ((ws[i].toNat : Nat) : Int) ≠ 0 := by omega
    rw [List.drop_eq_getElem_cons hi]
    simp only [maxLinesLoop, maxLinesFrom, List.getElem?_eq_getElem hi]
    rw [hwn]
    simp only [goDiv, goMod, if_neg hwne, tdiv_natCast, tmod_natCast, Int.toNat_ofNat]
    have hmax := maxLines_step (cell.length / ws[i].toNat) (cell.length % ws[i].toNat) m
    unfold cellLines
    rw [hmax]
    exact ih (i + 1) _ (by omega)

theorem splitLoop_spec (ws : List Int) (hpos : ∀ w ∈ ws, 0 < w) (lines n : Nat) :
    ∀ (rest : List GoString) (i : Nat) (g : List (List GoString)), GridDims g lines n →
      i + rest.length ≤ n → i + rest.length ≤ ws.length →
      (∀ (k : Nat) (cell : GoString) (w : Int), rest[k]? = some cell → ws[i + k]? = some w →
        cellLines cell.length w.toNat ≤ lines) →
      ∃ g1, splitLoop ws (lines : Int) rest i g = some g1 ∧ GridDims g1 lines n ∧
        ∀ j1 i1, cellAt g1 j1 i1 =
          if i ≤ i1 ∧ i1 < i + rest.length ∧ j1 < lines then
            sliceAt (rest.getD (i1 - i) []) (ws.getD i1 0).toNat j1
          else cellAt g j1 i1 := by
  intro rest
  induction rest with
  | nil =>
    intro i g hd _ _ _
    refine ⟨g, rfl, hd, ?_⟩
    intro j1 i1
    rw [if_neg (by simp only [List.length_nil]; omega)]
  | cons cell rest ih =>
    intro i g hd hn hlen hlines
    simp only [List.length_cons] at hn hlen
    have hi : i < ws.length := by omega
    have hw := hpos ws[i] (List.getElem_mem _)
    have hwn : ws[i] = ((ws[i].toNat : Nat) : Int) := by omega
    have hl0 := hlines 0 cell ws[i] (by simp) (by simp [List.getElem?_eq_getElem hi])
    obtain ⟨g0, hg0, hd0, hc0⟩ := splitCell_spec ws[i].toNat (by omega) lines i n (by omega)
      cell g hd hl0
    obtain ⟨g1, hg1, hd1, hc1⟩ := ih (i + 1) g0 hd0 (by omega) (by omega)
      (fun k c w hc hw => hlines (k + 1) c w (by simpa using hc)
        (by rw [← hw]; congr 1; omega))
    refine ⟨g1, ?_, hd1, ?_⟩
    · simp only [splitLoop, List.getElem?_eq_getElem hi]
      rw [hwn, hg0]
      exact hg1
    · intro j1 i1
      rw [hc1 j1 i1, hc0 j1 i1]
      simp only [List.length_cons]
      by_cases hj : j1 < lines
      · by_cases h1 : i1 = i
        · subst h1
          rw [if_neg (by omega), if_pos ⟨rfl, hj⟩, if_pos ⟨le_refl _, by omega, hj⟩]
          simp [List.getD_eq_getElem?_getD, List.getElem?_eq_getElem hi]
        · by_cases h2 : i + 1 ≤ i1 ∧ i1 < i + 1 + rest.length
          · rw [if_pos ⟨h2.1, h2.2, hj⟩, if_pos ⟨by omega, by omega, hj⟩]
            have h3 : i1 - i = (i1 - (i + 1)) + 1 := by omega
            rw [h3]
            simp [List.getD_eq_getElem?_getD]
          · rw [if_neg (by omega), if_neg (fun h => h1 h.1), if_neg (by omega)]
      · rw [if_neg (fun h => hj h.2.2), if_neg (fun h => hj h.2), if_neg (fun h => hj h.2.2)]

theorem gridDims_replicate (lines n : Nat) :
    GridDims (List.replicate lines (List.replicate n ([] : GoString))) lines n := by
  refine ⟨by simp, ?_⟩
  intro r hr
  rw [List.eq_of_mem_replicate hr]
  simp

theorem gridRow_length (ws : List Int) (row : List GoString) (j : Nat)
    (hlen : row.length ≤ ws.length) : (gridRow ws row j).length = row.length := by
  unfold gridRow
  simp only [List.length_zipWith]
  omega

/-- A grid is determined by its dimensions and its entries. -/
theorem grid_ext (g : List (List GoString)) (lines : Nat) (ws : List Int)
    (row : List GoString) (hlen : row.length ≤ ws.length) (hd : GridDims g lines row.length)
    (hc : ∀ j1 i1, j1 < lines → i1 < row.length →
      cellAt g j1 i1 = sliceAt (row.getD i1 []) (ws.getD i1 0).toNat j1) :
    g = gridSpec ws row lines := by
  apply List.ext_getElem
  · simp [gridSpec, hd.1]
  · intro j h1 h2
    have hj : j < lines := by rw [← hd.1]; exact h1
    have hrow : g[j].length = row.length := hd.2 _ (List.getElem_mem _)
    simp only [gridSpec, List.getElem_map, List.getElem_range]
    apply List.ext_getElem
    · rw [hrow, gridRow_length ws row j hlen]
    · intro i h3 h4
      have hi : i < row.length := by rw [← hrow]; exact h3
      have hiw : i < ws.length := by omega
      have := hc j i hj hi
      unfold cellAt at this
      simp only [List.getD_eq_getElem?_getD, List.getElem?_eq_getElem h1, Option.getD_some,
        List.getElem?_eq_getElem h3, List.getElem?_eq_getElem hi,
        List.getElem?_eq_getElem hiw] at this
      rw [this]
      simp [gridRow]

/-- The grid that `formatRow` builds for positive widths and a row with at
most one cell per width: `maxLinesPerCell` is the maximum of 1 and the
numbers of slices of the cells, and entry `[j][i]` is slice `j` of cell `i`. -/
theorem splitGrid_spec (ws : List Int) (hpos : ∀ w ∈ ws, 0 < w) (row : List GoString)
    (hlen : row.length ≤ ws.length) :
    splitGrid ws row = some (((maxLinesFrom row ws 1 : Nat) : Int),
      gridSpec ws row (maxLinesFrom row ws 1)) := by
  have hmax := maxLinesLoop_spec ws hpos row 0 1 (by omega)
  simp only [List.drop_zero, Nat.cast_one] at hmax
  obtain ⟨g1, hg1, hd1, hc1⟩ := splitLoop_spec ws hpos (maxLinesFrom row ws 1) row.length row 0
    (List.replicate (maxLinesFrom row ws 1) (List.replicate row.length ([] : GoString)))
    (gridDims_replicate _ _) (by omega) (by omega)
    (fun k cell w hc hw => cellLines_le_maxLinesFrom row ws 1 k cell w hc
      (by rw [← hw]; congr 1; omega))
  have hg : g1 = gridSpec ws row (maxLinesFrom row ws 1) := by
    apply grid_ext g1 _ ws row hlen hd1
    intro j1 i1 hj hi
    rw [hc1 j1 i1, if_pos ⟨by omega, by omega, hj⟩]
    simp
  simp only [splitGrid, hmax, Option.bind_eq_bind, Option.some_bind, Int.toNat_ofNat, hg1, hg]

/-! ## The text returned by `formatRow` -/

theorem intercalate_cons_cons (sep x y : GoString) (zs : List GoString) :
    List.intercalate sep (x :: y :: zs) = x ++ sep ++ List.intercalate sep (y :: zs) := by
  simp [List.intercalate, List.intersperse]

theorem intercalate_singleton (sep x : GoString) : List.intercalate sep [x] = x := by
  simp [List.intercalate, List.intersperse]

theorem flatten_lines (rows : List GoString) (h : rows ≠ []) :
    (rows.map (fun r => r ++ [10])).flatten = List.intercalate [10] rows ++ [10] := by
  induction rows with
  | nil => exact absurd rfl h
  | cons r rows ih =>
    cases rows with
    | nil => simp [intercalate_singleton]
    | cons r2 rows =>
      rw [List.map_cons, List.flatten_cons, ih (by simp), intercalate_cons_cons]
      simp

theorem trimSuffix_newline (s : GoString) : trimSuffix (s ++ [10]) [10] = s := by
  unfold trimSuffix
  have h : List.isSuffixOf [10] (s ++ [(10 : UInt8)]) = true := by
    rw [List.isSuffixOf_iff_suffix]
    exact List.suffix_append s [10]
  rw [if_pos h]
  simp

theorem gridToString_loop (grid : List (List GoString)) :
    ∀ (count lo : Nat) (acc : GoString), lo + count ≤ grid.length →
      forRange (fun j (strRes : GoString) =>
          if 0 ≤ j then
            (grid[j.toNat]?).map (fun line => strRes ++ (stringsJoin line [32, 32] ++ [10]))
          else none) count (lo : Int) acc
        = some (acc ++ (((grid.drop lo).take count).map
            (fun line => stringsJoin line [32, 32] ++ [10])).flatten) := by
  intro count
  induction count with
  | zero => intro lo acc _; simp [forRange]
  | succ count ih =>
    intro lo acc hle
    have hlo : lo < grid.length := by omega
    have hcast : ((lo : Int) + 1) = ((lo + 1 : Nat) : Int) := by push_cast; rfl
    simp only [forRange, Int.toNat_ofNat, List.getElem?_eq_getElem hlo, Option.map_some',
      if_pos (Int.ofNat_nonneg lo)]
    have hd : grid.drop lo = grid[lo] :: grid.drop (lo + 1) := List.drop_eq_getElem_cons hlo
    rw [hcast, ih (lo + 1) _ (by omega), hd]
    simp only [List.take_succ_cons, List.map_cons, List.flatten_cons, List.append_assoc]

theorem gridToString_spec (grid : List (List GoString)) (h : grid ≠ []) :
    gridToString (grid.length : Int) grid
      = some (List.intercalate [10] (grid.map (fun line => List.intercalate [32, 32] line))
          ++ [10]) := by
  unfold gridToString
  have := gridToString_loop grid grid.length 0 [] (by omega)
  simp only [Nat.cast_zero, List.drop_zero, List.take_length, List.nil_append] at this
  rw [Int.toNat_ofNat, this]
  have h2 : grid.map (fun line => stringsJoin line [32, 32] ++ [10])
      = (grid.map (fun line => List.intercalate [32, 32] line)).map (fun r => r ++ [10]) := by
    simp [stringsJoin]
  rw [h2, flatten_lines _ (by simpa using h)]

theorem one_le_maxLinesFrom (row : List GoString) (ws : List Int) :
    1 ≤ maxLinesFrom row ws 1 :=
  le_maxLinesFrom row ws 1

theorem gridSpec_length (ws : List Int) (row : List GoString) (lines : Nat) :
    (gridSpec ws row lines).length = lines := by
  simp [gridSpec]

/-- The text `formatRow` returns for positive column widths and a row with at
most one cell per width. -/
theorem formatRow_spec (f f1 : columnFormatter) (ws : List Int) (row : List GoString)
    (hcw : f.columnWidths = some (ws, f1)) (hpos : ∀ w ∈ ws, 0 < w)
    (hlen : row.length ≤ ws.length) :
    f.formatRow row = some ((formatRowSpec ws row, none), f1) := by
  have hgrid := splitGrid_spec ws hpos row hlen
  have hne : gridSpec ws row (maxLinesFrom row ws 1) ≠ [] := by
    intro h
    have := gridSpec_length ws row (maxLinesFrom row ws 1)
    rw [h] at this
    have := one_le_maxLinesFrom row ws
    simp at *
    omega
  have hstr := gridToString_spec _ hne
  rw [gridSpec_length] at hstr
  simp only [columnFormatter.formatRow, hcw, Option.bind_eq_bind, Option.some_bind, hgrid, hstr,
    trimSuffix_newline, formatRowSpec]

/-! ## The lines of the text returned by `formatRow` -/

theorem splitNewlines_ne_nil (data : GoString) : splitNewlines data ≠ [] := by
  induction data with
  | nil => simp [splitNewlines]
  | cons b data ih =>
    simp only [splitNewlines]
    split_ifs
    · simp
    · split <;> simp

theorem splitNewlines_line (r : GoString) (hr : (10 : UInt8) ∉ r) : splitNewlines r = [r] := by
  induction r with
  | nil => rfl
  | cons b r ih =>
    have hb : b ≠ 10 := fun h => hr (by simp [h])
    have hr2 : (10 : UInt8) ∉ r := fun h => hr (List.mem_cons_of_mem _ h)
    simp only [splitNewlines, if_neg hb, ih hr2]

theorem splitNewlines_append (r rest : GoString) (hr : (10 : UInt8) ∉ r) :
    splitNewlines (r ++ 10 :: rest) = r :: splitNewlines rest := by
  induction r with
  | nil => simp [splitNewlines]
  | cons b r ih =>
    have hb : b ≠ 10 := fun h => hr (by simp [h])
    have hr2 : (10 : UInt8) ∉ r := fun h => hr (List.mem_cons_of_mem _ h)
    simp only [List.cons_append, splitNewlines, if_neg hb, List.append_eq, ih hr2]

theorem splitNewlines_intercalate (rows : List GoString) (hne : rows ≠ [])
    (h : ∀ r ∈ rows, (10 : UInt8) ∉ r) : splitNewlines (List.intercalate [10] rows) = rows := by
  induction rows with
  | nil => exact absurd rfl hne
  | cons r rows ih =>
    cases rows with
    | nil =>
      rw [intercalate_singleton]
      exact splitNewlines_line r (h r (by simp))
    | cons r2 rows =>
      rw [intercalate_cons_cons, List.append_assoc, List.singleton_append,
        splitNewlines_append r _ (h r (by simp)), ih (by simp)
          (fun x hx => h x (List.mem_cons_of_mem _ hx))]

theorem mem_intercalate (sep : GoString) (x : UInt8) :
    ∀ (xs : List GoString), x ∈ List.intercalate sep xs → x ∈ sep ∨ ∃ l ∈ xs, x ∈ l := by
  intro xs
  induction xs with
  | nil => intro h; simp [List.intercalate, List.intersperse] at h
  | cons a xs ih =>
    cases xs with
    | nil =>
      intro h
      rw [intercalate_singleton] at h
      exact Or.inr ⟨a, by simp, h⟩
    | cons b xs =>
      intro h
      rw [intercalate_cons_cons] at h
      rcases List.mem_append.mp h with h1 | h1
      · rcases List.mem_append.mp h1 with h2 | h2
        · exact Or.inr ⟨a, by simp, h2⟩
        · exact Or.inl h2
      · rcases ih h1 with h2 | ⟨l, hl, hx⟩
        · exact Or.inl h2
        · exact Or.inr ⟨l, List.mem_cons_of_mem _ hl, hx⟩

theorem length_intercalate (sep : GoString) :
    ∀ (xs : List GoString), (List.intercalate sep xs).length
      = (xs.map List.length).sum + sep.length * (xs.length - 1) := by
  intro xs
  induction xs with
  | nil => simp [List.intercalate, List.intersperse]
  | cons a xs ih =>
    cases xs with
    | nil => simp [intercalate_singleton]
    | cons b xs =>
      rw [intercalate_cons_cons, List.length_append, List.length_append, ih]
      simp only [List.map_cons, List.sum_cons, List.length_cons, Nat.add_sub_cancel]
      rw [Nat.mul_add]
      omega

theorem mem_sliceAt (cell : GoString) (w j : Nat) (x : UInt8) (h : x ∈ sliceAt cell w j) :
    x ∈ cell ∨ x = 32 := by
  unfold sliceAt at h
  rcases List.mem_append.mp h with h1 | h1
  · exact Or.inl (List.mem_of_mem_drop (List.mem_of_mem_take h1))
  · exact Or.inr (List.eq_of_mem_replicate h1)

theorem mem_gridRow (j : Nat) : ∀ (row : List GoString) (ws : List Int) (s : GoString),
    s ∈ gridRow ws row j → ∃ cell ∈ row, ∃ w ∈ ws, s = sliceAt cell w.toNat j := by
  intro row
  induction row with
  | nil => intro ws s h; simp [gridRow] at h
  | cons c row ih =>
    intro ws s h
    cases ws with
    | nil => simp [gridRow] at h
    | cons w ws =>
      simp only [gridRow, List.zipWith_cons_cons, List.mem_cons] at h
      rcases h with h | h
      · exact ⟨c, by simp, w, by simp, h⟩
      · obtain ⟨cell, hc, w1, hw1, hs⟩ := ih ws s h
        exact ⟨cell, List.mem_cons_of_mem _ hc, w1, List.mem_cons_of_mem _ hw1, hs⟩

theorem gridRow_lengths (j : Nat) : ∀ (row : List GoString) (ws : List Int),
    row.length = ws.length → (∀ w ∈ ws, 0 < w) →
    (((gridRow ws row j).map List.length).sum : Int) = ws.sum := by
  intro row
  induction row with
  | nil =>
    intro ws h _
    have : ws = [] := List.length_eq_zero.mp h.symm
    subst this
    simp [gridRow]
  | cons c row ih =>
    intro ws h hpos
    cases ws with
    | nil => simp at h
    | cons w ws =>
      have hw := hpos w (by simp)
      have ih2 := ih ws (by simpa using h) (fun x hx => hpos x (List.mem_cons_of_mem _ hx))
      simp only [gridRow] at ih2
      simp only [gridRow, List.zipWith_cons_cons, List.map_cons, List.sum_cons, sliceAt_length]
      rw [Nat.cast_add, ih2]
      omega

/-- The rows of the text of `formatRowSpec` for a row of `n >= 1` cells
without newline and `n` positive widths have `w_1+...+w_n + 2(n-1)` bytes. -/
theorem formatRowSpec_lines (ws : List Int) (row : List GoString) (hn : 1 ≤ ws.length)
    (hpos : ∀ w ∈ ws, 0 < w) (hlen : row.length = ws.length)
    (hnl : ∀ cell ∈ row, (10 : UInt8) ∉ cell) :
    ∀ line ∈ splitNewlines (formatRowSpec ws row),
      (line.length : Int) = ws.sum + 2 * ((ws.length : Int) - 1) := by
  have hrows : ∀ r ∈ (gridSpec ws row (maxLinesFrom row ws 1)).map
      (fun line => List.intercalate [32, 32] line), (10 : UInt8) ∉ r := by
    intro r hr h10
    obtain ⟨line, hline, rfl⟩ := List.mem_map.mp hr
    obtain ⟨j, -, rfl⟩ := List.mem_map.mp hline
    rcases mem_intercalate _ _ _ h10 with h | ⟨s, hs, hx⟩
    · revert h
      decide
    · obtain ⟨cell, hc, w, -, rfl⟩ := mem_gridRow j row ws s hs
      rcases mem_sliceAt cell _ j 10 hx with h | h
      · exact hnl cell hc h
      · revert h
        decide
  have hne : (gridSpec ws row (maxLinesFrom row ws 1)).map
      (fun line => List.intercalate [32, 32] line) ≠ [] := by
    intro h
    have h1 := congrArg List.length h
    simp only [List.length_map, gridSpec_length, List.length_nil] at h1
    have := one_le_maxLinesFrom row ws
    omega
  intro line hline
  unfold formatRowSpec at hline
  rw [splitNewlines_intercalate _ hne hrows] at hline
  obtain ⟨r, hr, rfl⟩ := List.mem_map.mp hline
  obtain ⟨j, -, rfl⟩ := List.mem_map.mp hr
  rw [length_intercalate, gridRow_length ws row j (by omega)]
  have hsum := gridRow_lengths j row ws hlen hpos
  rw [Nat.cast_add, hsum, hlen, Nat.cast_mul]
  simp only [List.length_cons, List.length_nil]
  have : ((ws.length - 1 : Nat) : Int) = (ws.length : Int) - 1 := by omega
  rw [this]
  norm_num

/-! ## Width of the formatted lines -/

/-- C5: for a column formatter whose `n >= 1` allocated widths are all positive
and a row of `n` cells without newline byte, `formatRow` returns a text whose
lines all have exactly `w_1+...+w_n + 2(n-1)` bytes; hence, for a formatter
made by `newColumnFormatter` with table width `W >= 2(n-1)+n` and every
`maxWidth` `0` or positive, no line of the text is longer than `W`, whatever
the length of the cells. -/
theorem formatRow_line_length :
    (∀ (f f1 : columnFormatter) (ws : List Int) (row : List GoString),
      f.columnWidths = some (ws, f1) → 1 ≤ ws.length → (∀ w ∈ ws, 0 < w) →
      row.length = ws.length → (∀ cell ∈ row, (10 : UInt8) ∉ cell) →
      ∃ out, f.formatRow row = some ((out, none), f1) ∧
        ∀ line ∈ splitNewlines out,
          (line.length : Int) = ws.sum + 2 * ((ws.length : Int) - 1)) ∧
    (∀ (W : Int) (cols : List auditTableColumn) (row : List GoString),
      1 ≤ cols.length → (∀ col ∈ cols, 0 ≤ col.maxWidth) →
      2 * ((cols.length : Int) - 1) + cols.length ≤ W →
      row.length = cols.length → (∀ cell ∈ row, (10 : UInt8) ∉ cell) →
      ∃ out f1, (newColumnFormatter W cols).formatRow row = some ((out, none), f1) ∧
        ∀ line ∈ splitNewlines out, (line.length : Int) ≤ W) := by
  constructor
  · intro f f1 ws row hcw hn hpos hlen hnl
    exact ⟨formatRowSpec ws row, formatRow_spec f f1 ws row hcw hpos (by omega),
      formatRowSpec_lines ws row hn hpos hlen hnl⟩
  · intro W cols row hn hmw hW hlen hnl
    obtain ⟨res, wpc, hpost, heq⟩ := columnWidths_fresh W cols hn hW
    obtain ⟨h1, h2, h3⟩ := loopPost_widths cols _ _ _ res wpc hn hmw hpost
    refine ⟨formatRowSpec (fillUnpinned wpc res) row, _,
      formatRow_spec _ _ _ row heq h2 (by omega), ?_⟩
    intro line hline
    have := formatRowSpec_lines (fillUnpinned wpc res) row (by omega) h2 (by omega) hnl line hline
    rw [this, h1]
    omega

/-- Witness of C5: the row `["abcdefgh", "xy"]` in columns of widths 3 and 4,
and a row of the secret audit table at table width 40. -/
theorem formatRow_line_length_witness :
    (∃ out, (columnFormatter.mk 0 (some [3, 4]) []).formatRow [ascii "abcdefgh", ascii "xy"]
        = some ((out, none), columnFormatter.mk 0 (some [3, 4]) []) ∧
      ∀ line ∈ splitNewlines out,
        (line.length : Int) = ([3, 4] : List Int).sum + 2 * ((([3, 4] : List Int).length : Int) - 1)) ∧
    (∃ out f1, (newColumnFormatter 40 (newBaseAuditTableColumns [])).formatRow
        [ascii "alice", ascii "read.secret with a long text", ascii "127.0.0.1", ascii "now"]
        = some ((out, none), f1) ∧
      ∀ line ∈ splitNewlines out, (line.length : Int) ≤ 40) :=
  ⟨formatRow_line_length.1 _ _ [3, 4] [ascii "abcdefgh", ascii "xy"] rfl (by decide) (by decide)
      rfl (by decide),
    formatRow_line_length.2 40 (newBaseAuditTableColumns [])
      [ascii "alice", ascii "read.secret with a long text", ascii "127.0.0.1", ascii "now"]
      (by decide) (by decide) (by decide) rfl (by decide)⟩

/-! ## Round trip of the wrapper -/

/-- The first `lines` slices of a cell, concatenated: the cell, cut or padded
with spaces to `lines * w` bytes. -/
theorem flatten_slices (c : GoString) (w : Nat) : ∀ (lines : Nat),
    ((List.range lines).map (sliceAt c w)).flatten
      = c.take (lines * w) ++ List.replicate (lines * w - c.length) 32 := by
  intro lines
  induction lines with
  | zero => simp
  | succ lines ih =>
    rw [List.range_succ, List.map_append, List.flatten_append, ih]
    simp only [List.map_cons, List.map_nil, List.flatten_cons, List.flatten_nil, List.append_nil]
    have hmul : (lines + 1) * w = lines * w + w := by rw [Nat.add_mul, Nat.one_mul]
    by_cases h1 : c.length ≤ lines * w
    · rw [sliceAt_blank c w lines h1, List.take_of_length_le h1,
        List.take_of_length_le (by omega), List.append_assoc, ← List.replicate_add]
      congr 2
      omega
    · have h0 : lines * w - c.length = 0 := by omega
      rw [h0, List.replicate_zero, List.append_nil]
      unfold sliceAt
      rw [← List.append_assoc, hmul, List.take_add]
      congr 2
      simp only [List.length_take, List.length_drop]
      omega

theorem gridColumn_single (c : GoString) (w : Int) (lines : Nat) :
    gridColumn (gridSpec [w] [c] lines) 0 = (List.range lines).map (sliceAt c w.toNat) := by
  simp [gridColumn, gridSpec, gridRow]

theorem formatRowSpec_single (c : GoString) (w : Int) :
    formatRowSpec [w] [c]
      = List.intercalate [10] (gridColumn (gridSpec [w] [c] (maxLinesFrom [c] [w] 1)) 0) := by
  rw [gridColumn_single]
  simp only [formatRowSpec, gridSpec, gridRow, List.map_map]
  congr 1
  apply List.map_congr_left
  intro j _
  simp [gridRow, intercalate_singleton]

theorem cellLines_tight (len w : Nat) (hw : 0 < w) :
    (max 1 (cellLines len w) - 1) * w ≤ len := by
  unfold cellLines
  have hdm := Nat.div_add_mod len w
  have hmc : len / w * w = w * (len / w) := Nat.mul_comm _ _
  by_cases hr : len % w = 0
  · rw [if_neg (by omega)]
    rcases Nat.eq_zero_or_pos (len / w) with h0 | h0
    · rw [h0]
      simp
    · rw [max_eq_right h0, Nat.sub_mul]
      omega
  · rw [if_pos hr, max_eq_right (Nat.le_add_left 1 _), Nat.add_sub_cancel]
    omega

/-- The slices of a cell: removing the pad spaces from the last one and
concatenating gives the cell back. -/
theorem slices_roundtrip (c : GoString) (w : Nat) (hw : 0 < w) :
    ∃ (last : GoString) (pad : Nat),
      ((List.range (max 1 (cellLines c.length w))).map (sliceAt c w)).getLast? = some last ∧
      pad + c.length = max 1 (cellLines c.length w) * w ∧ pad ≤ w ∧
      last.drop (w - pad) = List.replicate pad 32 ∧
      (((List.range (max 1 (cellLines c.length w))).map (sliceAt c w)).dropLast).flatten
        ++ last.take (w - pad) = c := by
  have hcover : c.length ≤ max 1 (cellLines c.length w) * w :=
    le_trans (cellLines_le c.length w hw) (Nat.mul_le_mul_right w (le_max_right _ _))
  have htight := cellLines_tight c.length w hw
  obtain ⟨k, hk⟩ : ∃ k, max 1 (cellLines c.length w) = k + 1 :=
    ⟨max 1 (cellLines c.length w) - 1, by have := le_max_left 1 (cellLines c.length w); omega⟩
  rw [hk] at hcover htight ⊢
  rw [Nat.add_sub_cancel] at htight
  have hmul : (k + 1) * w = k * w + w := by rw [Nat.add_mul, Nat.one_mul]
  have hinit := flatten_slices c w k
  have h0 : k * w - c.length = 0 := by omega
  rw [h0, List.replicate_zero, List.append_nil] at hinit
  have hlast : sliceAt c w k = c.drop (k * w) ++ List.replicate ((k + 1) * w - c.length) 32 := by
    unfold sliceAt
    have h1 : (c.drop (k * w)).take w = c.drop (k * w) :=
      List.take_of_length_le (by simp only [List.length_drop]; omega)
    rw [h1]
    congr 2
    simp only [List.length_drop]
    omega
  have hdl : (c.drop (k * w)).length = w - ((k + 1) * w - c.length) := by
    simp only [List.length_drop]
    omega
  refine ⟨sliceAt c w k, (k + 1) * w - c.length, ?_, by omega, by omega, ?_, ?_⟩
  · rw [List.range_succ, List.map_append]
    simp
  · rw [hlast, ← hdl, List.drop_left]
  · rw [List.range_succ, List.map_append, List.map_cons, List.map_nil, List.dropLast_concat,
      hinit, hlast, ← hdl, List.take_left, List.take_append_drop]

/-! ## Round trip of the wrapper: trimming the last slice -/

theorem dropWhile_space_replicate (k : Nat) (t : GoString) :
    (List.replicate k (32 : UInt8) ++ t).dropWhile (fun b => b = 32)
      = t.dropWhile (fun b => b = 32) := by
  induction k with
  | zero => simp
  | succ k ih =>
    rw [List.replicate_succ, List.cons_append, List.dropWhile_cons]
    simp only [decide_True, if_true]
    exact ih

/-- Spaces appended to a text are trimmed with its own trailing spaces. -/
theorem trimRightSpaces_append_spaces (t : GoString) (k : Nat) :
    trimRightSpaces (t ++ List.replicate k 32) = trimRightSpaces t := by
  unfold trimRightSpaces
  rw [List.reverse_append, List.reverse_replicate, dropWhile_space_replicate]

/-- A text that does not end with a space is left as it is. -/
theorem trimRightSpaces_of_no_space (t : GoString) (h : t.getLast? ≠ some 32) :
    trimRightSpaces t = t := by
  unfold trimRightSpaces
  have hhead : t.reverse.head? ≠ some 32 := by
    rw [List.head?_reverse]
    exact h
  cases hr : t.reverse with
  | nil =>
    have : t = [] := by simpa using hr
    subst this
    rfl
  | cons b rest =>
    rw [hr] at hhead
    simp only [List.head?_cons, ne_eq, Option.some.injEq] at hhead
    rw [List.dropWhile_cons]
    simp only [hhead, decide_False, Bool.false_eq_true, if_false]
    rw [← hr, List.reverse_reverse]

theorem getLast_suffix (init t : GoString) (h : (init ++ t).getLast? ≠ some 32) :
    t.getLast? ≠ some 32 := by
  cases t with
  | nil => simp
  | cons b rest =>
    intro hb
    apply h
    rw [List.getLast?_append, hb]
    rfl

/-- Counterexample to C6 as stated: in a column of width 3 the cells `"a "`
and `"a"` have the same single slice `"a  "`, so that `formatRow` returns the
same text for both and no trimming of the last slice gives both cells back;
trimming the trailing spaces of the slice gives `"a"`, not `"a "`. -/
theorem formatRow_roundtrip_trailing_space_counterexample :
    splitGrid [3] [ascii "a "] = some (1, [[ascii "a  "]]) ∧
    splitGrid [3] [ascii "a"] = some (1, [[ascii "a  "]]) ∧
    (columnFormatter.mk 80 (some [3]) []).formatRow [ascii "a "]
      = (columnFormatter.mk 80 (some [3]) []).formatRow [ascii "a"] ∧
    ascii "a " ≠ ascii "a" ∧
    ((gridColumn [[ascii "a  "]] 0).dropLast).flatten ++ trimRightSpaces (ascii "a  ")
      ≠ ascii "a " := by
  refine ⟨by decide, by decide, by decide, by decide, by decide⟩

/-- C6, amended: round-trip law of the wrapper for a cell `c` that does not end
with a space and a column width `w >= 1`: the grid that `formatRow` builds for
the one-cell row `[c]` has in its column the slices of `c` (the text returned
is these slices, joined by newlines), every slice has `w` bytes, and the
slices before the last, concatenated, followed by the last slice without its
trailing spaces, are `c`. -/
theorem formatRow_roundtrip (c : GoString) (w : Int) (hw : 1 ≤ w) (f : columnFormatter)
    (hf : f.computedColumnWidths = some [w]) (hc : c.getLast? ≠ some 32) :
    ∃ maxLines grid, splitGrid [w] [c] = some (maxLines, grid) ∧
      f.formatRow [c] = some ((List.intercalate [10] (gridColumn grid 0), none), f) ∧
      (∀ s ∈ gridColumn grid 0, (s.length : Int) = w) ∧
      ∃ (last : GoString), (gridColumn grid 0).getLast? = some last ∧
        ((gridColumn grid 0).dropLast).flatten ++ trimRightSpaces last = c := by
  have hpos : ∀ x ∈ [w], 0 < x := by
    intro x hx
    rw [List.mem_singleton] at hx
    omega
  have hgrid := splitGrid_spec [w] hpos [c] (by simp)
  have hcw : f.columnWidths = some ([w], f) := by
    simp only [columnFormatter.columnWidths, hf]
  have hfmt := formatRow_spec f f [w] [c] hcw hpos (by simp)
  rw [formatRowSpec_single] at hfmt
  refine ⟨_, _, hgrid, hfmt, ?_, ?_⟩
  · intro s hs
    rw [gridColumn_single] at hs
    obtain ⟨j, -, rfl⟩ := List.mem_map.mp hs
    rw [sliceAt_length]
    omega
  · have hlines : maxLinesFrom [c] [w] 1 = max 1 (cellLines c.length w.toNat) := by
      simp [maxLinesFrom]
    rw [gridColumn_single, hlines]
    obtain ⟨last, pad, h1, -, -, h4, h5⟩ := slices_roundtrip c w.toNat (by omega)
    refine ⟨last, h1, ?_⟩
    have hsplit : last = last.take (w.toNat - pad) ++ List.replicate pad 32 := by
      rw [← h4, List.take_append_drop]
    have hkept : (last.take (w.toNat - pad)).getLast? ≠ some 32 := by
      apply getLast_suffix ((((List.range (max 1 (cellLines c.length w.toNat))).map
        (sliceAt c w.toNat)).dropLast).flatten)
      rw [h5]
      exact hc
    rw [hsplit, trimRightSpaces_append_spaces, trimRightSpaces_of_no_space _ hkept]
    exact h5

/-- Witness of the amended C6: the cell `"abcdefgh"` in a column of width
3. -/
theorem formatRow_roundtrip_witness :
    ∃ maxLines grid, splitGrid [3] [ascii "abcdefgh"] = some (maxLines, grid) ∧
      (columnFormatter.mk 80 (some [3]) []).formatRow [ascii "abcdefgh"]
        = some ((List.intercalate [10] (gridColumn grid 0), none),
            columnFormatter.mk 80 (some [3]) []) ∧
      (∀ s ∈ gridColumn grid 0, (s.length : Int) = 3) ∧
      ∃ (last : GoString), (gridColumn grid 0).getLast? = some last ∧
        ((gridColumn grid 0).dropLast).flatten ++ trimRightSpaces last = ascii "abcdefgh" :=
  formatRow_roundtrip (ascii "abcdefgh") 3 (by decide) (columnFormatter.mk 80 (some [3]) []) rfl
    (by decide)

/-! ## The cache of the column formatter -/

theorem columnWidths_cached (W : Int) (cols : List auditTableColumn) (ws : List Int) :
    (columnFormatter.mk W (some ws) cols).columnWidths
      = some (ws, columnFormatter.mk W (some ws) cols) := rfl

theorem columnWidths_stores (f f1 : columnFormatter) (ws : List Int)
    (h : f.columnWidths = some (ws, f1)) : f1.computedColumnWidths = some ws := by
  unfold columnFormatter.columnWidths at h
  split at h
  · rename_i ws0 hws
    simp only [Option.some.injEq, Prod.mk.injEq] at h
    rw [← h.2, hws, h.1]
  · dsimp only at h
    split at h
    · exact absurd h (by simp)
    · split at h
      · exact absurd h (by simp)
      · simp only [Option.some.injEq, Prod.mk.injEq] at h
        rw [← h.2, ← h.1]

theorem columnWidths_again (f f1 : columnFormatter) (ws : List Int)
    (h : f.columnWidths = some (ws, f1)) : f1.columnWidths = some (ws, f1) := by
  have hs := columnWidths_stores f f1 ws h
  simp only [columnFormatter.columnWidths, hs]

theorem formatRow_again (f f1 : columnFormatter) (row : List GoString)
    (out : GoString × Option GoError) (h : f.formatRow row = some (out, f1)) :
    f1.formatRow row = some (out, f1) := by
  unfold columnFormatter.formatRow at h ⊢
  cases hcw : f.columnWidths with
  | none => rw [hcw] at h; exact absurd h (by simp)
  | some p =>
    obtain ⟨ws, f2⟩ := p
    rw [hcw] at h
    simp only [Option.bind_eq_bind, Option.some_bind] at h ⊢
    cases hg : splitGrid ws row with
    | none => rw [hg] at h; exact absurd h (by simp)
    | some q =>
      obtain ⟨lines, grid⟩ := q
      rw [hg] at h
      simp only [Option.some_bind] at h
      cases hs : gridToString lines grid with
      | none => rw [hs] at h; exact absurd h (by simp)
      | some strRes =>
        rw [hs] at h
        simp only [Option.some_bind, Option.some.injEq, Prod.mk.injEq] at h
        obtain ⟨hout, hf⟩ := h
        subst hf
        rw [columnWidths_again f f2 ws hcw]
        simp only [Option.some_bind, hg, hs, hout]

/-- C7, cache invariant of the column formatter: a formatter that holds cached
widths returns them from `columnWidths` whatever its `tableWidth` and
`columns` are, and is left unchanged; after a call of `columnWidths` that
returned `ws`, the widths are stored, so every later call returns `ws` and
changes nothing, also when `tableWidth` and `columns` are replaced; and when
`formatRow` returned `out` for a row, formatting the same row again returns
the same `out` and leaves the formatter as it is. -/
theorem columnFormatter_cache :
    (∀ (W : Int) (cols : List auditTableColumn) (ws : List Int),
      (columnFormatter.mk W (some ws) cols).columnWidths
        = some (ws, columnFormatter.mk W (some ws) cols)) ∧
    (∀ (f f1 : columnFormatter) (ws : List Int), f.columnWidths = some (ws, f1) →
      f1.computedColumnWidths = some ws ∧ f1.columnWidths = some (ws, f1) ∧
      ∀ (W : Int) (cols : List auditTableColumn),
        (columnFormatter.mk W f1.computedColumnWidths cols).columnWidths
          = some (ws, columnFormatter.mk W (some ws) cols)) ∧
    (∀ (f f1 : columnFormatter) (row : List GoString) (out : GoString × Option GoError),
      f.formatRow row = some (out, f1) →
      f1.formatRow row = some (out, f1) ∧
      (f.computedColumnWidths ≠ none → f1 = f)) := by
  refine ⟨columnWidths_cached, ?_, ?_⟩
  · intro f f1 ws h
    have hs := columnWidths_stores f f1 ws h
    refine ⟨hs, columnWidths_again f f1 ws h, ?_⟩
    intro W cols
    rw [hs]
    rfl
  · intro f f1 row out h
    refine ⟨formatRow_again f f1 row out h, ?_⟩
    intro hc
    cases hcw : f.computedColumnWidths with
    | none => exact absurd hcw hc
    | some ws =>
      have h1 : f.columnWidths = some (ws, f) := by
        simp only [columnFormatter.columnWidths, hcw]
      unfold columnFormatter.formatRow at h
      rw [h1] at h
      simp only [Option.bind_eq_bind, Option.some_bind] at h
      cases hg : splitGrid ws row with
      | none => rw [hg] at h; exact absurd h (by simp)
      | some q =>
        rw [hg] at h
        simp only [Option.some_bind] at h
        cases hs : gridToString q.1 q.2 with
        | none => rw [hs] at h; exact absurd h (by simp)
        | some strRes =>
          rw [hs] at h
          simp only [Option.some_bind, Option.some.injEq, Prod.mk.injEq] at h
          exact h.2.symm

/-- Witness of C7: the secret audit table's formatter at width 40, which
computes its widths in the first call of `formatRow`. -/
theorem columnFormatter_cache_witness :
    (columnFormatter.mk 40 (some [8, 8, 8, 8]) (newBaseAuditTableColumns [])).formatRow
        [ascii "alice", ascii "read.secret", ascii "127.0.0.1", ascii "now"]
      = some ((ascii "alice     read.sec  127.0.0.  now     \n          ret       1                 ",
          none), columnFormatter.mk 40 (some [8, 8, 8, 8]) (newBaseAuditTableColumns [])) ∧
    (columnFormatter.mk 121 (some [8, 8, 8, 8]) []).columnWidths
      = some ([8, 8, 8, 8], columnFormatter.mk 121 (some [8, 8, 8, 8]) []) :=
  ⟨(columnFormatter_cache.2.2 (newColumnFormatter 40 (newBaseAuditTableColumns []))
      (columnFormatter.mk 40 (some [8, 8, 8, 8]) (newBaseAuditTableColumns []))
      [ascii "alice", ascii "read.secret", ascii "127.0.0.1", ascii "now"]
      (ascii "alice     read.sec  127.0.0.  now     \n          ret       1                 ", none)
      (by decide)).1,
   (columnFormatter_cache.2.1 (newColumnFormatter 40 (newBaseAuditTableColumns []))
      (columnFormatter.mk 40 (some [8, 8, 8, 8]) (newBaseAuditTableColumns [])) [8, 8, 8, 8]
      (by decide)).2.2 121 []⟩

/-! ## The JSON formatter -/

theorem jsonMapLoop_total (fields : List GoString) :
    ∀ (rest : List GoString) (i : Nat) (m : GoMap), i + rest.length ≤ fields.length →
      ∃ m1, jsonMapLoop fields rest i m = some m1 := by
  intro rest
  induction rest with
  | nil => intro i m _; exact ⟨m, rfl⟩
  | cons element rest ih =>
    intro i m h
    simp only [List.length_cons] at h
    have hi : i < fields.length := by omega
    simp only [jsonMapLoop, List.getElem?_eq_getElem hi]
    exact ih (i + 1) _ (by omega)

theorem mapSet_fresh : ∀ (m : GoMap) (k v : GoString), k ∉ m.map Prod.fst →
    mapSet m k v = m ++ [(k, v)] := by
  intro m
  induction m with
  | nil => intro k v _; rfl
  | cons e m ih =>
    intro k v h
    obtain ⟨k1, v1⟩ := e
    simp only [List.map_cons, List.mem_cons, not_or] at h
    have hne : ¬ k1 = k := fun h1 => h.1 h1.symm
    simp only [mapSet, if_neg hne, ih k v h.2, List.cons_append]

theorem mapGet_zip : ∀ (fields row : List GoString), fields.Nodup →
    ∀ (i : Nat) (name cell : GoString), fields[i]? = some name → row[i]? = some cell →
      mapGet (fields.zip row) name = some cell := by
  intro fields
  induction fields with
  | nil => intro row _ i name cell h; simp at h
  | cons f fields ih =>
    intro row hnd i name cell hf hr
    cases row with
    | nil => simp at hr
    | cons r row =>
      cases i with
      | zero =>
        simp only [List.getElem?_cons_zero, Option.some.injEq] at hf hr
        subst hf hr
        simp [mapGet]
      | succ i =>
        simp only [List.getElem?_cons_succ] at hf hr
        have hmem : name ∈ fields := List.getElem?_mem hf
        have hne : ¬ f = name := by
          intro h
          subst h
          exact (List.nodup_cons.mp hnd).1 hmem
        simp only [List.zip_cons_cons, mapGet, if_neg hne]
        exact ih row (List.nodup_cons.mp hnd).2 i name cell hf hr

theorem jsonMapLoop_zip (fields : List GoString) (hnd : fields.Nodup) :
    ∀ (rest : List GoString) (i : Nat) (m : GoMap), i + rest.length = fields.length →
      m.map Prod.fst = fields.take i →
      jsonMapLoop fields rest i m = some (m ++ (fields.drop i).zip rest) := by
  intro rest
  induction rest with
  | nil => intro i m _ _; simp [jsonMapLoop]
  | cons element rest ih =>
    intro i m h hm
    simp only [List.length_cons] at h
    have hi : i < fields.length := by omega
    have hsplit : fields = fields.take i ++ fields[i] :: fields.drop (i + 1) := by
      rw [← List.drop_eq_getElem_cons hi, List.take_append_drop]
    have hfresh : fields[i] ∉ m.map Prod.fst := by
      rw [hm]
      intro hmem
      rw [hsplit] at hnd
      have hdis := (List.nodup_append.mp hnd).2.2
      exact hdis hmem (List.mem_cons_self _ _)
    simp only [jsonMapLoop, List.getElem?_eq_getElem hi]
    rw [mapSet_fresh m _ element hfresh, ih (i + 1) _ (by omega)
      (by rw [List.map_append, hm, List.take_succ, List.getElem?_eq_getElem hi]; rfl),
      List.drop_eq_getElem_cons hi, List.zip_cons_cons, List.append_assoc,
      List.singleton_append]

theorem insertEntry_perm (e : GoString × GoString) :
    ∀ (m : GoMap), (insertEntry e m).Perm (e :: m) := by
  intro m
  induction m with
  | nil => exact List.Perm.refl _
  | cons e1 m ih =>
    simp only [insertEntry]
    split_ifs
    · exact List.Perm.refl _
    · exact List.Perm.trans (List.Perm.cons e1 ih) (List.Perm.swap e e1 m)

theorem sortEntries_perm : ∀ (m : GoMap), (sortEntries m).Perm m := by
  intro m
  induction m with
  | nil => exact List.Perm.refl _
  | cons e m ih =>
    simp only [sortEntries]
    exact List.Perm.trans (insertEntry_perm e _) (List.Perm.cons e ih)

/-- C8: `jsonFormatter.formatRow` returns without panic for every row; it
returns an error if and only if the number of cells differs from the number
of field names, and then the text returned is empty and the error is the
field-count error. -/
theorem jsonFormatter_formatRow_error (encodeString : GoString → GoString)
    (f : jsonFormatter) (row : List GoString) :
    ∃ out err, f.formatRow encodeString row = some (out, err) ∧
      (err ≠ none ↔ f.fields.length ≠ row.length) ∧
      (err ≠ none →
        out = [] ∧ err = some (GoError.errorf (ascii "unexpected number of json fields"))) := by
  by_cases h : f.fields.length = row.length
  · obtain ⟨m, hm⟩ := jsonMapLoop_total f.fields row 0 [] (by omega)
    refine ⟨jsonMarshal encodeString m, none, ?_, ?_, ?_⟩
    · simp only [jsonFormatter.formatRow, h, ne_eq, not_true_eq_false, if_false, hm]
    · simp [h]
    · intro hc
      exact absurd rfl hc
  · refine ⟨[], some (GoError.errorf (ascii "unexpected number of json fields")), ?_, ?_, ?_⟩
    · simp only [jsonFormatter.formatRow, ne_eq, h, not_false_eq_true, if_true]
    · simp [h]
    · intro _
      exact ⟨rfl, rfl⟩

/-- C9: for pairwise distinct field names and a row of as many cells,
`jsonFormatter.formatRow` succeeds and serialises the map whose entries are
the pairs `(f_i, r_i)`: its keys are exactly the field names, the value at
`f_i` is the cell `r_i` itself, and the members written by `json.Marshal` are
these entries, reordered. -/
theorem jsonFormatter_formatRow_object (encodeString : GoString → GoString)
    (f : jsonFormatter) (row : List GoString) (hnd : f.fields.Nodup)
    (hlen : f.fields.length = row.length) :
    jsonMapLoop f.fields row 0 [] = some (f.fields.zip row) ∧
    f.formatRow encodeString row = some (jsonMarshal encodeString (f.fields.zip row), none) ∧
    (f.fields.zip row).map Prod.fst = f.fields ∧
    (f.fields.zip row).map Prod.snd = row ∧
    (∀ (i : Nat) (name cell : GoString), f.fields[i]? = some name → row[i]? = some cell →
      mapGet (f.fields.zip row) name = some cell) ∧
    (sortEntries (f.fields.zip row)).Perm (f.fields.zip row) := by
  have hloop := jsonMapLoop_zip f.fields hnd row 0 [] (by omega) (by simp)
  simp only [List.nil_append, List.drop_zero] at hloop
  refine ⟨hloop, ?_, ?_, ?_, mapGet_zip f.fields row hnd, sortEntries_perm _⟩
  · simp only [jsonFormatter.formatRow, hlen, ne_eq, not_true_eq_false, if_false, hloop]
  · exact List.map_fst_zip _ _ (by omega)
  · exact List.map_snd_zip _ _ (by omega)

/-- Witness of C9: the fields `b`, `a` and the row `1`, `2`. -/
theorem jsonFormatter_formatRow_object_witness :
    jsonMapLoop [ascii "b", ascii "a"] [ascii "1", ascii "2"] 0 []
      = some ([ascii "b", ascii "a"].zip [ascii "1", ascii "2"]) ∧
    (newJSONFormatter [ascii "b", ascii "a"]).formatRow quoteOnly [ascii "1", ascii "2"]
      = some (jsonMarshal quoteOnly ([ascii "b", ascii "a"].zip [ascii "1", ascii "2"]), none) ∧
    jsonMarshal quoteOnly ([ascii "b", ascii "a"].zip [ascii "1", ascii "2"])
      = ascii "\x7b\"a\":\"2\",\"b\":\"1\"\x7d" :=
  ⟨(jsonFormatter_formatRow_object quoteOnly (newJSONFormatter [ascii "b", ascii "a"])
      [ascii "1", ascii "2"] (by decide) rfl).1,
   (jsonFormatter_formatRow_object quoteOnly (newJSONFormatter [ascii "b", ascii "a"])
      [ascii "1", ascii "2"] (by decide) rfl).2.1, by decide⟩

/-! ## The fallback pager -/

/-- C10: for a fallback pager with remaining budget `L > 0` and a payload with
`c < L` newline bytes, `Write` hands the payload unchanged to the underlying
writer, returns the byte count and the error of that write, and leaves the
budget at `L - c`. -/
theorem fallbackPager_Write_within_budget {σ : Type} (w : ioWriter σ) (p : fallbackPager σ)
    (data : GoString) (hL : 0 < p.linesLeft) (hc : countNewlines data < p.linesLeft) :
    fallbackPager.Write w p data
      = some ((w.Write p.writer data).1,
          ⟨(w.Write p.writer data).2, p.linesLeft - countNewlines data⟩) := by
  have h0 : ¬ p.linesLeft = 0 := by omega
  have h1 : ¬ countNewlines data > p.linesLeft := by omega
  have h2 : ¬ p.linesLeft - countNewlines data = 0 := by omega
  simp only [fallbackPager.Write, if_neg h0, if_neg h1, if_neg h2]

/-- Witness of C10: two lines written to a buffer with a budget of 100. -/
theorem fallbackPager_Write_within_budget_witness :
    fallbackPager.Write bufferWriter (newFallbackPager (ascii "x\n")) (ascii "a\nb\n")
      = some ((bufferWriter.Write (ascii "x\n") (ascii "a\nb\n")).1,
          ⟨(bufferWriter.Write (ascii "x\n") (ascii "a\nb\n")).2,
            (newFallbackPager (ascii "x\n")).linesLeft - countNewlines (ascii "a\nb\n")⟩) :=
  fallbackPager_Write_within_budget bufferWriter (newFallbackPager (ascii "x\n"))
    (ascii "a\nb\n") (by decide) (by decide)

/-! ## The fallback pager: one write -/

theorem countNewlines_append (a b : GoString) :
    countNewlines (a ++ b) = countNewlines a + countNewlines b := by
  simp [countNewlines, List.count_append]

theorem countNewlines_nonneg (a : GoString) : 0 ≤ countNewlines a := by
  unfold countNewlines
  exact Int.ofNat_nonneg _

theorem splitNewlines_length (data : GoString) :
    (splitNewlines data).length = data.count 10 + 1 := by
  induction data with
  | nil => rfl
  | cons b data ih =>
    by_cases hb : b = 10
    · subst hb
      simp [splitNewlines, ih]
    · have hb2 : (b == 10) = false := by simpa using hb
      simp only [splitNewlines, if_neg hb, List.count_cons, hb2]
      split
      · rename_i h
        rw [h] at ih
        simp at ih
      · rename_i part parts h
        rw [h] at ih
        simpa using ih

theorem intercalate_cons_head (sep : GoString) (b : UInt8) (x : GoString)
    (xs : List GoString) :
    List.intercalate sep ((b :: x) :: xs) = b :: List.intercalate sep (x :: xs) := by
  cases xs with
  | nil => simp [intercalate_singleton]
  | cons y ys => simp [intercalate_cons_cons]

/-- The payload cut by `fallbackPager.Write` to `k` lines: the first `k`
parts of the payload, joined and ended by a newline. -/
theorem truncate_prefix : ∀ (data : GoString) (k : Nat), 1 ≤ k → k ≤ data.count 10 →
    ∃ rest, data = (List.intercalate [10] ((splitNewlines data).take k) ++ [10]) ++ rest ∧
      (List.intercalate [10] ((splitNewlines data).take k) ++ [10]).count 10 = k := by
  intro data
  induction data with
  | nil => intro k h1 h2; simp at h2; omega
  | cons b data ih =>
    intro k h1 h2
    by_cases hb : b = 10
    · subst hb
      simp only [List.count_cons_self] at h2
      obtain ⟨k1, rfl⟩ : ∃ k1, k = k1 + 1 := ⟨k - 1, by omega⟩
      simp only [splitNewlines, if_true, List.take_succ_cons]
      rcases Nat.eq_zero_or_pos k1 with h0 | h0
      · subst h0
        refine ⟨data, ?_, ?_⟩
        · simp [intercalate_singleton]
        · simp [intercalate_singleton]
      · obtain ⟨rest, hrest, hcount⟩ := ih k1 h0 (by omega)
        have hne : (splitNewlines data).take k1 ≠ [] := by
          intro h
          have hl := congrArg List.length h
          rw [List.length_take, splitNewlines_length] at hl
          simp only [List.length_nil] at hl
          omega
        obtain ⟨y, ys, hy⟩ := List.exists_cons_of_ne_nil hne
        rw [hy] at hrest hcount ⊢
        rw [intercalate_cons_cons]
        refine ⟨rest, ?_, ?_⟩
        · simp only [List.nil_append, List.singleton_append, List.cons_append]
          congr 1
        · simp only [List.nil_append, List.singleton_append, List.cons_append,
            List.count_cons_self]
          omega
    · have hb2 : (b == 10) = false := by simpa using hb
      simp only [List.count_cons, hb2] at h2
      simp only [Bool.false_eq_true, if_false, Nat.add_zero] at h2
      obtain ⟨rest, hrest, hcount⟩ := ih k h1 h2
      obtain ⟨k1, rfl⟩ : ∃ k1, k = k1 + 1 := ⟨k - 1, by omega⟩
      obtain ⟨part, parts, hp⟩ := List.exists_cons_of_ne_nil (splitNewlines_ne_nil data)
      rw [hp] at hrest hcount
      simp only [List.take_succ_cons] at hrest hcount
      simp only [splitNewlines, if_neg hb, hp, List.take_succ_cons, intercalate_cons_head]
      refine ⟨rest, ?_, ?_⟩
      · simp only [List.cons_append]
        congr 1
      · simp only [List.cons_append, List.count_cons, hb2]
        simpa using hcount

theorem fallbackWrite_closed {σ : Type} (w : ioWriter σ) (p : fallbackPager σ)
    (data : GoString) (h : p.linesLeft = 0) :
    fallbackPager.Write w p data = some ((0, some GoError.errPagerNotFound), p) := by
  simp only [fallbackPager.Write, if_pos h]

theorem fallbackWrite_within {σ : Type} (w : ioWriter σ) (p : fallbackPager σ)
    (data : GoString) (hL : 0 < p.linesLeft) (hc : countNewlines data < p.linesLeft) :
    fallbackPager.Write w p data
      = some ((w.Write p.writer data).1,
          ⟨(w.Write p.writer data).2, p.linesLeft - countNewlines data⟩) := by
  have h0 : ¬ p.linesLeft = 0 := by omega
  have h1 : ¬ countNewlines data > p.linesLeft := by omega
  have h2 : ¬ p.linesLeft - countNewlines data = 0 := by omega
  simp only [fallbackPager.Write, if_neg h0, if_neg h1, if_neg h2]

/-- A write that uses up the budget: what is handed to the underlying writer
is a prefix of the payload with as many newlines as the budget. -/
theorem fallbackWrite_exhausts {σ : Type} (w : ioWriter σ) (p : fallbackPager σ)
    (data : GoString) (hL : 0 < p.linesLeft) (hc : p.linesLeft ≤ countNewlines data) :
    ∃ written, fallbackPager.Write w p data
        = some (((w.Write p.writer written).1.1, some GoError.errPagerNotFound),
            ⟨(w.Write p.writer written).2, 0⟩) ∧
      (∃ rest, data = written ++ rest) ∧ countNewlines written = p.linesLeft ∧
      (countNewlines data = p.linesLeft → written = data) ∧
      (p.linesLeft < countNewlines data → written.getLast? = some 10) := by
  have h0 : ¬ p.linesLeft = 0 := by omega
  by_cases hgt : countNewlines data > p.linesLeft
  · obtain ⟨k, hk⟩ : ∃ k : Nat, p.linesLeft = (k : Int) := ⟨p.linesLeft.toNat, by omega⟩
    have hk1 : 1 ≤ k := by omega
    have hk2 : k ≤ data.count 10 := by
      unfold countNewlines at hc
      omega
    obtain ⟨rest, hrest, hcount⟩ := truncate_prefix data k hk1 hk2
    refine ⟨List.intercalate [10] ((splitNewlines data).take k) ++ [10], ?_, ⟨rest, hrest⟩, ?_,
      ?_, ?_⟩
    · have hslice : sliceTo (splitNewlines data) p.linesLeft
          = some ((splitNewlines data).take k) := by
        unfold sliceTo
        rw [if_pos ⟨by omega, by rw [splitNewlines_length]; omega⟩, hk, Int.toNat_ofNat]
      have hcnt : countNewlines (List.intercalate [10] ((splitNewlines data).take k) ++ [10])
          = p.linesLeft := by
        unfold countNewlines
        rw [hcount, hk]
      simp only [fallbackPager.Write, if_neg h0, if_pos hgt, hslice, Option.map_some',
        stringsJoin, hcnt, sub_self, if_true]
    · unfold countNewlines
      rw [hcount, hk]
    · intro h
      omega
    · intro _
      simp
  · have heq : countNewlines data = p.linesLeft := by omega
    refine ⟨data, ?_, ⟨[], by simp⟩, heq, fun _ => rfl, ?_⟩
    · have h2 : p.linesLeft - countNewlines data = 0 := by omega
      simp only [fallbackPager.Write, if_neg h0, if_neg hgt, h2, if_true]
    · intro h
      omega

/-! ## The fallback pager: claims on `Write` and `IsClosed` -/

/-- Counterexample to C11 as stated: with a budget of one line, the payload
`"a\nb"` has one newline (`c = L`), and `Write` hands the whole payload to the
underlying writer, not its prefix `"a\n"` that ends with the first newline. -/
theorem fallbackPager_Write_prefix_counterexample :
    countNewlines (ascii "a\nb") = 1 ∧
    fallbackPager.Write bufferWriter ⟨[], 1⟩ (ascii "a\nb")
      = some ((3, some GoError.errPagerNotFound), ⟨ascii "a\nb", 0⟩) ∧
    (ascii "a\nb").getLast? ≠ some 10 ∧ ascii "a\nb" ≠ ascii "a\n" :=
  ⟨by decide, rfl, by decide, by decide⟩

/-- C11, amended: for a fallback pager with remaining budget `L > 0` and a
payload with `c >= L` newline bytes, `Write` hands to the underlying writer a
prefix of the payload that holds exactly `L` newlines: the whole payload when
`c = L` (also when bytes follow its last newline), the prefix that ends with
the `L`-th newline when `c > L`; it sets the budget to 0 and returns the byte
count of the underlying write together with `errPagerNotFound`. -/
theorem fallbackPager_Write_exhausts_budget {σ : Type} (w : ioWriter σ) (p : fallbackPager σ)
    (data : GoString) (hL : 0 < p.linesLeft) (hc : p.linesLeft ≤ countNewlines data) :
    ∃ written, fallbackPager.Write w p data
        = some (((w.Write p.writer written).1.1, some GoError.errPagerNotFound),
            ⟨(w.Write p.writer written).2, 0⟩) ∧
      (∃ rest, data = written ++ rest) ∧ countNewlines written = p.linesLeft ∧
      (countNewlines data = p.linesLeft → written = data) ∧
      (p.linesLeft < countNewlines data → written.getLast? = some 10) :=
  fallbackWrite_exhausts w p data hL hc

/-- Witness of the amended C11: four lines written with a budget of two. -/
theorem fallbackPager_Write_exhausts_budget_witness :
    ∃ written, fallbackPager.Write bufferWriter ⟨[], 2⟩ (ascii "a\nb\nc\nd\n")
        = some (((bufferWriter.Write [] written).1.1, some GoError.errPagerNotFound),
            ⟨(bufferWriter.Write [] written).2, 0⟩) ∧
      (∃ rest, ascii "a\nb\nc\nd\n" = written ++ rest) ∧
      countNewlines written = (fallbackPager.mk ([] : GoString) 2).linesLeft ∧
      (countNewlines (ascii "a\nb\nc\nd\n") = (fallbackPager.mk ([] : GoString) 2).linesLeft →
        written = ascii "a\nb\nc\nd\n") ∧
      ((fallbackPager.mk ([] : GoString) 2).linesLeft < countNewlines (ascii "a\nb\nc\nd\n") →
        written.getLast? = some 10) :=
  fallbackPager_Write_exhausts_budget bufferWriter ⟨[], 2⟩ (ascii "a\nb\nc\nd\n") (by decide)
    (by decide)

/-- C12: `IsClosed` reports true exactly when the budget is zero, and then
`Write` returns `(0, errPagerNotFound)` for every payload and leaves the pager,
the state of the underlying writer included, as it is. -/
theorem fallbackPager_closed {σ : Type} (w : ioWriter σ) (p : fallbackPager σ)
    (data : GoString) :
    (fallbackPager.IsClosed p = true ↔ p.linesLeft = 0) ∧
    (p.linesLeft = 0 →
      fallbackPager.Write w p data = some ((0, some GoError.errPagerNotFound), p)) := by
  refine ⟨?_, fallbackWrite_closed w p data⟩
  simp [fallbackPager.IsClosed]

/-- Witness of C12: a write on an exhausted pager over a buffer. -/
theorem fallbackPager_closed_witness :
    fallbackPager.Write bufferWriter ⟨ascii "x\n", 0⟩ (ascii "a\n")
      = some ((0, some GoError.errPagerNotFound), ⟨ascii "x\n", 0⟩) :=
  (fallbackPager_closed bufferWriter ⟨ascii "x\n", 0⟩ (ascii "a\n")).2 rfl

/-! ## The fallback pager: the line budget -/

theorem budgetInv_new {σ : Type} (s : σ) :
    BudgetInv (newFallbackPager ((s, []) : σ × GoString)) := by
  unfold BudgetInv newFallbackPager fallbackPagerLineCount
  refine ⟨?_, ?_, ?_⟩
  · show (0 : Int) ≤ 100
    omega
  · show (100 : Int) ≤ 100
    omega
  · simp [countNewlines]

/-- A write on a pager over a recording writer keeps the invariant and does
not raise the budget. -/
theorem budgetInv_write {σ : Type} (w : ioWriter σ) (p : fallbackPager (σ × GoString))
    (data : GoString) (h : BudgetInv p) :
    ∃ r p1, fallbackPager.Write (recordingWriter w) p data = some (r, p1) ∧ BudgetInv p1 ∧
      p1.linesLeft ≤ p.linesLeft := by
  obtain ⟨h1, h2, h3⟩ := h
  by_cases h0 : p.linesLeft = 0
  · exact ⟨_, _, fallbackWrite_closed _ p data h0, ⟨h1, h2, h3⟩, le_refl _⟩
  · have hL : 0 < p.linesLeft := by omega
    have hnn := countNewlines_nonneg data
    by_cases hc : countNewlines data < p.linesLeft
    · refine ⟨_, _, fallbackWrite_within _ p data hL hc, ⟨?_, ?_, ?_⟩, ?_⟩
      · show 0 ≤ p.linesLeft - countNewlines data
        omega
      · show p.linesLeft - countNewlines data ≤ fallbackPagerLineCount
        omega
      · show countNewlines (p.writer.2 ++ data) + (p.linesLeft - countNewlines data)
          = fallbackPagerLineCount
        rw [countNewlines_append]
        omega
      · show p.linesLeft - countNewlines data ≤ p.linesLeft
        omega
    · obtain ⟨written, hw, -, hcount, -, -⟩ :=
        fallbackWrite_exhausts (recordingWriter w) p data hL (by omega)
      refine ⟨_, _, hw, ⟨le_refl _, ?_, ?_⟩, ?_⟩
      · show (0 : Int) ≤ fallbackPagerLineCount
        omega
      · show countNewlines (p.writer.2 ++ written) + 0 = fallbackPagerLineCount
        rw [countNewlines_append]
        omega
      · show (0 : Int) ≤ p.linesLeft
        exact h1

theorem writeAll_append {σ : Type} (w : ioWriter σ) :
    ∀ (payloads more : List GoString) (p : fallbackPager σ),
      fallbackPager.writeAll w p (payloads ++ more)
        = (fallbackPager.writeAll w p payloads).bind (fun p1 => fallbackPager.writeAll w p1 more) := by
  intro payloads
  induction payloads with
  | nil => intro more p; rfl
  | cons data rest ih =>
    intro more p
    simp only [List.cons_append, fallbackPager.writeAll]
    cases fallbackPager.Write w p data with
    | none => rfl
    | some r => exact ih more r.2

theorem budgetInv_writeAll {σ : Type} (w : ioWriter σ) :
    ∀ (payloads : List GoString) (p : fallbackPager (σ × GoString)), BudgetInv p →
      ∃ p1, fallbackPager.writeAll (recordingWriter w) p payloads = some p1 ∧ BudgetInv p1 ∧
        p1.linesLeft ≤ p.linesLeft := by
  intro payloads
  induction payloads with
  | nil => intro p h; exact ⟨p, rfl, h, le_refl _⟩
  | cons data rest ih =>
    intro p h
    obtain ⟨r, p1, hw, hinv, hle⟩ := budgetInv_write w p data h
    obtain ⟨p2, hw2, hinv2, hle2⟩ := ih p1 hinv
    refine ⟨p2, ?_, hinv2, le_trans hle2 hle⟩
    simp only [fallbackPager.writeAll, hw, hw2]

/-- C13, line-budget invariant of the fallback pager: started from
`newFallbackPager`, after every sequence of `Write` calls the budget is between
0 and 100 and the newline bytes handed to the underlying writer are 100 minus
the budget, hence at most 100; one more `Write` never raises the budget. -/
theorem fallbackPager_line_budget {σ : Type} (w : ioWriter σ) (s : σ)
    (payloads : List GoString) (data : GoString) :
    ∃ p1 p2,
      fallbackPager.writeAll (recordingWriter w) (newFallbackPager (s, [])) payloads = some p1 ∧
      fallbackPager.writeAll (recordingWriter w) (newFallbackPager (s, [])) (payloads ++ [data])
        = some p2 ∧
      0 ≤ p1.linesLeft ∧ p1.linesLeft ≤ 100 ∧
      countNewlines p1.writer.2 = 100 - p1.linesLeft ∧ countNewlines p1.writer.2 ≤ 100 ∧
      p2.linesLeft ≤ p1.linesLeft := by
  obtain ⟨p1, hw1, hinv1, -⟩ := budgetInv_writeAll w payloads _ (budgetInv_new s)
  obtain ⟨r, p2, hw2, -, hle⟩ := budgetInv_write w p1 data hinv1
  obtain ⟨h1, h2, h3⟩ := hinv1
  unfold fallbackPagerLineCount at h2 h3
  refine ⟨p1, p2, hw1, ?_, h1, h2, by omega, by omega, hle⟩
  rw [writeAll_append, hw1]
  simp only [Option.some_bind, fallbackPager.writeAll, hw2]

/-! ## The render loop: iterations that run to their end -/

theorem runLoop_normalStep {ι E π : Type} (encodeString : GoString → GoString)
    (iter : AuditEventIterator ι E) (table : auditTable E) (pg : pager π)
    (s s1 : runState ι π) (h : NormalStep encodeString iter table pg s s1) (fuel : Nat) :
    runLoop encodeString iter table pg (fuel + 1) s = runLoop encodeString iter table pg fuel s1 := by
  obtain ⟨e, row, text, p1, n, hnext, hrow, hfmt, hclosed, hwrite⟩ := h
  simp only [runLoop, hnext, hrow, hfmt, hclosed, hwrite]

theorem runLoop_normalSteps {ι E π : Type} (encodeString : GoString → GoString)
    (iter : AuditEventIterator ι E) (table : auditTable E) (pg : pager π) :
    ∀ (k : Nat) (s s1 : runState ι π), NormalSteps encodeString iter table pg k s s1 →
      ∀ fuel, runLoop encodeString iter table pg (fuel + k) s
        = runLoop encodeString iter table pg fuel s1 := by
  intro k
  induction k with
  | zero =>
    intro s s1 h fuel
    simp only [NormalSteps] at h
    rw [h]
    rfl
  | succ k ih =>
    intro s s1 h fuel
    obtain ⟨s0, h0, hrest⟩ := h
    have : fuel + (k + 1) = (fuel + k) + 1 := by omega
    rw [this, runLoop_normalStep encodeString iter table pg s s0 h0, ih s0 s1 hrest]

/-- The writes recorded during iterations that run to their end are never
taken back. -/
theorem normalSteps_writes {ι E π : Type} (encodeString : GoString → GoString)
    (iter : AuditEventIterator ι E) (table : auditTable E) (pg : pager π) :
    ∀ (k : Nat) (s s1 : runState ι (recorded π)),
      NormalSteps encodeString iter table (recordingPager pg) k s s1 →
      ∃ later, s1.sink.writes = s.sink.writes ++ later ∧ later.length = k ∧
        s1.sink.closes = s.sink.closes := by
  intro k
  induction k with
  | zero =>
    intro s s1 h
    simp only [NormalSteps] at h
    subst h
    exact ⟨[], by simp, rfl, rfl⟩
  | succ k ih =>
    intro s s1 h
    obtain ⟨s0, h0, hrest⟩ := h
    obtain ⟨later, hl, hlen, hc⟩ := ih s0 s1 hrest
    obtain ⟨e, row, text, p1, n, -, -, -, hclosed, hwrite⟩ := h0
    simp only [recordingPager, Prod.mk.injEq] at hclosed
    obtain ⟨-, hp1⟩ := hclosed
    simp only [Fprintln, recordingPager, Option.map_eq_some', Prod.mk.injEq] at hwrite
    obtain ⟨r, -, -, hs0⟩ := hwrite
    refine ⟨(text ++ [10]) :: later, ?_, by simp [hlen], ?_⟩
    · rw [hl, ← hs0, ← hp1]
      simp
    · rw [hc, ← hs0, ← hp1]

/-! ## The render loop: a source that runs dry -/

theorem formatAll_cons {encodeString : GoString → GoString} {fmtr fmtr1 : tableFormatter}
    {row : List GoString} {rows : List (List GoString)} {texts : List GoString}
    (h : formatAll encodeString fmtr (row :: rows) = some (texts, fmtr1)) :
    ∃ text rest fmtr0, fmtr.formatRow encodeString row = some ((text, none), fmtr0) ∧
      formatAll encodeString fmtr0 rows = some (rest, fmtr1) ∧ texts = text :: rest := by
  simp only [formatAll] at h
  split at h
  · rename_i text fmtr0 heq
    simp only [Option.map_eq_some', Prod.mk.injEq] at h
    obtain ⟨r, hr, h1, h2⟩ := h
    refine ⟨text, r.1, fmtr0, heq, ?_, h1.symm⟩
    rw [hr, ← h2]
  · exact absurd h (by simp)

theorem runLoop_yields {ι E π : Type} (encodeString : GoString → GoString)
    (iter : AuditEventIterator ι E) (table : auditTable E) (pg : pager π)
    (hopen : ∀ q, (pg.IsClosed q).1 = false)
    (hacc : ∀ q data, ∃ n q1, pg.Write q data = some ((n, none), q1)) :
    ∀ (es : List E) (it : ι) (fmtr fmtr1 : tableFormatter) (q : recorded π)
      (texts : List GoString) (fuel : Nat),
      Yields iter it es → (∀ e ∈ es, (table.row e).2 = none) →
      formatAll encodeString fmtr (es.map (fun e => (table.row e).1)) = some (texts, fmtr1) →
      es.length < fuel →
      ∃ st, runLoop encodeString iter table (recordingPager pg) fuel ⟨it, fmtr, q⟩
          = some (none, st) ∧
        st.sink.writes = q.writes ++ texts.map (fun t => t ++ [10]) ∧
        st.sink.closes = q.closes ∧ st.formatter = fmtr1 ∧ texts.length = es.length := by
  intro es
  induction es with
  | nil =>
    intro it fmtr fmtr1 q texts fuel hy _ hfmt hfuel
    obtain ⟨f, rfl⟩ : ∃ f, fuel = f + 1 := ⟨fuel - 1, by simp at hfuel; omega⟩
    simp only [List.map_nil, formatAll, Option.some.injEq, Prod.mk.injEq] at hfmt
    obtain ⟨rfl, rfl⟩ := hfmt
    simp only [Yields] at hy
    rcases hn : iter.Next it with ⟨r, it1⟩
    rw [hn] at hy
    simp only at hy
    subst hy
    exact ⟨⟨it1, fmtr, q⟩, by simp only [runLoop, hn], by simp, rfl, rfl, rfl⟩
  | cons e es ih =>
    intro it fmtr fmtr1 q texts fuel hy hrow hfmt hfuel
    obtain ⟨f, rfl⟩ : ∃ f, fuel = f + 1 := ⟨fuel - 1, by simp at hfuel; omega⟩
    simp only [Yields] at hy
    rcases hn : iter.Next it with ⟨r, it1⟩
    rw [hn] at hy
    simp only at hy
    obtain ⟨hr, hy1⟩ := hy
    subst hr
    rcases hre : table.row e with ⟨row, err⟩
    have herr := hrow e (List.mem_cons_self _ _)
    rw [hre] at herr
    simp only at herr
    subst herr
    simp only [List.map_cons, hre] at hfmt
    obtain ⟨text, rest, fmtr0, hf0, hfrest, rfl⟩ := formatAll_cons hfmt
    obtain ⟨n, q1, hw⟩ := hacc (pg.IsClosed q.inner).2 (text ++ [10])
    have hclosed : (recordingPager pg).IsClosed q
        = (false, ⟨(pg.IsClosed q.inner).2, q.writes, q.closes⟩) := by
      simp only [recordingPager, hopen]
    have hwrite : Fprintln (recordingPager pg) ⟨(pg.IsClosed q.inner).2, q.writes, q.closes⟩ text
        = some ((n, none), ⟨q1, q.writes ++ [text ++ [10]], q.closes⟩) := by
      simp only [Fprintln, recordingPager, hw, Option.map_some']
    obtain ⟨st, hst, hwrites, hcloses, hfm, hlen⟩ := ih it1 fmtr0 fmtr1
      ⟨q1, q.writes ++ [text ++ [10]], q.closes⟩ rest f hy1
      (fun x hx => hrow x (List.mem_cons_of_mem _ hx)) hfrest (by simp at hfuel; omega)
    refine ⟨st, ?_, ?_, hcloses, hfm, by simp [hlen]⟩
    · simp only [runLoop, hn, hre, hf0, hclosed, hwrite]
      exact hst
    · rw [hwrites]
      simp

/-- `AuditCommand.run` with an acquired pager, for an event source that yields
the events `es` and then Done, a row mapper that succeeds on each of them, a
formatter that formats the header and the rows without error or panic and a
pager that never reports closed and accepts every write: the `Write` calls are
the texts followed by a newline, the pager is closed once and the result is
nil. -/
theorem run_yields_writes {ι E π σ : Type} (encodeString : GoString → GoString)
    (iter : AuditEventIterator ι E) (table : auditTable E) (pg : pager π)
    (stdout : ioWriteCloser σ) (out : σ) (it : ι) (fmtr fmtr1 : tableFormatter) (p : π)
    (es : List E) (texts : List GoString) (fuel : Nat)
    (hy : Yields iter it es) (hrow : ∀ e ∈ es, (table.row e).2 = none)
    (hopen : ∀ q, (pg.IsClosed q).1 = false)
    (hacc : ∀ q data, ∃ n q1, pg.Write q data = some ((n, none), q1))
    (hfmt : formatAll encodeString fmtr (rowsOf table fmtr es) = some (texts, fmtr1))
    (hfuel : es.length < fuel) :
    (∃ (it1 : ι) (q : π),
      AuditCommand.run encodeString iter table (recordingPager pg) stdout out
          (Except.ok ⟨p, [], 0⟩) fuel it fmtr
        = some (none, ⟨it1, fmtr1,
            some (Sum.inl ⟨q, texts.map (fun t => t ++ [10]), 1⟩)⟩)) ∧
    texts.length = (if fmtr.printHeader then 1 else 0) + es.length := by
  refine ⟨?_, ?_⟩
  · cases hh : fmtr.printHeader with
    | true =>
      simp only [rowsOf, hh, if_true, List.singleton_append] at hfmt
      obtain ⟨text, rest, fmtr0, hf0, hfrest, rfl⟩ := formatAll_cons hfmt
      obtain ⟨n, q1, hw⟩ := hacc p (text ++ [10])
      obtain ⟨st, hst, hwrites, hcloses, hfm, -⟩ := runLoop_yields encodeString iter table pg
        hopen hacc es it fmtr0 fmtr1 ⟨q1, [text ++ [10]], 0⟩ rest fuel hy hrow hfrest hfuel
      refine ⟨st.iter, (pg.Close st.sink.inner).2, ?_⟩
      simp only [AuditCommand.run, runWithPager, writeHeader, hh, if_true, hf0, Fprintln,
        recordingPager, hw, Option.map_some', List.nil_append]
      simp only [recordingPager, Fprintln] at hst
      rw [hst]
      simp only [Option.map_some', hwrites, hcloses, hfm, List.map_cons, List.singleton_append]
    | false =>
      simp only [rowsOf, hh, Bool.false_eq_true, if_false, List.nil_append] at hfmt
      obtain ⟨st, hst, hwrites, hcloses, hfm, -⟩ := runLoop_yields encodeString iter table pg
        hopen hacc es it fmtr fmtr1 ⟨p, [], 0⟩ texts fuel hy hrow hfmt hfuel
      refine ⟨st.iter, (pg.Close st.sink.inner).2, ?_⟩
      simp only [AuditCommand.run, runWithPager, writeHeader, hh, Bool.false_eq_true, if_false]
      rw [hst]
      simp only [Option.map_some', recordingPager, hwrites, hcloses, hfm, List.nil_append]
  · cases hh : fmtr.printHeader with
    | true =>
      simp only [rowsOf, hh, if_true, List.singleton_append] at hfmt
      obtain ⟨text, rest, fmtr0, hf0, hfrest, rfl⟩ := formatAll_cons hfmt
      obtain ⟨st, -, -, -, -, hlen⟩ := runLoop_yields encodeString iter table pg
        hopen hacc es it fmtr0 fmtr1 ⟨p, [], 0⟩ rest fuel hy hrow hfrest hfuel
      simp only [List.length_cons, hlen, if_true]
      omega
    | false =>
      simp only [rowsOf, hh, Bool.false_eq_true, if_false, List.nil_append] at hfmt
      obtain ⟨st, -, -, -, -, hlen⟩ := runLoop_yields encodeString iter table pg
        hopen hacc es it fmtr fmtr1 ⟨p, [], 0⟩ texts fuel hy hrow hfmt hfuel
      simp only [hlen, Bool.false_eq_true, if_false, Nat.zero_add]

/-! ## The render loop: early termination and failures -/

/-- `AuditCommand.run` with an acquired pager, after a header part without
error and `k` iterations that ran to their end: what is left is the loop from
the state reached, then the deferred `Close`. -/
theorem run_after_steps {ι E π σ : Type} (encodeString : GoString → GoString)
    (iter : AuditEventIterator ι E) (table : auditTable E) (pg : pager π)
    (stdout : ioWriteCloser σ) (out : σ) (p : π) (it : ι) (fmtr : tableFormatter)
    (k fuel : Nat) (s0 s : runState ι π)
    (hheader : writeHeader encodeString table pg ⟨it, fmtr, p⟩ = some (none, s0))
    (hsteps : NormalSteps encodeString iter table pg k s0 s) :
    AuditCommand.run encodeString iter table pg stdout out (Except.ok p) (fuel + k) it fmtr
      = (runLoop encodeString iter table pg fuel s).map
          (fun r => (r.1, ⟨r.2.iter, r.2.formatter, some (Sum.inl (pg.Close r.2.sink).2)⟩)) := by
  simp only [AuditCommand.run, runWithPager, hheader,
    runLoop_normalSteps encodeString iter table pg k s0 s hsteps fuel, Option.map_map]
  rfl

/-- C16: when, after the header and any number of rows written, the pager
reports closed at the check made for a row, `AuditCommand.run` returns no
error; the iterator is left as it was after the event of that row was pulled,
and the only call made on the pager after the check is the deferred `Close`,
so that the `Write` calls recorded are those made before. -/
theorem run_stops_when_closed {ι E π σ : Type} (encodeString : GoString → GoString)
    (iter : AuditEventIterator ι E) (table : auditTable E) (pg : pager π)
    (stdout : ioWriteCloser σ) (out : σ) (p : π) (it it1 : ι) (fmtr fmtr1 : tableFormatter)
    (k fuel : Nat) (s0 s : runState ι (recorded π)) (e : E) (row : List GoString)
    (text : GoString)
    (hheader : writeHeader encodeString table (recordingPager pg) ⟨it, fmtr, ⟨p, [], 0⟩⟩
      = some (none, s0))
    (hsteps : NormalSteps encodeString iter table (recordingPager pg) k s0 s)
    (hnext : iter.Next s.iter = (NextResult.event e, it1))
    (hrow : table.row e = (row, none))
    (hfmt : s.formatter.formatRow encodeString row = some ((text, none), fmtr1))
    (hclosed : (pg.IsClosed s.sink.inner).1 = true)
    (hfuel : k < fuel) :
    AuditCommand.run encodeString iter table (recordingPager pg) stdout out
        (Except.ok ⟨p, [], 0⟩) fuel it fmtr
      = some (none, ⟨it1, fmtr1, some (Sum.inl
          ⟨(pg.Close (pg.IsClosed s.sink.inner).2).2, s.sink.writes, s.sink.closes + 1⟩)⟩) := by
  obtain ⟨f, rfl⟩ : ∃ f, fuel = (f + 1) + k := ⟨fuel - k - 1, by omega⟩
  rw [run_after_steps encodeString iter table (recordingPager pg) stdout out _ it fmtr k (f + 1)
    s0 s hheader hsteps]
  have hc : (recordingPager pg).IsClosed s.sink
      = (true, ⟨(pg.IsClosed s.sink.inner).2, s.sink.writes, s.sink.closes⟩) := by
    simp only [recordingPager, hclosed]
  simp only [runLoop, hnext, hrow, hfmt, hc, Option.map_some']
  rfl

/-- C17: when, after the header and any number of rows written, the event
source returns an error other than Done, or the row mapper or the formatter
returns an error for the event pulled, `AuditCommand.run` returns exactly that
error; the `Write` calls recorded on the pager are those made before, and the
pager has been closed. -/
theorem run_propagates_failure {ι E π σ : Type} (encodeString : GoString → GoString)
    (iter : AuditEventIterator ι E) (table : auditTable E) (pg : pager π)
    (stdout : ioWriteCloser σ) (out : σ) (p : π) (it it1 : ι) (fmtr : tableFormatter)
    (k fuel : Nat) (s0 s : runState ι (recorded π)) (err : GoError)
    (hheader : writeHeader encodeString table (recordingPager pg) ⟨it, fmtr, ⟨p, [], 0⟩⟩
      = some (none, s0))
    (hsteps : NormalSteps encodeString iter table (recordingPager pg) k s0 s)
    (hfail : iter.Next s.iter = (NextResult.failed err, it1) ∨
      (∃ e row, iter.Next s.iter = (NextResult.event e, it1) ∧ table.row e = (row, some err)) ∨
      (∃ e row text fmtr1, iter.Next s.iter = (NextResult.event e, it1) ∧
        table.row e = (row, none) ∧
        s.formatter.formatRow encodeString row = some ((text, some err), fmtr1)))
    (hfuel : k < fuel) :
    ∃ fmtr1, AuditCommand.run encodeString iter table (recordingPager pg) stdout out
        (Except.ok ⟨p, [], 0⟩) fuel it fmtr
      = some (some err, ⟨it1, fmtr1, some (Sum.inl
          ⟨(pg.Close s.sink.inner).2, s.sink.writes, s.sink.closes + 1⟩)⟩) := by
  obtain ⟨f, rfl⟩ : ∃ f, fuel = (f + 1) + k := ⟨fuel - k - 1, by omega⟩
  rw [run_after_steps encodeString iter table (recordingPager pg) stdout out _ it fmtr k (f + 1)
    s0 s hheader hsteps]
  rcases hfail with hnext | ⟨e, row, hnext, hrow⟩ | ⟨e, row, text, fmtr1, hnext, hrow, hfmt⟩
  · refine ⟨s.formatter, ?_⟩
    simp only [runLoop, hnext, Option.map_some']
    rfl
  · refine ⟨s.formatter, ?_⟩
    simp only [runLoop, hnext, hrow, Option.map_some']
    rfl
  · refine ⟨fmtr1, ?_⟩
    simp only [runLoop, hnext, hrow, hfmt, Option.map_some']
    rfl

/-- C18: `pagerCommand` returns the resolved path of the first name that
resolves among the pager named by the environment, `less` and `more`, in this
order, and returns `errPagerNotFound` if and only if none of the three
resolves. -/
theorem pagerCommand_first_resolved (lookPath : GoString → Option GoString)
    (pagerName : GoString) :
    (∀ path, lookPath pagerName = some path →
      pagerCommand lookPath pagerName = (path, none)) ∧
    (∀ path, lookPath pagerName = none → lookPath (ascii "less") = some path →
      pagerCommand lookPath pagerName = (path, none)) ∧
    (∀ path, lookPath pagerName = none → lookPath (ascii "less") = none →
      lookPath (ascii "more") = some path → pagerCommand lookPath pagerName = (path, none)) ∧
    ((pagerCommand lookPath pagerName).2 = some GoError.errPagerNotFound ↔
      (lookPath pagerName = none ∧ lookPath (ascii "less") = none ∧
        lookPath (ascii "more") = none)) ∧
    ((pagerCommand lookPath pagerName).2 = none ∨
      (pagerCommand lookPath pagerName).2 = some GoError.errPagerNotFound) := by
  unfold pagerCommand
  cases h1 : lookPath pagerName with
  | some p1 => simp
  | none =>
    cases h2 : lookPath (ascii "less") with
    | some p2 => simp
    | none =>
      cases h3 : lookPath (ascii "more") with
      | some p3 => simp
      | none => simp

/-! ## The render loop: examples -/

/-- Witness of C16: the pager is quit after the first of three rows. -/
theorem run_stops_when_closed_witness :
    AuditCommand.run quoteOnly (listIterator GoString) authorTable (recordingPager quitPager)
        bufferWriteCloser [] (Except.ok ⟨[], [], 0⟩) 5 [ascii "ann", ascii "bob", ascii "cy"]
        (AuditCommand.formatter true (20, none) authorTable)
      = some (none, ⟨[ascii "cy"], tableFormatter.json (newJSONFormatter [ascii "AUTHOR"]),
          some (Sum.inl ⟨ascii "\x7b\"AUTHOR\":\"ann\"\x7d\n",
            [ascii "\x7b\"AUTHOR\":\"ann\"\x7d\n"], 1⟩)⟩) :=
  run_stops_when_closed quoteOnly (listIterator GoString) authorTable quitPager
    bufferWriteCloser [] [] [ascii "ann", ascii "bob", ascii "cy"] [ascii "cy"]
    (AuditCommand.formatter true (20, none) authorTable)
    (tableFormatter.json (newJSONFormatter [ascii "AUTHOR"])) 1 5
    ⟨[ascii "ann", ascii "bob", ascii "cy"],
      tableFormatter.json (newJSONFormatter [ascii "AUTHOR"]), ⟨[], [], 0⟩⟩
    ⟨[ascii "bob", ascii "cy"], tableFormatter.json (newJSONFormatter [ascii "AUTHOR"]),
      ⟨ascii "\x7b\"AUTHOR\":\"ann\"\x7d\n", [ascii "\x7b\"AUTHOR\":\"ann\"\x7d\n"], 0⟩⟩
    (ascii "bob") [ascii "bob"] (ascii "\x7b\"AUTHOR\":\"bob\"\x7d")
    rfl
    ⟨⟨[ascii "bob", ascii "cy"], tableFormatter.json (newJSONFormatter [ascii "AUTHOR"]),
        ⟨ascii "\x7b\"AUTHOR\":\"ann\"\x7d\n", [ascii "\x7b\"AUTHOR\":\"ann\"\x7d\n"], 0⟩⟩,
      ⟨ascii "ann", [ascii "ann"], ascii "\x7b\"AUTHOR\":\"ann\"\x7d", ⟨[], [], 0⟩, 17,
        rfl, rfl, rfl, rfl, rfl⟩, rfl⟩
    rfl rfl rfl rfl (by decide)

/-- Witness of C17: the mapping of the second of three events fails. -/
theorem run_propagates_failure_witness :
    ∃ fmtr1, AuditCommand.run quoteOnly (listIterator GoString) authorTable
        (recordingPager openPager) bufferWriteCloser [] (Except.ok ⟨[], [], 0⟩) 5
        [ascii "ann", [], ascii "cy"] (AuditCommand.formatter true (20, none) authorTable)
      = some (some (GoError.errorf (ascii "no author")), ⟨[ascii "cy"], fmtr1,
          some (Sum.inl ⟨ascii "\x7b\"AUTHOR\":\"ann\"\x7d\n",
            [ascii "\x7b\"AUTHOR\":\"ann\"\x7d\n"], 1⟩)⟩) :=
  run_propagates_failure quoteOnly (listIterator GoString) authorTable openPager
    bufferWriteCloser [] [] [ascii "ann", [], ascii "cy"] [ascii "cy"]
    (AuditCommand.formatter true (20, none) authorTable) 1 5
    ⟨[ascii "ann", [], ascii "cy"],
      tableFormatter.json (newJSONFormatter [ascii "AUTHOR"]), ⟨[], [], 0⟩⟩
    ⟨[[], ascii "cy"], tableFormatter.json (newJSONFormatter [ascii "AUTHOR"]),
      ⟨ascii "\x7b\"AUTHOR\":\"ann\"\x7d\n", [ascii "\x7b\"AUTHOR\":\"ann\"\x7d\n"], 0⟩⟩
    (GoError.errorf (ascii "no author"))
    rfl
    ⟨⟨[[], ascii "cy"], tableFormatter.json (newJSONFormatter [ascii "AUTHOR"]),
        ⟨ascii "\x7b\"AUTHOR\":\"ann\"\x7d\n", [ascii "\x7b\"AUTHOR\":\"ann\"\x7d\n"], 0⟩⟩,
      ⟨ascii "ann", [ascii "ann"], ascii "\x7b\"AUTHOR\":\"ann\"\x7d", ⟨[], [], 0⟩, 17,
        rfl, rfl, rfl, rfl, rfl⟩, rfl⟩
    (Or.inr (Or.inl ⟨[], [], rfl, rfl⟩)) (by decide)

/-! ## The render loop on the fallback pager -/

theorem linesOf_nonneg (texts : List GoString) : 0 ≤ linesOf texts := by
  unfold linesOf
  induction texts with
  | nil => simp
  | cons t texts ih =>
    have := countNewlines_nonneg t
    simp only [List.map_cons, List.sum_cons]
    omega

theorem linesOf_cons (t : GoString) (texts : List GoString) :
    linesOf (t :: texts) = countNewlines (t ++ [10]) + linesOf texts := by
  unfold linesOf
  rw [countNewlines_append]
  simp only [List.map_cons, List.sum_cons]
  have : countNewlines [10] = 1 := by decide
  omega

/-- The loop of `AuditCommand.run` on a fallback pager with budget `L > 0` over
a buffer, for a source that runs dry: all rows are written when they have
fewer than `L` lines, and otherwise the loop is left with `errPagerNotFound`
after exactly `L` more lines. -/
theorem runLoop_fallback {ι E : Type} (encodeString : GoString → GoString)
    (iter : AuditEventIterator ι E) (table : auditTable E) :
    ∀ (es : List E) (it : ι) (fmtr fmtr1 : tableFormatter) (buf : GoString) (L : Int)
      (texts : List GoString) (fuel : Nat),
      Yields iter it es → (∀ e ∈ es, (table.row e).2 = none) →
      formatAll encodeString fmtr (es.map (fun e => (table.row e).1)) = some (texts, fmtr1) →
      es.length < fuel → 0 < L →
      ∃ r st, runLoop encodeString iter table (fallbackPagerAsPager bufferWriteCloser) fuel
          ⟨it, fmtr, ⟨buf, L⟩⟩ = some (r, st) ∧
        (linesOf texts < L → r = none ∧
          st.sink = ⟨buf ++ (texts.map (fun t => t ++ [10])).flatten, L - linesOf texts⟩) ∧
        (L ≤ linesOf texts → r = some GoError.errPagerNotFound ∧ st.sink.linesLeft = 0 ∧
          countNewlines st.sink.writer = countNewlines buf + L) := by
  intro es
  induction es with
  | nil =>
    intro it fmtr fmtr1 buf L texts fuel hy _ hfmt hfuel hL
    obtain ⟨f, rfl⟩ : ∃ f, fuel = f + 1 := ⟨fuel - 1, by simp at hfuel; omega⟩
    simp only [List.map_nil, formatAll, Option.some.injEq, Prod.mk.injEq] at hfmt
    obtain ⟨rfl, rfl⟩ := hfmt
    simp only [Yields] at hy
    rcases hn : iter.Next it with ⟨r, it1⟩
    rw [hn] at hy
    simp only at hy
    subst hy
    refine ⟨none, ⟨it1, fmtr, ⟨buf, L⟩⟩, by simp only [runLoop, hn], ?_, ?_⟩
    · intro _
      simp [linesOf]
    · intro h
      simp only [linesOf, List.map_nil, List.sum_nil] at h
      omega
  | cons e es ih =>
    intro it fmtr fmtr1 buf L texts fuel hy hrow hfmt hfuel hL
    obtain ⟨f, rfl⟩ : ∃ f, fuel = f + 1 := ⟨fuel - 1, by simp at hfuel; omega⟩
    simp only [Yields] at hy
    rcases hn : iter.Next it with ⟨r, it1⟩
    rw [hn] at hy
    simp only at hy
    obtain ⟨hr, hy1⟩ := hy
    subst hr
    rcases hre : table.row e with ⟨row, err⟩
    have herr := hrow e (List.mem_cons_self _ _)
    rw [hre] at herr
    simp only at herr
    subst herr
    simp only [List.map_cons, hre] at hfmt
    obtain ⟨text, rest, fmtr0, hf0, hfrest, rfl⟩ := formatAll_cons hfmt
    have hclosed : (fallbackPagerAsPager bufferWriteCloser).IsClosed ⟨buf, L⟩
        = (false, ⟨buf, L⟩) := by
      have : ¬ L = 0 := by omega
      simp [fallbackPagerAsPager, fallbackPager.IsClosed, this]
    have hrestnn := linesOf_nonneg rest
    have hcons := linesOf_cons text rest
    by_cases hc : countNewlines (text ++ [10]) < L
    · have hw := fallbackWrite_within bufferWriter ⟨buf, L⟩ (text ++ [10]) hL hc
      obtain ⟨r, st, hst, h1, h2⟩ := ih it1 fmtr0 fmtr1 (buf ++ (text ++ [10]))
        (L - countNewlines (text ++ [10])) rest f hy1
        (fun x hx => hrow x (List.mem_cons_of_mem _ hx)) hfrest (by simp at hfuel; omega)
        (by omega)
      refine ⟨r, st, ?_, ?_, ?_⟩
      · simp only [runLoop, hn, hre, hf0, hclosed, Fprintln]
        have hw2 : (fallbackPagerAsPager bufferWriteCloser).Write ⟨buf, L⟩ (text ++ [10])
            = some (((((text ++ [10]).length : Nat) : Int), none),
                ⟨buf ++ (text ++ [10]), L - countNewlines (text ++ [10])⟩) := hw
        rw [hw2]
        exact hst
      · intro hlt
        obtain ⟨hr, hs⟩ := h1 (by omega)
        refine ⟨hr, ?_⟩
        rw [hs, hcons]
        simp only [List.map_cons, List.flatten_cons, List.append_assoc]
        congr 1
        omega
      · intro hge
        obtain ⟨hr, hs, hcnt⟩ := h2 (by omega)
        refine ⟨hr, hs, ?_⟩
        rw [hcnt, countNewlines_append]
        omega
    · obtain ⟨written, hw, -, hcount, -, -⟩ :=
        fallbackWrite_exhausts bufferWriter ⟨buf, L⟩ (text ++ [10]) hL
          (by show L ≤ countNewlines (text ++ [10]); omega)
      refine ⟨some GoError.errPagerNotFound,
        ⟨it1, fmtr0, ⟨buf ++ written, 0⟩⟩, ?_, ?_, ?_⟩
      · simp only [runLoop, hn, hre, hf0, hclosed, Fprintln]
        have hw2 : (fallbackPagerAsPager bufferWriteCloser).Write ⟨buf, L⟩ (text ++ [10])
            = some ((((written.length : Nat) : Int), some GoError.errPagerNotFound),
                ⟨buf ++ written, 0⟩) := hw
        rw [hw2]
      · intro hlt
        omega
      · intro _
        refine ⟨rfl, rfl, ?_⟩
        show countNewlines (buf ++ written) = countNewlines buf + L
        rw [countNewlines_append, hcount]

theorem countNewlines_flatten_lines (texts : List GoString) :
    countNewlines (texts.map (fun t => t ++ [10])).flatten = linesOf texts := by
  induction texts with
  | nil => rfl
  | cons t texts ih =>
    rw [List.map_cons, List.flatten_cons, countNewlines_append, ih, linesOf_cons]

/-- The loop of `AuditCommand.run` on a fallback pager without budget left, for
a source that runs dry: nothing is written and no error is returned. -/
theorem runLoop_fallback_closed {ι E : Type} (encodeString : GoString → GoString)
    (iter : AuditEventIterator ι E) (table : auditTable E)
    (es : List E) (it : ι) (fmtr fmtr1 : tableFormatter) (buf : GoString)
    (texts : List GoString) (fuel : Nat)
    (hy : Yields iter it es) (hrow : ∀ e ∈ es, (table.row e).2 = none)
    (hfmt : formatAll encodeString fmtr (es.map (fun e => (table.row e).1))
      = some (texts, fmtr1))
    (hfuel : es.length < fuel) :
    ∃ st, runLoop encodeString iter table (fallbackPagerAsPager bufferWriteCloser) fuel
        ⟨it, fmtr, ⟨buf, 0⟩⟩ = some (none, st) ∧ st.sink = ⟨buf, 0⟩ := by
  obtain ⟨f, rfl⟩ : ∃ f, fuel = f + 1 := ⟨fuel - 1, by omega⟩
  cases es with
  | nil =>
    simp only [Yields] at hy
    rcases hn : iter.Next it with ⟨r, it1⟩
    rw [hn] at hy
    simp only at hy
    subst hy
    exact ⟨⟨it1, fmtr, ⟨buf, 0⟩⟩, by simp only [runLoop, hn], rfl⟩
  | cons e es =>
    simp only [Yields] at hy
    rcases hn : iter.Next it with ⟨r, it1⟩
    rw [hn] at hy
    simp only at hy
    obtain ⟨hr, -⟩ := hy
    subst hr
    rcases hre : table.row e with ⟨row, err⟩
    have herr := hrow e (List.mem_cons_self _ _)
    rw [hre] at herr
    simp only at herr
    subst herr
    simp only [List.map_cons, hre] at hfmt
    obtain ⟨text, rest, fmtr0, hf0, -, -⟩ := formatAll_cons hfmt
    have hclosed : (fallbackPagerAsPager bufferWriteCloser).IsClosed ⟨buf, 0⟩
        = (true, ⟨buf, 0⟩) := by
      simp [fallbackPagerAsPager, fallbackPager.IsClosed]
    exact ⟨⟨it1, fmtr0, ⟨buf, 0⟩⟩, by simp only [runLoop, hn, hre, hf0, hclosed], rfl⟩

/-- The body of `AuditCommand.run` on a fresh fallback pager over an empty
buffer, for a source that runs dry. -/
theorem runWithPager_fallback {ι E : Type} (encodeString : GoString → GoString)
    (iter : AuditEventIterator ι E) (table : auditTable E)
    (it : ι) (fmtr fmtr1 : tableFormatter) (es : List E) (texts : List GoString) (fuel : Nat)
    (hy : Yields iter it es) (hrow : ∀ e ∈ es, (table.row e).2 = none)
    (hfmt : formatAll encodeString fmtr (rowsOf table fmtr es) = some (texts, fmtr1))
    (hfuel : es.length < fuel) :
    ∃ r st, runWithPager encodeString iter table (fallbackPagerAsPager bufferWriteCloser) fuel
        ⟨it, fmtr, newFallbackPager []⟩ = some (r, st) ∧
      countNewlines st.sink.writer ≤ 100 ∧
      (linesOf texts < 100 →
        r = none ∧ st.sink.writer = (texts.map (fun t => t ++ [10])).flatten) ∧
      (100 ≤ linesOf texts →
        (∀ h rest, fmtr.printHeader = true → texts = h :: rest → countNewlines h + 1 < 100) →
        r = some GoError.errPagerNotFound ∧ countNewlines st.sink.writer = 100) := by
  have hclose : ∀ q : fallbackPager GoString,
      ((fallbackPagerAsPager bufferWriteCloser).Close q).2 = q := by
    intro q
    rfl
  cases hh : fmtr.printHeader with
  | false =>
    simp only [rowsOf, hh, Bool.false_eq_true, if_false, List.nil_append] at hfmt
    obtain ⟨r, st, hst, h1, h2⟩ := runLoop_fallback encodeString iter table es it fmtr fmtr1 []
      100 texts fuel hy hrow hfmt hfuel (by omega)
    refine ⟨r, ⟨st.iter, st.formatter, st.sink⟩, ?_, ?_, ?_, ?_⟩
    · simp only [runWithPager, writeHeader, hh, Bool.false_eq_true, if_false]
      have : newFallbackPager ([] : GoString) = ⟨[], 100⟩ := rfl
      rw [this, hst]
      simp only [Option.map_some', hclose]
    · show countNewlines st.sink.writer ≤ 100
      by_cases hlt : linesOf texts < 100
      · rw [(h1 hlt).2]
        simp only [List.nil_append]
        rw [countNewlines_flatten_lines]
        omega
      · rw [(h2 (by omega)).2.2]
        simp [countNewlines]
    · intro hlt
      refine ⟨(h1 hlt).1, ?_⟩
      show st.sink.writer = _
      rw [(h1 hlt).2]
      simp
    · intro hge _
      refine ⟨(h2 hge).1, ?_⟩
      show countNewlines st.sink.writer = 100
      rw [(h2 hge).2.2]
      simp [countNewlines]
  | true =>
    simp only [rowsOf, hh, if_true, List.singleton_append] at hfmt
    obtain ⟨h, rest, fmtr0, hf0, hfrest, rfl⟩ := formatAll_cons hfmt
    have hrestnn := linesOf_nonneg rest
    have hcons := linesOf_cons h rest
    have hnew : newFallbackPager ([] : GoString) = ⟨[], 100⟩ := rfl
    by_cases hc : countNewlines (h ++ [10]) < 100
    · have hw := fallbackWrite_within bufferWriter ⟨[], 100⟩ (h ++ [10]) (by decide) hc
      have hw2 : Fprintln (fallbackPagerAsPager bufferWriteCloser) ⟨[], 100⟩ h
          = some (((((h ++ [10]).length : Nat) : Int), none),
              ⟨[] ++ (h ++ [10]), 100 - countNewlines (h ++ [10])⟩) := hw
      obtain ⟨r, st, hst, h1, h2⟩ := runLoop_fallback encodeString iter table es it fmtr0 fmtr1
        ([] ++ (h ++ [10])) (100 - countNewlines (h ++ [10])) rest fuel hy hrow hfrest hfuel
        (by omega)
      refine ⟨r, ⟨st.iter, st.formatter, st.sink⟩, ?_, ?_, ?_, ?_⟩
      · simp only [runWithPager, writeHeader, hh, if_true, hf0, hnew, hw2, hst,
          Option.map_some', hclose]
      · show countNewlines st.sink.writer ≤ 100
        by_cases hlt : linesOf rest < 100 - countNewlines (h ++ [10])
        · rw [(h1 hlt).2]
          show countNewlines (([] ++ (h ++ [10])) ++ _) ≤ 100
          rw [countNewlines_append, countNewlines_flatten_lines, List.nil_append]
          omega
        · rw [(h2 (by omega)).2.2, List.nil_append]
          omega
      · intro hlt
        obtain ⟨hr, hs⟩ := h1 (by omega)
        refine ⟨hr, ?_⟩
        show st.sink.writer = _
        rw [hs]
        simp
      · intro hge _
        obtain ⟨hr, -, hcnt⟩ := h2 (by omega)
        refine ⟨hr, ?_⟩
        show countNewlines st.sink.writer = 100
        rw [hcnt, List.nil_append]
        omega
    · obtain ⟨written, hw, -, hcount, -, -⟩ :=
        fallbackWrite_exhausts bufferWriter ⟨[], 100⟩ (h ++ [10]) (by decide)
          (by show (100 : Int) ≤ countNewlines (h ++ [10]); omega)
      have hw2 : Fprintln (fallbackPagerAsPager bufferWriteCloser) ⟨[], 100⟩ h
          = some ((((written.length : Nat) : Int), some GoError.errPagerNotFound),
              ⟨[] ++ written, 0⟩) := hw
      obtain ⟨st, hst, hsink⟩ := runLoop_fallback_closed encodeString iter table es it fmtr0
        fmtr1 ([] ++ written) rest fuel hy hrow hfrest hfuel
      have hcw : countNewlines written = 100 := hcount
      refine ⟨none, ⟨st.iter, st.formatter, st.sink⟩, ?_, ?_, ?_, ?_⟩
      · simp only [runWithPager, writeHeader, hh, if_true, hf0, hnew, hw2, hst,
          Option.map_some', hclose]
      · show countNewlines st.sink.writer ≤ 100
        rw [hsink]
        show countNewlines ([] ++ written) ≤ 100
        rw [List.nil_append, hcw]
      · intro hlt
        omega
      · intro _ hsmall
        have := hsmall h rest rfl rfl
        rw [countNewlines_append] at hc
        have h10 : countNewlines [10] = 1 := by decide
        omega

/-- C15, amended: when pager resolution fails with `errPagerNotFound`,
`AuditCommand.run` uses the fallback pager over the standard output, and for a
source that runs dry and rows that are mapped and formatted without error the
output never has more than 100 lines. When the header and the rows together
have fewer than 100 lines, all of them are written and no error is returned;
when they have 100 lines or more (the header alone having fewer), `run`
returns `errPagerNotFound` to its caller after exactly 100 lines. -/
theorem run_fallback_caps_output {ι E π : Type} (encodeString : GoString → GoString)
    (iter : AuditEventIterator ι E) (table : auditTable E) (pg : pager π)
    (it : ι) (fmtr fmtr1 : tableFormatter) (es : List E) (texts : List GoString) (fuel : Nat)
    (hy : Yields iter it es) (hrow : ∀ e ∈ es, (table.row e).2 = none)
    (hfmt : formatAll encodeString fmtr (rowsOf table fmtr es) = some (texts, fmtr1))
    (hfuel : es.length < fuel) :
    ∃ r it1 fmtr2 p, AuditCommand.run encodeString iter table pg bufferWriteCloser []
        (Except.error GoError.errPagerNotFound) fuel it fmtr
        = some (r, ⟨it1, fmtr2, some (Sum.inr p)⟩) ∧
      countNewlines p.writer ≤ 100 ∧
      (linesOf texts < 100 →
        r = none ∧ p.writer = (texts.map (fun t => t ++ [10])).flatten) ∧
      (100 ≤ linesOf texts →
        (∀ h rest, fmtr.printHeader = true → texts = h :: rest → countNewlines h + 1 < 100) →
        r = some GoError.errPagerNotFound ∧ countNewlines p.writer = 100) := by
  obtain ⟨r, st, hst, h1, h2, h3⟩ := runWithPager_fallback encodeString iter table it fmtr fmtr1
    es texts fuel hy hrow hfmt hfuel
  refine ⟨r, st.iter, st.formatter, st.sink, ?_, h1, h2, h3⟩
  simp only [AuditCommand.run, if_true, hst, Option.map_some']

/-- Witness of the amended C15: two events on the fallback pager. -/
theorem run_fallback_caps_output_witness :
    ∃ r it1 fmtr2 p, AuditCommand.run quoteOnly (listIterator GoString) authorTable openPager
        bufferWriteCloser [] (Except.error GoError.errPagerNotFound) 3
        [ascii "ann", ascii "bob"] (AuditCommand.formatter false (20, none) authorTable)
        = some (r, ⟨it1, fmtr2, some (Sum.inr p)⟩) ∧
      countNewlines p.writer ≤ 100 ∧
      (linesOf [ascii "AUTHOR              ", ascii "ann                 ",
          ascii "bob                 "] < 100 →
        r = none ∧ p.writer = ([ascii "AUTHOR              ", ascii "ann                 ",
          ascii "bob                 "].map (fun t => t ++ [10])).flatten) ∧
      (100 ≤ linesOf [ascii "AUTHOR              ", ascii "ann                 ",
          ascii "bob                 "] →
        (∀ h rest, (AuditCommand.formatter false (20, none) authorTable).printHeader = true →
          [ascii "AUTHOR              ", ascii "ann                 ",
            ascii "bob                 "] = h :: rest → countNewlines h + 1 < 100) →
        r = some GoError.errPagerNotFound ∧ countNewlines p.writer = 100) :=
  run_fallback_caps_output quoteOnly (listIterator GoString) authorTable openPager
    [ascii "ann", ascii "bob"] (AuditCommand.formatter false (20, none) authorTable)
    (tableFormatter.column ⟨20, some [20], authorTable.columns⟩)
    [ascii "ann", ascii "bob"]
    [ascii "AUTHOR              ", ascii "ann                 ", ascii "bob                 "] 3
    ⟨rfl, rfl, rfl⟩ (by decide) rfl (by decide)

set_option maxRecDepth 100000 in
/-- Counterexample to C15 as stated: for a hundred events written as JSON, one
line each, on the fallback pager, `AuditCommand.run` returns
`errPagerNotFound` to its caller. -/
theorem run_fallback_error_counterexample :
    (AuditCommand.run quoteOnly (listIterator GoString) authorTable openPager
        bufferWriteCloser [] (Except.error GoError.errPagerNotFound) 101
        (List.replicate 100 (ascii "a")) (AuditCommand.formatter true (80, none) authorTable)).map
      Prod.fst = some (some GoError.errPagerNotFound) := by
  decide

/-! ## The audit tables -/

theorem jsonFormatRow_same_length (encodeString : GoString → GoString) (f : jsonFormatter)
    (row : List GoString) (h : f.fields.length = row.length) :
    ∃ text, f.formatRow encodeString row = some (text, none) := by
  obtain ⟨m, hm⟩ := jsonMapLoop_total f.fields row 0 [] (by omega)
  exact ⟨jsonMarshal encodeString m,
    by simp only [jsonFormatter.formatRow, h, ne_eq, not_true_eq_false, if_false, hm]⟩

theorem baseRow_length {E T : Type} (h : auditHelpers E T) (table : baseAuditTable) (event : E)
    (content : List GoString) (hok : (table.row h event content).2 = none) :
    (table.row h event content).1.length = content.length + 4 := by
  unfold baseAuditTable.row at hok ⊢
  rcases ha : h.getAuditActor event with ⟨actor, err⟩
  rw [ha] at hok
  cases err with
  | some e => simp at hok
  | none =>
    simp only [List.length_append, List.length_cons, List.length_nil]
    omega

/-- C20: for the secret and the repo audit table and every event on which
`row` succeeds, the row has one cell per column: its length is the length of
`header()` and of `columns()`, `header()` lists the column names in the order
of the schema, and the JSON formatter built from the header formats the row
without error. -/
theorem auditTable_row_matches_columns {E T : Type} (h : auditHelpers E T) (tree : T)
    (encodeString : GoString → GoString) (event : E) :
    ((newSecretAuditTable.toAuditTable h).header
        = (newSecretAuditTable.toAuditTable h).columns.map (fun col => col.name) ∧
      (newSecretAuditTable.toAuditTable h).header
        = [ascii "AUTHOR", ascii "EVENT", ascii "IP ADDRESS", ascii "DATE"] ∧
      (((newSecretAuditTable.toAuditTable h).row event).2 = none →
        ((newSecretAuditTable.toAuditTable h).row event).1.length
            = (newSecretAuditTable.toAuditTable h).header.length ∧
          ((newSecretAuditTable.toAuditTable h).row event).1.length
            = (newSecretAuditTable.toAuditTable h).columns.length ∧
          ∃ text, (newJSONFormatter (newSecretAuditTable.toAuditTable h).header).formatRow
            encodeString ((newSecretAuditTable.toAuditTable h).row event).1
              = some (text, none))) ∧
    (((newRepoAuditTable tree).toAuditTable h).header
        = ((newRepoAuditTable tree).toAuditTable h).columns.map (fun col => col.name) ∧
      ((newRepoAuditTable tree).toAuditTable h).header
        = [ascii "AUTHOR", ascii "EVENT", ascii "EVENT SUBJECT", ascii "IP ADDRESS",
            ascii "DATE"] ∧
      ((((newRepoAuditTable tree).toAuditTable h).row event).2 = none →
        (((newRepoAuditTable tree).toAuditTable h).row event).1.length
            = ((newRepoAuditTable tree).toAuditTable h).header.length ∧
          (((newRepoAuditTable tree).toAuditTable h).row event).1.length
            = ((newRepoAuditTable tree).toAuditTable h).columns.length ∧
          ∃ text, (newJSONFormatter ((newRepoAuditTable tree).toAuditTable h).header).formatRow
            encodeString (((newRepoAuditTable tree).toAuditTable h).row event).1
              = some (text, none))) := by
  refine ⟨⟨rfl, rfl, ?_⟩, ⟨rfl, rfl, ?_⟩⟩
  · intro hok
    have hlen : ((newSecretAuditTable.toAuditTable h).row event).1.length = 4 :=
      baseRow_length h newSecretAuditTable.base event [] hok
    refine ⟨hlen, hlen, ?_⟩
    exact jsonFormatRow_same_length encodeString _ _ (by rw [hlen]; rfl)
  · intro hok
    have hlen : (((newRepoAuditTable tree).toAuditTable h).row event).1.length = 5 := by
      simp only [repoAuditTable.toAuditTable, repoAuditTable.row] at hok ⊢
      rcases hs : h.getAuditSubject event (newRepoAuditTable tree).tree with ⟨subject, err⟩
      rw [hs] at hok
      cases err with
      | some e => simp at hok
      | none => exact baseRow_length h (newRepoAuditTable tree).base event [subject] hok
    refine ⟨hlen, hlen, ?_⟩
    exact jsonFormatRow_same_length encodeString _ _ (by rw [hlen]; rfl)

/-! ## The paginated writer -/

theorem watcherInv_reachable {ω : Type} (w : ioWriteCloser ω) (p : paginatedWriter ω)
    (h : paginatedWriter.Reachable w p) : WatcherInv p := by
  induction h with
  | start writer =>
    refine ⟨fun _ => ⟨rfl, rfl, rfl⟩, fun hw => ?_, fun hw => ?_⟩
    · exact absurd hw (by simp [newPaginatedWriterState])
    · exact absurd hw (by simp [newPaginatedWriterState])
  | step p p1 _ hstep ih =>
    obtain ⟨h1, h2, h3⟩ := ih
    cases hstep with
    | exit =>
      refine ⟨fun hw => h1 hw, fun hw => ?_, fun hw => ?_⟩
      · obtain ⟨a, b, c, -⟩ := h2 hw
        exact ⟨a, b, c, rfl⟩
      · obtain ⟨a, b, -⟩ := h3 hw
        exact ⟨a, b, rfl⟩
    | waitReturns hexit hw0 =>
      refine ⟨fun hw => ?_, fun _ => ?_, fun hw => ?_⟩
      · exact absurd hw (by simp)
      · obtain ⟨a, b, c⟩ := h1 hw0
        exact ⟨a, b, c, hexit⟩
      · exact absurd hw (by simp)
    | send hw0 hroom =>
      refine ⟨fun hw => ?_, fun hw => ?_, fun _ => ?_⟩
      · exact absurd hw (by simp)
      · exact absurd hw (by simp)
      · obtain ⟨a, b, -, d⟩ := h2 hw0
        refine ⟨?_, ?_, d⟩
        · show p.sent + 1 = 1
          omega
        · show p.done + 1 ≤ 1
          omega
  | write p data _ ih => exact ih
  | isClosed p _ ih =>
    obtain ⟨h1, h2, h3⟩ := ih
    unfold paginatedWriter.IsClosed
    split_ifs with hc hd
    · exact ⟨h1, h2, h3⟩
    · refine ⟨fun hw => ?_, fun hw => ?_, fun hw => ?_⟩
      · have := (h1 hw).2.1
        omega
      · have := (h2 hw).2.1
        omega
      · obtain ⟨a, b, c⟩ := h3 hw
        refine ⟨a, ?_, c⟩
        show p.done - 1 ≤ 1
        omega
    · exact ⟨h1, h2, h3⟩
  | closeReturned p p1 err _ hclose ih =>
    obtain ⟨h1, h2, h3⟩ := ih
    unfold paginatedWriter.Close at hclose
    split at hclose
    · simp only [closeOutcome.returned.injEq] at hclose
      obtain ⟨-, rfl⟩ := hclose
      exact ⟨h1, h2, h3⟩
    · split_ifs at hclose with hc hd
      · simp only [closeOutcome.returned.injEq] at hclose
        obtain ⟨-, rfl⟩ := hclose
        exact ⟨h1, h2, h3⟩
      · simp only [closeOutcome.returned.injEq] at hclose
        obtain ⟨-, rfl⟩ := hclose
        refine ⟨fun hw => ?_, fun hw => ?_, fun hw => ?_⟩
        · have := (h1 hw).2.1
          omega
        · have := (h2 hw).2.1
          omega
        · obtain ⟨a, b, c⟩ := h3 hw
          refine ⟨a, ?_, c⟩
          show p.done - 1 ≤ 1
          omega
  | closeWaits p p1 _ hclose ih =>
    obtain ⟨h1, h2, h3⟩ := ih
    unfold paginatedWriter.Close at hclose
    split at hclose
    · exact absurd hclose (by simp)
    · split_ifs at hclose with hc hd
      simp only [closeOutcome.waits.injEq] at hclose
      subst hclose
      exact ⟨h1, h2, h3⟩
  | closeResumed p p1 _ hresume ih =>
    obtain ⟨h1, h2, h3⟩ := ih
    unfold paginatedWriter.closeResume at hresume
    split_ifs at hresume with hd
    simp only [Option.some.injEq] at hresume
    subst hresume
    refine ⟨fun hw => ?_, fun hw => ?_, fun hw => ?_⟩
    · have := (h1 hw).2.1
      omega
    · have := (h2 hw).2.1
      omega
    · obtain ⟨a, b, c⟩ := h3 hw
      refine ⟨a, ?_, c⟩
      show p.done - 1 ≤ 1
      omega

/-- In a state that satisfies the invariant, a value in the channel or a set
latch mean that the goroutine has sent, hence that the subprocess has
terminated. -/
theorem watcherInv_exited {ω : Type} (p : paginatedWriter ω) (h : WatcherInv p)
    (hs : 0 < p.done ∨ p.closed = true) : p.exited = true := by
  obtain ⟨h1, h2, h3⟩ := h
  cases hw : p.watcher with
  | waiting =>
    obtain ⟨-, b, c⟩ := h1 hw
    rcases hs with hs | hs
    · omega
    · rw [c] at hs
      exact absurd hs (by simp)
  | sending =>
    exact (h2 hw).2.2.2
  | finished =>
    exact (h3 hw).2.2

/-- In a state that satisfies the invariant, a value in the channel or a set
latch mean that the goroutine has sent its one value. -/
theorem watcherInv_sent {ω : Type} (p : paginatedWriter ω) (h : WatcherInv p)
    (hs : 0 < p.done ∨ p.closed = true) : p.sent = 1 := by
  obtain ⟨h1, h2, h3⟩ := h
  cases hw : p.watcher with
  | waiting =>
    obtain ⟨-, b, c⟩ := h1 hw
    rcases hs with hs | hs
    · omega
    · rw [c] at hs
      exact absurd hs (by simp)
  | sending =>
    obtain ⟨-, b, c, -⟩ := h2 hw
    rcases hs with hs | hs
    · omega
    · rw [c] at hs
      exact absurd hs (by simp)
  | finished =>
    exact (h3 hw).1

/-- Counterexample to C19 as stated: on a pipe whose `Close` fails, `Close` of
the writer just made by `newPaginatedWriter` returns at once with the error of
the pipe, although no completion signal was received or latched and the
subprocess has not terminated. -/
theorem paginatedWriter_Close_early_counterexample :
    paginatedWriter.Reachable brokenPipe (newPaginatedWriterState []) ∧
    paginatedWriter.Close brokenPipe (newPaginatedWriterState [])
      = closeOutcome.returned (some (GoError.other 1)) (newPaginatedWriterState []) ∧
    (newPaginatedWriterState ([] : GoString)).exited = false ∧
    (newPaginatedWriterState ([] : GoString)).done = 0 ∧
    (newPaginatedWriterState ([] : GoString)).closed = false ∧
    (newPaginatedWriterState ([] : GoString)).sent = 0 :=
  ⟨paginatedWriter.Reachable.start [], rfl, rfl, rfl, rfl, rfl⟩

/-- C19, amended: in every state that a paginated writer can reach, `Close`
first closes the input pipe; when that fails it returns the error at once,
without a receive; when it succeeds, `Close` returns nil only if the latch was
set by `IsClosed` or a completion signal is received from `done`, also after
having waited for it, and in both cases the signal has been sent once and the
subprocess has terminated; it
waits only while the channel is empty. The signal is sent by the one goroutine,
at most once and once exactly when the goroutine has finished, after the
subprocess has terminated, and the send finds room in the channel. `IsClosed`
is a function of the state, which never waits, and reports true only after the
subprocess has terminated. -/
theorem paginatedWriter_Close_waits {ω : Type} (w : ioWriteCloser ω) (p : paginatedWriter ω)
    (hr : paginatedWriter.Reachable w p) :
    (∀ err writer1, w.Close p.writer = (some err, writer1) →
      paginatedWriter.Close w p = closeOutcome.returned (some err)
        ⟨writer1, p.exited, p.watcher, p.sent, p.done, p.closed⟩) ∧
    (∀ p1, paginatedWriter.Close w p = closeOutcome.returned none p1 →
      (w.Close p.writer).1 = none ∧ p1.writer = (w.Close p.writer).2 ∧
      (p.closed = true ∨ (0 < p.done ∧ p1.done = p.done - 1)) ∧ p1.exited = true ∧
      p1.sent = 1) ∧
    (∀ p1, paginatedWriter.Close w p = closeOutcome.waits p1 →
      (w.Close p.writer).1 = none ∧ p1.writer = (w.Close p.writer).2 ∧
      p.closed = false ∧ p.done = 0 ∧ paginatedWriter.closeResume p1 = none) ∧
    (∀ p1, paginatedWriter.closeResume p = some p1 →
      0 < p.done ∧ p1.done = p.done - 1 ∧ p1.exited = true ∧ p1.sent = 1) ∧
    (p.sent ≤ 1 ∧ (p.sent = 1 ↔ p.watcher = watcherState.finished) ∧
      (0 < p.sent → p.exited = true) ∧ (p.watcher = watcherState.sending → p.done < 1)) ∧
    ((paginatedWriter.IsClosed p).1 = true → p.exited = true) := by
  have hinv := watcherInv_reachable w p hr
  refine ⟨?_, ?_, ?_, ?_, ?_, ?_⟩
  · intro err writer1 h
    simp only [paginatedWriter.Close, h]
  · intro p1 h
    unfold paginatedWriter.Close at h
    rcases hc : w.Close p.writer with ⟨e, writer1⟩
    rw [hc] at h
    cases e with
    | some err => simp at h
    | none =>
      simp only at h
      split_ifs at h with h1 h2
      · simp only [closeOutcome.returned.injEq, true_and] at h
        subst h
        exact ⟨rfl, rfl, Or.inl h1, watcherInv_exited p hinv (Or.inr h1),
          watcherInv_sent p hinv (Or.inr h1)⟩
      · simp only [closeOutcome.returned.injEq, true_and] at h
        subst h
        exact ⟨rfl, rfl, Or.inr ⟨h2, rfl⟩, watcherInv_exited p hinv (Or.inl h2),
          watcherInv_sent p hinv (Or.inl h2)⟩
  · intro p1 h
    unfold paginatedWriter.Close at h
    rcases hc : w.Close p.writer with ⟨e, writer1⟩
    rw [hc] at h
    cases e with
    | some err => simp at h
    | none =>
      simp only at h
      split_ifs at h with h1 h2
      simp only [closeOutcome.waits.injEq] at h
      subst h
      refine ⟨rfl, rfl, by simpa using h1, by omega, ?_⟩
      simp only [paginatedWriter.closeResume, if_neg h2]
  · intro p1 h
    unfold paginatedWriter.closeResume at h
    split_ifs at h with hd
    simp only [Option.some.injEq] at h
    subst h
    exact ⟨hd, rfl, watcherInv_exited p hinv (Or.inl hd), watcherInv_sent p hinv (Or.inl hd)⟩
  · obtain ⟨h1, h2, h3⟩ := hinv
    cases hw : p.watcher with
    | waiting =>
      obtain ⟨a, b, c⟩ := h1 hw
      refine ⟨by omega, ⟨fun h => by omega, fun h => by simp at h⟩, fun h => by omega,
        fun h => by simp at h⟩
    | sending =>
      obtain ⟨a, b, c, d⟩ := h2 hw
      refine ⟨by omega, ⟨fun h => by omega, fun h => by simp at h⟩, fun h => by omega,
        fun _ => by omega⟩
    | finished =>
      obtain ⟨a, b, c⟩ := h3 hw
      refine ⟨by omega, ⟨fun _ => rfl, fun _ => a⟩, fun _ => c, fun h => by simp at h⟩
  · intro h
    unfold paginatedWriter.IsClosed at h
    split_ifs at h with h1 h2
    · exact watcherInv_exited p hinv (Or.inr h1)
    · exact watcherInv_exited p hinv (Or.inl h2)

/-- Witness of the amended C19: the pager has terminated and the goroutine has
sent its signal before `Close` is called on a buffer whose `Close`
succeeds. -/
theorem paginatedWriter_Close_waits_witness :
    paginatedWriter.Close bufferWriteCloser
        ⟨[], true, watcherState.finished, 1, 1, false⟩
      = closeOutcome.returned none ⟨[], true, watcherState.finished, 1, 0, false⟩ ∧
    (bufferWriteCloser.Close ([] : GoString)).1 = none ∧
    (paginatedWriter.mk ([] : GoString) true watcherState.finished 1 0 false).exited = true :=
  ⟨rfl, ((paginatedWriter_Close_waits bufferWriteCloser
      ⟨[], true, watcherState.finished, 1, 1, false⟩
      (paginatedWriter.Reachable.step _ _
        (paginatedWriter.Reachable.step _ _
          (paginatedWriter.Reachable.step _ _ (paginatedWriter.Reachable.start [])
            (watcherStep.exit _))
          (watcherStep.waitReturns _ rfl rfl))
        (watcherStep.send _ rfl (by decide)))).2.1
      ⟨[], true, watcherState.finished, 1, 0, false⟩ rfl).1,
   ((paginatedWriter_Close_waits bufferWriteCloser
      ⟨[], true, watcherState.finished, 1, 1, false⟩
      (paginatedWriter.Reachable.step _ _
        (paginatedWriter.Reachable.step _ _
          (paginatedWriter.Reachable.step _ _ (paginatedWriter.Reachable.start [])
            (watcherStep.exit _))
          (watcherStep.waitReturns _ rfl rfl))
        (watcherStep.send _ rfl (by decide)))).2.1
      ⟨[], true, watcherState.finished, 1, 0, false⟩ rfl).2.2.2.1⟩

/-! ## Instances -/

/-- Instance of C18: with `more` the only pager that resolves, `pagerCommand`
returns its path. -/
theorem pagerCommand_first_resolved_witness :
    onlyMore (ascii "most") = none ∧ onlyMore (ascii "less") = none ∧
    onlyMore (ascii "more") = some (ascii "/bin/more") ∧
    pagerCommand onlyMore (ascii "most") = (ascii "/bin/more", none) :=
  ⟨by decide, by decide, by decide,
   (pagerCommand_first_resolved onlyMore (ascii "most")).2.2.1 (ascii "/bin/more")
     (by decide) (by decide) (by decide)⟩

/-- Instance of C20: the rows of both tables for the event of author "ann"
have as many cells as the header. -/
theorem auditTable_row_matches_columns_witness :
    ((newSecretAuditTable.toAuditTable plainHelpers).row (ascii "ann")).2 = none ∧
    ((newSecretAuditTable.toAuditTable plainHelpers).row (ascii "ann")).1.length
      = (newSecretAuditTable.toAuditTable plainHelpers).header.length ∧
    (((newRepoAuditTable ()).toAuditTable plainHelpers).row (ascii "ann")).2 = none ∧
    (((newRepoAuditTable ()).toAuditTable plainHelpers).row (ascii "ann")).1.length
      = ((newRepoAuditTable ()).toAuditTable plainHelpers).header.length :=
  ⟨rfl,
   ((auditTable_row_matches_columns plainHelpers () id (ascii "ann")).1.2.2 rfl).1,
   rfl,
   ((auditTable_row_matches_columns plainHelpers () id (ascii "ann")).2.2.2 rfl).1⟩

/-! ## The import of a Thycotic export -/

/-- C27, the code at a failing input: for the header
`SecretName,FolderPath,Password` and the record `db,prod,s3cr3t`, the loop
`for i, field := range record[1:]` with `header[i]` registers the value of
`FolderPath` under the name `SecretName` and the password under the name
`FolderPath`; no secret is registered at `prod/db/Password`. -/
theorem importThycotic_shifted_fields :
    ImportThycoticCommand.collect slashJoin none
        [ascii "SecretName", ascii "FolderPath", ascii "Password"]
        [csvRead.record [ascii "db", ascii "prod", ascii "s3cr3t"]]
      = some (Sum.inr ([ascii "prod/db"],
          [(ascii "prod/db/SecretName", ascii "prod"),
           (ascii "prod/db/FolderPath", ascii "s3cr3t")])) ∧
    mapGet [(ascii "prod/db/SecretName", ascii "prod"),
        (ascii "prod/db/FolderPath", ascii "s3cr3t")] (ascii "prod/db/Password") = none ∧
    slashJoin (ascii "prod/db") (replaceByte (ascii "Password") 32 95)
      = ascii "prod/db/Password" := by
  refine ⟨?_, ?_, ?_⟩ <;> decide

/-! ## The allocation loop: its states and its termination -/

theorem goDiv_ne_zero (a b : Int) (h : ¬ b = 0) : goDiv a b = some (Int.tdiv a b) := by
  unfold goDiv
  rw [if_neg h]

theorem pinLoopTrace_head (cols : List auditTableColumn) (fuel : Nat) (res : List Int)
    (wl cl wpc : Int) :
    ∃ rest, pinLoopTrace cols fuel res wl cl wpc = (res, wl, cl, wpc) :: rest := by
  cases fuel with
  | zero => exact ⟨[], rfl⟩
  | succ fuel =>
    simp only [pinLoopTrace]
    rcases pinPass wpc cols res wl cl false with ⟨res1, wl1, cl1, adjusted⟩
    simp only []
    by_cases h1 : cl1 = 0
    · rw [if_pos h1]
      exact ⟨_, rfl⟩
    · rw [if_neg h1, goDiv_ne_zero wl1 cl1 h1]
      simp only []
      cases adjusted with
      | true => exact ⟨_, rfl⟩
      | false => exact ⟨_, rfl⟩

theorem pinLoopTrace_length (cols : List auditTableColumn) :
    ∀ (fuel : Nat) (res : List Int) (wl cl wpc : Int),
      (pinLoopTrace cols fuel res wl cl wpc).length ≤ fuel + 1 := by
  intro fuel
  induction fuel with
  | zero => intro res wl cl wpc; simp [pinLoopTrace]
  | succ fuel ih =>
    intro res wl cl wpc
    simp only [pinLoopTrace]
    rcases pinPass wpc cols res wl cl false with ⟨res1, wl1, cl1, adjusted⟩
    simp only []
    by_cases h1 : cl1 = 0
    · rw [if_pos h1]
      simp
    · rw [if_neg h1, goDiv_ne_zero wl1 cl1 h1]
      simp only []
      cases adjusted with
      | true =>
        have := ih res1 wl1 cl1 (Int.tdiv wl1 cl1)
        simp only [if_true, List.length_cons]
        omega
      | false => simp

/-- The pinned widths and the pool add up to the same total in every state of
the loop. -/
theorem pinLoopTrace_sum (cols : List auditTableColumn) :
    ∀ (fuel : Nat) (res : List Int) (wl cl wpc : Int),
      ∀ s ∈ pinLoopTrace cols fuel res wl cl wpc, s.2.1 + s.1.sum = wl + res.sum := by
  intro fuel
  induction fuel with
  | zero =>
    intro res wl cl wpc s hs
    simp only [pinLoopTrace, List.mem_singleton] at hs
    subst hs
    rfl
  | succ fuel ih =>
    intro res wl cl wpc s hs
    have hsum := pinPass_sum wpc cols res wl cl false
    simp only [pinLoopTrace] at hs
    rcases hout : pinPass wpc cols res wl cl false with ⟨res1, wl1, cl1, adjusted⟩
    rw [hout] at hs hsum
    simp only at hs hsum
    by_cases h1 : cl1 = 0
    · rw [if_pos h1] at hs
      simp only [List.mem_cons, List.mem_singleton, List.not_mem_nil, or_false] at hs
      rcases hs with rfl | rfl
      · rfl
      · exact hsum
    · rw [if_neg h1, goDiv_ne_zero wl1 cl1 h1] at hs
      simp only at hs
      cases adjusted with
      | true =>
        simp only [if_true] at hs
        rcases List.mem_cons.mp hs with rfl | hs
        · rfl
        · rw [ih res1 wl1 cl1 _ s hs]
          exact hsum
      | false =>
        simp only [Bool.false_eq_true, if_false, List.mem_cons, List.mem_singleton,
          List.not_mem_nil, or_false] at hs
        rcases hs with rfl | rfl
        · rfl
        · exact hsum

/-- The loop is left before the fuel is used up when the fuel exceeds the
number of unpinned columns, whatever the table width and the schema. -/
theorem pinLoop_total (cols : List auditTableColumn) :
    ∀ (fuel : Nat) (res : List Int) (wl cl wpc : Int),
      cl = (res.count 0 : Int) → res.count 0 < fuel →
      ∃ r, pinLoop cols fuel res wl cl wpc = some r := by
  intro fuel
  induction fuel with
  | zero => intro res wl cl wpc _ h; omega
  | succ fuel ih =>
    intro res wl cl wpc hcl hfuel
    have hcount := pinPass_count wpc cols res wl cl false
    have hadj := pinPass_adjusted wpc cols res wl cl false
    simp only [pinLoop]
    rcases hout : pinPass wpc cols res wl cl false with ⟨res1, wl1, cl1, adjusted⟩
    rw [hout] at hcount hadj
    simp only at hcount hadj
    simp only []
    by_cases h1 : cl1 = 0
    · rw [if_pos h1]
      exact ⟨_, rfl⟩
    · rw [if_neg h1, goDiv_ne_zero wl1 cl1 h1]
      simp only []
      cases adjusted with
      | true =>
        simp only [if_true]
        apply ih
        · omega
        · rcases hadj rfl with h | h
          · exact absurd h (by simp)
          · omega
      | false =>
        refine ⟨(res1, Int.tdiv wl1 cl1), ?_⟩
        simp

/-- More fuel than the loop needs changes neither its result nor its
states. -/
theorem pinLoop_fuel (cols : List auditTableColumn) (k : Nat) :
    ∀ (fuel : Nat) (res : List Int) (wl cl wpc : Int) (r : List Int × Int),
      pinLoop cols fuel res wl cl wpc = some r →
      pinLoop cols (fuel + k) res wl cl wpc = some r ∧
        pinLoopTrace cols (fuel + k) res wl cl wpc = pinLoopTrace cols fuel res wl cl wpc := by
  intro fuel
  induction fuel with
  | zero => intro res wl cl wpc r h; simp [pinLoop] at h
  | succ fuel ih =>
    intro res wl cl wpc r h
    have hk : fuel + 1 + k = (fuel + k) + 1 := by omega
    rw [hk]
    rcases hout : pinPass wpc cols res wl cl false with ⟨res1, wl1, cl1, adjusted⟩
    simp only [pinLoop, pinLoopTrace, hout] at h ⊢
    by_cases h1 : cl1 = 0
    · simp only [if_pos h1] at h ⊢
      exact ⟨h, trivial⟩
    · simp only [if_neg h1, goDiv_ne_zero wl1 cl1 h1] at h ⊢
      cases adjusted with
      | true =>
        simp only [if_true] at h ⊢
        obtain ⟨h2, h3⟩ := ih res1 wl1 cl1 _ r h
        exact ⟨h2, by rw [h3]⟩
      | false =>
        simp only [Bool.false_eq_true, if_false] at h ⊢
        exact ⟨h, trivial⟩

/-- Every pass but the last pins a column that was not pinned before. -/
theorem pinLoopTrace_decreasing (cols : List auditTableColumn) :
    ∀ (fuel : Nat) (res : List Int) (wl cl wpc : Int) (j : Nat)
      (s s1 : List Int × Int × Int × Int),
      (pinLoopTrace cols fuel res wl cl wpc)[j]? = some s →
      (pinLoopTrace cols fuel res wl cl wpc)[j + 1]? = some s1 →
      j + 2 < (pinLoopTrace cols fuel res wl cl wpc).length →
      s1.1.count 0 < s.1.count 0 := by
  intro fuel
  induction fuel with
  | zero => intro res wl cl wpc j s s1 _ _ h; simp [pinLoopTrace] at h
  | succ fuel ih =>
    intro res wl cl wpc j s s1 hs hs1 hj
    have hadj := pinPass_adjusted wpc cols res wl cl false
    simp only [pinLoopTrace] at hs hs1 hj
    rcases hout : pinPass wpc cols res wl cl false with ⟨res1, wl1, cl1, adjusted⟩
    rw [hout] at hs hs1 hj hadj
    simp only at hs hs1 hj hadj
    by_cases h1 : cl1 = 0
    · rw [if_pos h1] at hj
      simp at hj
    · rw [if_neg h1, goDiv_ne_zero wl1 cl1 h1] at hs hs1 hj
      simp only at hs hs1 hj
      cases adjusted with
      | true =>
        simp only [if_true] at hs hs1 hj
        obtain ⟨rest, hrest⟩ := pinLoopTrace_head cols fuel res1 wl1 cl1 (Int.tdiv wl1 cl1)
        cases j with
        | zero =>
          rw [hrest] at hs1
          simp only [List.getElem?_cons_zero, List.getElem?_cons_succ, zero_add,
            Option.some.injEq] at hs hs1
          subst hs hs1
          rcases hadj rfl with h | h
          · exact absurd h (by simp)
          · exact h
        | succ j =>
          simp only [List.getElem?_cons_succ] at hs hs1
          simp only [List.length_cons] at hj
          exact ih res1 wl1 cl1 _ j s s1 hs hs1 (by omega)
      | false =>
        simp at hj

/-- When the loop is left, it has one state more than it has made passes. -/
theorem pinLoopTrace_passes (cols : List auditTableColumn) :
    ∀ (fuel : Nat) (res : List Int) (wl cl wpc : Int) (r : List Int × Int),
      pinLoop cols fuel res wl cl wpc = some r →
      (pinLoopTrace cols fuel res wl cl wpc).length
        = (pinLoopShares cols fuel res wl cl wpc).length + 1 := by
  intro fuel
  induction fuel with
  | zero => intro res wl cl wpc r h; simp [pinLoop] at h
  | succ fuel ih =>
    intro res wl cl wpc r h
    rcases hout : pinPass wpc cols res wl cl false with ⟨res1, wl1, cl1, adjusted⟩
    simp only [pinLoop, pinLoopTrace, pinLoopShares, hout] at h ⊢
    by_cases h1 : cl1 = 0
    · simp only [if_pos h1]
      rfl
    · simp only [if_neg h1, goDiv_ne_zero wl1 cl1 h1] at h ⊢
      cases adjusted with
      | true =>
        simp only [if_true] at h ⊢
        simp only [List.length_cons, ih res1 wl1 cl1 _ r h]
      | false =>
        simp only [Bool.false_eq_true, if_false]
        rfl

theorem pinLoopShares_pos (cols : List auditTableColumn) (fuel : Nat) (res : List Int)
    (wl cl wpc : Int) : 1 ≤ (pinLoopShares cols (fuel + 1) res wl cl wpc).length := by
  simp only [pinLoopShares]
  rcases pinPass wpc cols res wl cl false with ⟨res1, wl1, cl1, adjusted⟩
  simp only []
  by_cases h1 : cl1 = 0
  · simp [if_pos h1]
  · rw [if_neg h1, goDiv_ne_zero wl1 cl1 h1]
    cases adjusted with
    | true => simp
    | false => simp

/-- C24: for a schema of `n >= 1` columns and any table width, the loop
`for adjusted` of `columnWidths` is left after at most `n+1` passes, so that
`columnWidths` returns: `n+1` units of fuel, one per pass, are enough and more
fuel changes nothing. The loop has one state more than it makes passes, at
least one pass and at most `n+1`, and every pass that is not the last leaves
fewer unpinned columns than it found. -/
theorem columnWidths_terminates (W : Int) (cols : List auditTableColumn)
    (hn : 1 ≤ cols.length) :
    ∃ res wpc,
      (∀ k : Nat, pinLoop cols (cols.length + 1 + k) (List.replicate cols.length (0 : Int))
          (W - 2 * ((cols.length : Int) - 1)) cols.length
          (Int.tdiv (W - 2 * ((cols.length : Int) - 1)) cols.length) = some (res, wpc)) ∧
      (newColumnFormatter W cols).columnWidths =
        some (fillUnpinned wpc res, ⟨W, some (fillUnpinned wpc res), cols⟩) ∧
      (∀ k : Nat, pinLoopTrace cols (cols.length + 1 + k) (List.replicate cols.length (0 : Int))
          (W - 2 * ((cols.length : Int) - 1)) cols.length
          (Int.tdiv (W - 2 * ((cols.length : Int) - 1)) cols.length)
            = (newColumnFormatter W cols).loopStates) ∧
      (newColumnFormatter W cols).loopStates.length
        = (newColumnFormatter W cols).evenShares.length + 1 ∧
      1 ≤ (newColumnFormatter W cols).evenShares.length ∧
      (newColumnFormatter W cols).evenShares.length ≤ cols.length + 1 ∧
      ∀ (j : Nat) (s s1 : List Int × Int × Int × Int),
        (newColumnFormatter W cols).loopStates[j]? = some s →
        (newColumnFormatter W cols).loopStates[j + 1]? = some s1 →
        j + 2 < (newColumnFormatter W cols).loopStates.length →
        s1.1.count 0 < s.1.count 0 := by
  have hn0 : ¬ ((cols.length : Int) = 0) := by omega
  obtain ⟨⟨res, wpc⟩, hloop⟩ := pinLoop_total cols (cols.length + 1)
    (List.replicate cols.length (0 : Int)) (W - 2 * ((cols.length : Int) - 1)) cols.length
    (Int.tdiv (W - 2 * ((cols.length : Int) - 1)) cols.length) (by simp) (by simp)
  have hstates : (newColumnFormatter W cols).loopStates
      = pinLoopTrace cols (cols.length + 1) (List.replicate cols.length (0 : Int))
          (W - 2 * ((cols.length : Int) - 1)) cols.length
          (Int.tdiv (W - 2 * ((cols.length : Int) - 1)) cols.length) := by
    simp only [columnFormatter.loopStates, newColumnFormatter, goDiv_ne_zero _ _ hn0]
  have hshares : (newColumnFormatter W cols).evenShares
      = pinLoopShares cols (cols.length + 1) (List.replicate cols.length (0 : Int))
          (W - 2 * ((cols.length : Int) - 1)) cols.length
          (Int.tdiv (W - 2 * ((cols.length : Int) - 1)) cols.length) := by
    simp only [columnFormatter.evenShares, newColumnFormatter, goDiv_ne_zero _ _ hn0]
  have hpasses := pinLoopTrace_passes cols _ _ _ _ _ _ hloop
  have hlen := pinLoopTrace_length cols (cols.length + 1) (List.replicate cols.length (0 : Int))
    (W - 2 * ((cols.length : Int) - 1)) cols.length
    (Int.tdiv (W - 2 * ((cols.length : Int) - 1)) cols.length)
  refine ⟨res, wpc, fun k => (pinLoop_fuel cols k _ _ _ _ _ _ hloop).1, ?_,
    fun k => ?_, ?_, ?_, ?_, ?_⟩
  · simp only [columnFormatter.columnWidths, newColumnFormatter, goDiv_ne_zero _ _ hn0, hloop]
  · rw [hstates]
    exact (pinLoop_fuel cols k _ _ _ _ _ _ hloop).2
  · rw [hstates, hshares]
    exact hpasses
  · rw [hshares]
    exact pinLoopShares_pos cols _ _ _ _ _
  · rw [hshares]
    omega
  · intro j s s1 hs hs1 hj
    rw [hstates] at hs hs1 hj
    exact pinLoopTrace_decreasing cols _ _ _ _ _ j s s1 hs hs1 hj

/-! ## The allocation loop: the state in which it is left -/

theorem pinLoop_exit (cols : List auditTableColumn) (total : Int) :
    ∀ (fuel : Nat) (res : List Int) (wl cl wpc : Int),
      LoopInv cols total res wl cl wpc → res.count 0 < fuel →
      ∃ res1 wpc1 last, pinLoop cols fuel res wl cl wpc = some (res1, wpc1) ∧
        (pinLoopTrace cols fuel res wl cl wpc).getLast? = some last ∧
        LoopExit cols total res (pinLoopShares cols fuel res wl cl wpc) last res1 wpc1 := by
  intro fuel
  induction fuel with
  | zero => intro res wl cl wpc _ h; omega
  | succ fuel ih =>
    intro res wl cl wpc inv hfuel
    have hlen := pinPass_length wpc cols res wl cl false
    have hsum := pinPass_sum wpc cols res wl cl false
    have hcount := pinPass_count wpc cols res wl cl false
    have hpin := pinPass_pinned wpc cols res wl cl false inv.pinned
    have hpool := pinPass_pool wpc cols res wl cl false inv.pool
    have hadj := pinPass_adjusted wpc cols res wl cl false
    have hunadj := pinPass_unadjusted wpc cols res wl cl false
    have htrace := pass_traceFacts wpc cols res wl cl false inv.pinned
    have hentry := pinPass_entry wpc cols res wl cl false
    rcases hout : pinPass wpc cols res wl cl false with ⟨res1, wl1, cl1, adjusted⟩
    rw [hout] at hlen hsum hcount hpin hpool hadj htrace hunadj hentry
    simp only at hlen hsum hcount hpin hpool hadj htrace hunadj hentry
    have hcl1 : cl1 = (res1.count 0 : Int) := by
      have := inv.count
      omega
    have hsum1 : wl1 + res1.sum = total := by
      have := inv.sum
      omega
    have hshare := inv.share
    simp only [pinLoop, pinLoopShares, pinLoopTrace, hout]
    by_cases hz : cl1 = 0
    · simp only [if_pos hz]
      refine ⟨_, _, (res1, wl1, cl1, wpc), rfl, rfl, hpin, htrace, hcl1, hsum1, ?_,
        Or.inl ⟨by show res1.count 0 = 0; omega, rfl⟩⟩
      rw [hz] at hpool
      show 0 ≤ wl1
      omega
    · simp only [if_neg hz]
      have hpos : 0 < cl1 := by omega
      rw [goDiv_pos wl1 cl1 hpos]
      have hwl1 : 0 ≤ wl1 := by
        have : 0 ≤ cl1 * wpc := by positivity
        omega
      have hdiv : Int.tdiv wl1 cl1 = wl1 / cl1 := tdiv_eq_div wl1 cl1 hwl1 hpos.le
      have hge : wpc ≤ wl1 / cl1 := by
        apply Int.le_ediv_of_mul_le hpos
        rw [mul_comm]
        exact hpool
      have hmul : cl1 * (wl1 / cl1) ≤ wl1 := Int.mul_ediv_self_le (by omega)
      simp only []
      cases adjusted with
      | true =>
        simp only [if_true]
        have hcnt : res1.count 0 < fuel := by
          rcases hadj rfl with h | h
          · exact absurd h (by simp)
          · omega
        obtain ⟨res2, wpc2, last, heq, hlast, hp2, ht2, hrest⟩ :=
          ih res1 wl1 cl1 (Int.tdiv wl1 cl1)
            ⟨hpin, hcl1, hsum1, by omega, by rw [hdiv]; exact hmul, rfl⟩ hcnt
        obtain ⟨rest, hhead⟩ := pinLoopTrace_head cols fuel res1 wl1 cl1 (Int.tdiv wl1 cl1)
        refine ⟨res2, wpc2, last, heq, ?_, hp2, htrace.trans ht2, hrest⟩
        rw [hhead, List.getLast?_cons_cons, ← hhead]
        exact hlast
      | false =>
        obtain ⟨-, hsame⟩ := hunadj rfl
        simp only [Prod.mk.injEq, and_true] at hsame
        obtain ⟨hres, hwl, hcl⟩ := hsame
        simp only [Bool.false_eq_true, if_false]
        refine ⟨res1, Int.tdiv wl1 cl1, (res1, wl1, cl1, Int.tdiv wl1 cl1), rfl, rfl, hpin,
          by simpa using htrace, hcl1, hsum1, hwl1,
          Or.inr ⟨by show 0 < res1.count 0; omega, rfl, rfl, by omega, rfl, ?_⟩⟩
        intro i col hc hr
        have hwpc : Int.tdiv wl1 cl1 = wpc := by rw [hwl, hcl]; exact inv.even.symm
        rw [hwpc]
        have hr1 : res1[i]? = some 0 := hr
        rw [hres] at hr1
        have := hentry i col 0 hc hr1
        rw [hres, hr1] at this
        by_cases hcond : (0 : Int) = 0 ∧ col.maxWidth ≠ 0 ∧ col.maxWidth < wpc
        · rw [if_pos hcond] at this
          simp only [Option.some.injEq] at this
          exact absurd this.symm hcond.2.1
        · by_cases h0 : col.maxWidth = 0
          · exact Or.inl h0
          · right
            by_contra hlt
            exact hcond ⟨rfl, h0, by omega⟩

/-- The allocation of a formatter without cached widths, with the state in
which the loop is left. -/
theorem columnWidths_exit (W : Int) (cols : List auditTableColumn)
    (hn : 1 ≤ cols.length) (hW : 2 * ((cols.length : Int) - 1) + cols.length ≤ W) :
    ∃ res wpc last, (newColumnFormatter W cols).loopStates.getLast? = some last ∧
      LoopExit cols (W - 2 * ((cols.length : Int) - 1))
        (List.replicate cols.length (0 : Int)) (newColumnFormatter W cols).evenShares
        last res wpc ∧
      (newColumnFormatter W cols).columnWidths =
        some (fillUnpinned wpc res, ⟨W, some (fillUnpinned wpc res), cols⟩) := by
  have hnpos : (0 : Int) < cols.length := by omega
  have htot : (0 : Int) ≤ W - 2 * ((cols.length : Int) - 1) := by omega
  have hdiv := tdiv_eq_div (W - 2 * ((cols.length : Int) - 1)) cols.length htot hnpos.le
  have hinv : LoopInv cols (W - 2 * ((cols.length : Int) - 1))
      (List.replicate cols.length (0 : Int)) (W - 2 * ((cols.length : Int) - 1)) cols.length
      (Int.tdiv (W - 2 * ((cols.length : Int) - 1)) cols.length) := by
    refine ⟨pinned_replicate cols, by simp, by simp, ?_, ?_, rfl⟩
    · rw [hdiv]
      apply Int.le_ediv_of_mul_le hnpos
      omega
    · rw [hdiv]
      exact Int.mul_ediv_self_le (by omega)
  obtain ⟨res, wpc, last, hloop, hlast, hexit⟩ :=
    pinLoop_exit cols _ (cols.length + 1) _ _ _ _ hinv (by simp)
  refine ⟨res, wpc, last, ?_, ?_, ?_⟩
  · simpa only [columnFormatter.loopStates, newColumnFormatter, goDiv_pos _ _ hnpos] using hlast
  · simpa only [columnFormatter.evenShares, newColumnFormatter, goDiv_pos _ _ hnpos] using hexit
  · simp only [columnFormatter.columnWidths, newColumnFormatter, goDiv_pos _ _ hnpos, hloop]

/-! ## The column-width allocator: width accounting -/

theorem loopStates_fresh (W : Int) (cols : List auditTableColumn) (hn : 1 ≤ cols.length) :
    (newColumnFormatter W cols).loopStates
      = pinLoopTrace cols (cols.length + 1) (List.replicate cols.length (0 : Int))
          (W - 2 * ((cols.length : Int) - 1)) cols.length
          (Int.tdiv (W - 2 * ((cols.length : Int) - 1)) cols.length) := by
  have hn0 : ¬ ((cols.length : Int) = 0) := by omega
  simp only [columnFormatter.loopStates, newColumnFormatter, goDiv_ne_zero _ _ hn0]

/-- What integer division loses: fewer units than the divisor. -/
theorem tdiv_loss (a b : Int) (ha : 0 ≤ a) (hb : 0 < b) :
    a - b < b * Int.tdiv a b ∧ b * Int.tdiv a b ≤ a := by
  rw [tdiv_eq_div a b ha hb.le]
  have h1 := Int.ediv_add_emod a b
  have h2 := Int.emod_lt_of_pos a hb
  have h3 := Int.emod_nonneg a hb.ne'
  constructor <;> omega

/-- The sum of the widths allocated from a `LoopExit` state. -/
theorem loopExit_sum (cols : List auditTableColumn) (total : Int) (start shares : List Int)
    (last : List Int × Int × Int × Int) (res : List Int) (wpc : Int) (hn : 1 ≤ cols.length)
    (hmw : ∀ col ∈ cols, 0 ≤ col.maxWidth)
    (h : LoopExit cols total start shares last res wpc) :
    total - cols.length < (fillUnpinned wpc res).sum ∧ (fillUnpinned wpc res).sum ≤ total := by
  obtain ⟨hpin, -, hcl, hsum, hwl, hcase⟩ := h
  have hlen := pinned_length hpin
  rcases hcase with ⟨hcount, rfl⟩ | ⟨hcount, rfl, -, -, hwpc, -⟩
  · rw [allPinned_spread wpc last.2.1 hpin hcount hwl hmw, sum_map_add_const, hlen]
    have := tdiv_loss last.2.1 cols.length hwl (by omega)
    constructor <;> omega
  · rw [sum_fillUnpinned, hwpc, hcl]
    have hle : last.1.count 0 ≤ last.1.length := List.count_le_length _ _
    have := tdiv_loss last.2.1 (last.1.count 0 : Nat) hwl (by exact_mod_cast hcount)
    omega

/-- C26, width accounting of the allocator: for a schema of `n >= 1` columns
whose `maxWidth` is `0` or positive and a table width `W >= 2(n-1)+n`, the
widths that `columnWidths` returns sum to more than `W - 2(n-1) - n` and to at
most `W - 2(n-1)`, and in every state of the loop the pinned widths and the
pool `widthLeft` add up to `W - 2(n-1)`. -/
theorem columnWidths_width_accounting (W : Int) (cols : List auditTableColumn)
    (hn : 1 ≤ cols.length) (hmw : ∀ col ∈ cols, 0 ≤ col.maxWidth)
    (hW : 2 * ((cols.length : Int) - 1) + cols.length ≤ W) :
    ∃ ws f1, (newColumnFormatter W cols).columnWidths = some (ws, f1) ∧
      W - 2 * ((cols.length : Int) - 1) - cols.length < ws.sum ∧
      ws.sum ≤ W - 2 * ((cols.length : Int) - 1) ∧
      2 ≤ (newColumnFormatter W cols).loopStates.length ∧
      ∀ s ∈ (newColumnFormatter W cols).loopStates,
        s.2.1 + s.1.sum = W - 2 * ((cols.length : Int) - 1) := by
  obtain ⟨res, wpc, last, -, hexit, heq⟩ := columnWidths_exit W cols hn hW
  obtain ⟨h1, h2⟩ := loopExit_sum cols _ _ _ last res wpc hn hmw hexit
  refine ⟨_, _, heq, h1, h2, ?_, ?_⟩
  · have hn0 : ¬ ((cols.length : Int) = 0) := by omega
    have hloop : ∃ r, pinLoop cols (cols.length + 1) (List.replicate cols.length (0 : Int))
        (W - 2 * ((cols.length : Int) - 1)) cols.length
        (Int.tdiv (W - 2 * ((cols.length : Int) - 1)) cols.length) = some r :=
      pinLoop_total cols _ _ _ _ _ (by simp) (by simp)
    obtain ⟨r, hloop⟩ := hloop
    rw [loopStates_fresh W cols hn, pinLoopTrace_passes cols _ _ _ _ _ r hloop]
    have := pinLoopShares_pos cols cols.length (List.replicate cols.length (0 : Int))
      (W - 2 * ((cols.length : Int) - 1)) cols.length
      (Int.tdiv (W - 2 * ((cols.length : Int) - 1)) cols.length)
    omega
  · intro s hs
    rw [loopStates_fresh W cols hn] at hs
    rw [pinLoopTrace_sum cols _ _ _ _ _ s hs]
    simp

/-! ## The column-width allocator: pinned and unpinned columns -/

theorem getLast_unique {α : Type} {l : List α} {a b : α} (ha : l.getLast? = some a)
    (hb : l.getLast? = some b) : a = b := by
  rw [ha] at hb
  exact Option.some.inj hb

/-- C25: for a schema of `n >= 1` columns and a table width `W >= 2(n-1)+n`,
when some column is unpinned (its entry of `res` is `0`) in the state in which
the loop of `columnWidths` is left, which is so whenever a column has no
`maxWidth`, then every pinned column receives its `maxWidth`, every unpinned
column receives the final even share `widthLeft / columnsLeft >= 1`, and no
column with a set `maxWidth` receives more than its `maxWidth`. This holds for
every schema, hence for those whose `maxWidth` is `0` or positive. -/
theorem columnWidths_unpinned_share (W : Int) (cols : List auditTableColumn)
    (hn : 1 ≤ cols.length) (hW : 2 * ((cols.length : Int) - 1) + cols.length ≤ W) :
    ((∃ c ∈ cols, c.maxWidth = 0) →
      ∃ last, (newColumnFormatter W cols).loopStates.getLast? = some last ∧ (0 : Int) ∈ last.1) ∧
    (∀ last, (newColumnFormatter W cols).loopStates.getLast? = some last → (0 : Int) ∈ last.1 →
      ∃ ws f1, (newColumnFormatter W cols).columnWidths = some (ws, f1) ∧
        1 ≤ last.2.2.2 ∧ last.2.2.2 = Int.tdiv last.2.1 (last.1.count 0 : Nat) ∧
        ∀ (i : Nat) (col : auditTableColumn), cols[i]? = some col →
          ∃ r w, last.1[i]? = some r ∧ ws[i]? = some w ∧
            (r ≠ 0 → w = col.maxWidth) ∧ (r = 0 → w = last.2.2.2) ∧
            (col.maxWidth ≠ 0 → w ≤ col.maxWidth)) := by
  obtain ⟨res, wpc, last0, hlast0, hexit, heq⟩ := columnWidths_exit W cols hn hW
  obtain ⟨hpin, -, hcl, -, -, hcase⟩ := hexit
  constructor
  · rintro ⟨c, hc, hc0⟩
    refine ⟨last0, hlast0, ?_⟩
    obtain ⟨i, hi, hci⟩ := List.getElem_of_mem hc
    have hci2 : cols[i]? = some c := by rw [List.getElem?_eq_getElem hi, hci]
    obtain ⟨r, hr, hr2⟩ := pinned_get hpin i c hci2
    rcases hr2 with h0 | ⟨-, h1⟩
    · rw [h0] at hr
      exact List.getElem?_mem hr
    · exact absurd hc0 h1
  · intro last hlast hzero
    have hsame : last0 = last := getLast_unique hlast0 hlast
    subst hsame
    rcases hcase with ⟨hcount, -⟩ | ⟨-, rfl, hwpc, hshare, hdiv, hun⟩
    · have : 0 < last0.1.count 0 := List.count_pos_iff.mpr hzero
      omega
    · refine ⟨_, _, heq, by rw [← hwpc]; exact hshare, by rw [← hwpc, hdiv, hcl], ?_⟩
      intro i col hc
      obtain ⟨r, hr, hr2⟩ := pinned_get hpin i col hc
      refine ⟨r, if r = 0 then wpc else r, hr, ?_, ?_, ?_, ?_⟩
      · unfold fillUnpinned
        rw [List.getElem?_map, hr, Option.map_some']
      · intro hne
        rw [if_neg hne]
        rcases hr2 with h0 | ⟨h1, -⟩
        · exact absurd h0 hne
        · exact h1
      · intro h0
        rw [if_pos h0, hwpc]
      · intro hset
        rcases hr2 with h0 | ⟨h1, -⟩
        · rw [if_pos h0]
          rw [h0] at hr
          rcases hun i col hc hr with h2 | h2
          · exact absurd h2 hset
          · exact h2
        · by_cases h0 : r = 0
          · rw [if_pos h0]
            rw [h0] at hr
            rcases hun i col hc hr with h2 | h2
            · exact absurd h2 hset
            · exact h2
          · rw [if_neg h0, h1]

/-! ## The column-width allocator: every column pinned -/

/-- A pass in which no column has a set `maxWidth` below the even share
changes nothing. -/
theorem pinPass_none (wpc : Int) : ∀ (cols : List auditTableColumn) (res : List Int)
    (wl cl : Int) (adj : Bool),
    (∀ col ∈ cols, ¬ (col.maxWidth ≠ 0 ∧ col.maxWidth < wpc)) →
    pinPass wpc cols res wl cl adj = (res, wl, cl, adj) := by
  intro cols
  induction cols with
  | nil => intro res wl cl adj _; simp [pinPass]
  | cons col cols ih =>
    intro res wl cl adj h
    cases res with
    | nil => simp [pinPass]
    | cons r res =>
      have hcol := h col (List.mem_cons_self _ _)
      have hrest := ih res wl cl adj (fun c hc => h c (List.mem_cons_of_mem _ hc))
      simp only [pinPass]
      rw [if_neg (fun hc => hcol hc.2), hrest]

theorem tdiv_small (a b : Int) (hb : 0 < b) (hab : a < b) : Int.tdiv a b ≤ 0 := by
  by_cases ha : 0 ≤ a
  · rw [Int.tdiv_eq_zero_of_lt ha hab]
  · have h1 : 0 ≤ Int.tdiv (-a) b := Int.tdiv_nonneg (by omega) hb.le
    rw [Int.neg_tdiv] at h1
    omega

theorem pinLoopShares_head (cols : List auditTableColumn) (fuel : Nat) (res : List Int)
    (wl cl wpc : Int) : wpc ∈ pinLoopShares cols (fuel + 1) res wl cl wpc := by
  simp only [pinLoopShares]
  rcases pinPass wpc cols res wl cl false with ⟨res1, wl1, cl1, adjusted⟩
  simp only []
  by_cases h1 : cl1 = 0
  · simp [if_pos h1]
  · rw [if_neg h1, goDiv_ne_zero wl1 cl1 h1]
    cases adjusted with
    | true => simp
    | false => simp

/-- With a table width below `2(n-1)+n` and no negative `maxWidth`, the loop
is left after one pass with every column unpinned. -/
theorem loopStates_narrow (W : Int) (cols : List auditTableColumn) (hn : 1 ≤ cols.length)
    (hmw : ∀ col ∈ cols, 0 ≤ col.maxWidth)
    (hW : ¬ 2 * ((cols.length : Int) - 1) + cols.length ≤ W) :
    (newColumnFormatter W cols).loopStates.getLast?
      = some (List.replicate cols.length (0 : Int), W - 2 * ((cols.length : Int) - 1),
          (cols.length : Int),
          Int.tdiv (W - 2 * ((cols.length : Int) - 1)) cols.length) := by
  have hn0 : ¬ ((cols.length : Int) = 0) := by omega
  have hsmall := tdiv_small (W - 2 * ((cols.length : Int) - 1)) cols.length (by omega) (by omega)
  have hnone := pinPass_none (Int.tdiv (W - 2 * ((cols.length : Int) - 1)) cols.length) cols
    (List.replicate cols.length (0 : Int)) (W - 2 * ((cols.length : Int) - 1)) cols.length false
    (by
      intro col hc hcond
      have := hmw col hc
      omega)
  rw [loopStates_fresh W cols hn]
  simp only [pinLoopTrace, hnone, if_neg hn0, goDiv_ne_zero _ _ hn0, Bool.false_eq_true,
    if_false]
  rfl

/-- C23: for a schema of `n >= 1` columns whose `maxWidth` is `0` or positive,
when every column is pinned in the state in which the loop of `columnWidths`
is left (no entry of `res` is `0`), which is so when every `maxWidth` is set
and below the first even share `(W - 2(n-1)) / n`, then `columnWidths` returns
for column `i` the width `maxWidth_i + L / n`, with
`L = W - 2(n-1) - (sum of all maxWidth) >= 0`; the widths sum to
`W - 2(n-1) - L mod n`, the remainder being given to no column. -/
theorem columnWidths_all_pinned (W : Int) (cols : List auditTableColumn)
    (hn : 1 ≤ cols.length) (hmw : ∀ col ∈ cols, 0 ≤ col.maxWidth) :
    ((∀ c ∈ cols, c.maxWidth ≠ 0 ∧
        c.maxWidth < Int.tdiv (W - 2 * ((cols.length : Int) - 1)) cols.length) →
      ∃ last, (newColumnFormatter W cols).loopStates.getLast? = some last ∧
        (0 : Int) ∉ last.1) ∧
    (∀ last, (newColumnFormatter W cols).loopStates.getLast? = some last → (0 : Int) ∉ last.1 →
      ∃ ws f1, (newColumnFormatter W cols).columnWidths = some (ws, f1) ∧
        0 ≤ W - 2 * ((cols.length : Int) - 1) - (cols.map (fun c => c.maxWidth)).sum ∧
        ws = cols.map (fun c => c.maxWidth +
          Int.tdiv (W - 2 * ((cols.length : Int) - 1) - (cols.map (fun c => c.maxWidth)).sum)
            cols.length) ∧
        ws.sum = W - 2 * ((cols.length : Int) - 1) -
          Int.tmod (W - 2 * ((cols.length : Int) - 1) - (cols.map (fun c => c.maxWidth)).sum)
            cols.length) := by
  have hzeros : (0 : Int) ∈ List.replicate cols.length (0 : Int) := by
    rw [List.mem_replicate]
    exact ⟨by omega, rfl⟩
  by_cases hW : 2 * ((cols.length : Int) - 1) + cols.length ≤ W
  · obtain ⟨res, wpc, last0, hlast0, hexit, heq⟩ := columnWidths_exit W cols hn hW
    obtain ⟨hpin, htr, hcl, hsum, hwl, hcase⟩ := hexit
    constructor
    · intro hall
      refine ⟨last0, hlast0, ?_⟩
      intro hmem
      obtain ⟨i, hi, hri⟩ := List.getElem_of_mem hmem
      have hri2 : last0.1[i]? = some 0 := by rw [List.getElem?_eq_getElem hi, hri]
      obtain ⟨c, hci⟩ := pinned_get_col hpin i 0 hri2
      obtain ⟨h1, h2⟩ := hall c (List.getElem?_mem hci)
      have hshare : Int.tdiv (W - 2 * ((cols.length : Int) - 1)) cols.length
          ∈ (newColumnFormatter W cols).evenShares := by
        have hn0 : ¬ ((cols.length : Int) = 0) := by omega
        simp only [columnFormatter.evenShares, newColumnFormatter, goDiv_ne_zero _ _ hn0]
        exact pinLoopShares_head cols _ _ _ _ _
      have := htr.pin i c hci h1 ⟨_, hshare, h2⟩
      rw [hri2] at this
      simp only [Option.some.injEq] at this
      exact h1 this.symm
    · intro last hlast hzero
      have hsame : last0 = last := getLast_unique hlast0 hlast
      subst hsame
      rcases hcase with ⟨hcount, rfl⟩ | ⟨hcount, -⟩
      · have hall := pinned_all hpin hcount
        have hlen := pinned_length hpin
        have hL : last0.2.1 = W - 2 * ((cols.length : Int) - 1)
            - (cols.map (fun c => c.maxWidth)).sum := by
          rw [← hall]
          omega
        refine ⟨_, _, heq, by rw [← hL]; exact hwl, ?_, ?_⟩
        · rw [allPinned_spread wpc last0.2.1 hpin hcount hwl hmw, hlen, hL]
          rw [hall, List.map_map]
          rfl
        · rw [allPinned_spread wpc last0.2.1 hpin hcount hwl hmw, sum_map_add_const, hlen,
            ← hL]
          have := Int.tdiv_add_tmod last0.2.1 (cols.length : Int)
          omega
      · exfalso
        exact hzero (List.count_pos_iff.mp hcount)
  · have hnarrow := loopStates_narrow W cols hn hmw hW
    constructor
    · intro hall
      exfalso
      obtain ⟨c, hc⟩ := List.exists_mem_of_length_pos (by omega : 0 < cols.length)
      obtain ⟨h1, h2⟩ := hall c hc
      have := hmw c hc
      have hsmall := tdiv_small (W - 2 * ((cols.length : Int) - 1)) cols.length (by omega)
        (by omega)
      omega
    · intro last hlast hzero
      exfalso
      have hsame := getLast_unique hnarrow hlast
      subst hsame
      exact hzero hzeros

/-! ## The column-width allocator: instances -/

/-- Witness of C23: two columns of maximum width 2 at width 20 are
both pinned and receive `2 + 14 / 2 = 9`. -/
theorem columnWidths_all_pinned_witness :
    (∀ c ∈ twoNarrowColumns, c.maxWidth ≠ 0 ∧
      c.maxWidth < Int.tdiv (20 - 2 * ((twoNarrowColumns.length : Int) - 1))
        twoNarrowColumns.length) ∧
    ∃ ws f1, (newColumnFormatter 20 twoNarrowColumns).columnWidths = some (ws, f1) ∧
      ws = twoNarrowColumns.map (fun c => c.maxWidth +
          Int.tdiv (20 - 2 * ((twoNarrowColumns.length : Int) - 1)
            - (twoNarrowColumns.map (fun c => c.maxWidth)).sum) twoNarrowColumns.length) := by
  have hall : ∀ c ∈ twoNarrowColumns, c.maxWidth ≠ 0 ∧
      c.maxWidth < Int.tdiv (20 - 2 * ((twoNarrowColumns.length : Int) - 1))
        twoNarrowColumns.length := by decide
  obtain ⟨h1, h2⟩ := columnWidths_all_pinned 20 twoNarrowColumns (by decide) (by decide)
  obtain ⟨last, hlast, hzero⟩ := h1 hall
  obtain ⟨ws, f1, heq, -, hws, -⟩ := h2 last hlast hzero
  exact ⟨hall, ws, f1, heq, hws⟩

/-- Witness of C24: the schema of the secret audit table at width 121 needs
three passes, at most five. -/
theorem columnWidths_terminates_witness :
    1 ≤ (newBaseAuditTableColumns []).length ∧
    ∃ ws f1, (newColumnFormatter 121 (newBaseAuditTableColumns [])).columnWidths
        = some (ws, f1) ∧
      (newColumnFormatter 121 (newBaseAuditTableColumns [])).evenShares.length
        ≤ (newBaseAuditTableColumns []).length + 1 := by
  obtain ⟨res, wpc, -, heq, -, -, -, hle, -⟩ :=
    columnWidths_terminates 121 (newBaseAuditTableColumns []) (by decide)
  exact ⟨by decide, _, _, heq, hle⟩

/-- Witness of C25: the schema of the repo audit table, whose column
`EVENT SUBJECT` has no maximum width, at width 200. -/
theorem columnWidths_unpinned_share_witness :
    (∃ c ∈ repoColumns, c.maxWidth = 0) ∧
    ∃ last ws f1, (newColumnFormatter 200 repoColumns).loopStates.getLast? = some last ∧
      (0 : Int) ∈ last.1 ∧
      (newColumnFormatter 200 repoColumns).columnWidths = some (ws, f1) ∧
      ∀ (i : Nat) (col : auditTableColumn), repoColumns[i]? = some col →
        ∃ r w, last.1[i]? = some r ∧ ws[i]? = some w ∧
          (r ≠ 0 → w = col.maxWidth) ∧ (r = 0 → w = last.2.2.2) ∧
          (col.maxWidth ≠ 0 → w ≤ col.maxWidth) := by
  have hex : ∃ c ∈ repoColumns, c.maxWidth = 0 := ⟨⟨ascii "EVENT SUBJECT", 0⟩, by decide, rfl⟩
  obtain ⟨h1, h2⟩ := columnWidths_unpinned_share 200 repoColumns (by decide) (by decide)
  obtain ⟨last, hlast, hzero⟩ := h1 hex
  obtain ⟨ws, f1, heq, -, -, hcols⟩ := h2 last hlast hzero
  exact ⟨hex, last, ws, f1, hlast, hzero, heq, hcols⟩

/-- Witness of C26: the schema of the secret audit table at width 121. -/
theorem columnWidths_width_accounting_witness :
    ∃ ws f1, (newColumnFormatter 121 (newBaseAuditTableColumns [])).columnWidths
        = some (ws, f1) ∧
      121 - 2 * (((newBaseAuditTableColumns []).length : Int) - 1)
        - (newBaseAuditTableColumns []).length < ws.sum ∧
      ws.sum ≤ 121 - 2 * (((newBaseAuditTableColumns []).length : Int) - 1) ∧
      2 ≤ (newColumnFormatter 121 (newBaseAuditTableColumns [])).loopStates.length ∧
      ∀ s ∈ (newColumnFormatter 121 (newBaseAuditTableColumns [])).loopStates,
        s.2.1 + s.1.sum = 121 - 2 * (((newBaseAuditTableColumns []).length : Int) - 1) :=
  columnWidths_width_accounting 121 (newBaseAuditTableColumns []) (by decide) (by decide)
    (by decide)

/-! ## The wrapper: the reference form of the text and its number of lines -/

/-- The number of slices of a cell is its length over the width, rounded
up. -/
theorem cellLines_eq_ceil (len w : Nat) (hw : 0 < w) :
    cellLines len w = (len + w - 1) / w := by
  unfold cellLines
  have hdm := Nat.div_add_mod len w
  have hlt := Nat.mod_lt len hw
  symm
  by_cases hr : len % w = 0
  · rw [if_neg (by omega)]
    apply Nat.div_eq_of_lt_le
    · rw [Nat.mul_comm]
      omega
    · rw [Nat.add_mul, Nat.mul_comm (len / w) w]
      omega
  · rw [if_pos hr]
    apply Nat.div_eq_of_lt_le
    · rw [Nat.add_mul, Nat.mul_comm (len / w) w]
      omega
    · rw [Nat.add_mul, Nat.add_mul, Nat.mul_comm (len / w) w]
      omega

/-- The maximum that the first loop of `formatRow` computes is its start value
or the number of slices of one of the cells. -/
theorem maxLinesFrom_attained : ∀ (rest : List GoString) (ws : List Int) (m : Nat),
    maxLinesFrom rest ws m = m ∨
      ∃ (k : Nat) (cell : GoString) (w : Int), rest[k]? = some cell ∧ ws[k]? = some w ∧
        cellLines cell.length w.toNat = maxLinesFrom rest ws m := by
  intro rest
  induction rest with
  | nil => intro ws m; exact Or.inl (by simp [maxLinesFrom])
  | cons cell rest ih =>
    intro ws m
    cases ws with
    | nil => exact Or.inl (by simp [maxLinesFrom])
    | cons w ws =>
      simp only [maxLinesFrom]
      rcases ih ws (max m (cellLines cell.length w.toNat)) with h | ⟨k, c, w1, h1, h2, h3⟩
      · rcases Nat.le_total m (cellLines cell.length w.toNat) with hle | hle
        · right
          refine ⟨0, cell, w, by simp, by simp, ?_⟩
          rw [h, Nat.max_eq_right hle]
        · left
          rw [h, Nat.max_eq_left hle]
      · right
        exact ⟨k + 1, c, w1, by simpa using h1, by simpa using h2, h3⟩

/-- Byte `k` of slice `j` of a cell: the byte of the cell at offset `j*w + k`,
a space when the cell has no byte there. -/
theorem sliceAt_get (cell : GoString) (w j k : Nat) (hk : k < w) :
    (sliceAt cell w j)[k]? = some (cell.getD (j * w + k) 32) := by
  unfold sliceAt
  rw [List.getD_eq_getElem?_getD]
  by_cases hlt : j * w + k < cell.length
  · have hlen : k < ((cell.drop (j * w)).take w).length := by
      rw [List.length_take, List.length_drop]
      omega
    rw [List.getElem?_append_left hlen, List.getElem?_take_of_lt hk, List.getElem?_drop,
      List.getElem?_eq_getElem hlt]
    rfl
  · have hlen : ((cell.drop (j * w)).take w).length ≤ k := by
      rw [List.length_take, List.length_drop]
      omega
    rw [List.getElem?_append_right hlen, List.getElem?_eq_none (by omega : cell.length ≤ j * w + k)]
    rw [List.getElem?_replicate_of_lt (by
      rw [List.length_take, List.length_drop]
      omega)]
    rfl

theorem gridRow_get (ws : List Int) (row : List GoString) (j i : Nat) (cell : GoString)
    (w : Int) (hc : row[i]? = some cell) (hw : ws[i]? = some w) :
    (gridRow ws row j)[i]? = some (sliceAt cell w.toNat j) := by
  unfold gridRow
  rw [List.getElem?_zipWith, hc, hw]

/-- The rows of the reference grid contain no newline when the cells contain
none. -/
theorem gridSpec_no_newline (ws : List Int) (row : List GoString) (lines : Nat)
    (hnl : ∀ cell ∈ row, (10 : UInt8) ∉ cell) :
    ∀ r ∈ (gridSpec ws row lines).map (fun line => List.intercalate [32, 32] line),
      (10 : UInt8) ∉ r := by
  intro r hr h10
  obtain ⟨line, hline, rfl⟩ := List.mem_map.mp hr
  obtain ⟨j, -, rfl⟩ := List.mem_map.mp hline
  rcases mem_intercalate _ _ _ h10 with h | ⟨s, hs, hx⟩
  · revert h
    decide
  · obtain ⟨cell, hc, w, -, rfl⟩ := mem_gridRow j row ws s hs
    rcases mem_sliceAt cell _ j 10 hx with h | h
    · exact hnl cell hc h
    · revert h
      decide

/-- C21, reference definition of the wrapper: for a row of `n` cells and `n`
positive widths, `formatRow` returns the newline-join, without trailing
newline, of `maxLines` grid rows, `maxLines` being the value that `formatRow`
computes; grid row `j` is the join with two spaces of one slice per column, in
order, and the slice of column `i` has `w_i` bytes, byte `k` being the byte of
cell `i` at offset `j*w_i + k`, a space when the cell has no byte there. -/
theorem formatRow_reference (f f1 : columnFormatter) (ws : List Int) (row : List GoString)
    (hcw : f.columnWidths = some (ws, f1)) (hpos : ∀ w ∈ ws, 0 < w)
    (hlen : row.length = ws.length) :
    ∃ (maxLines : Nat) (grid : List (List GoString)),
      splitGrid ws row = some ((maxLines : Int), grid) ∧
      f.formatRow row = some ((List.intercalate [10] ((List.range maxLines).map
        (fun j => List.intercalate [32, 32] (gridRow ws row j))), none), f1) ∧
      ∀ (j : Nat), (gridRow ws row j).length = row.length ∧
        ∀ (i : Nat) (cell : GoString) (w : Int), row[i]? = some cell → ws[i]? = some w →
          ∃ slice, (gridRow ws row j)[i]? = some slice ∧ (slice.length : Int) = w ∧
            ∀ (k : Nat), (k : Int) < w → slice[k]? = some (cell.getD (j * w.toNat + k) 32) := by
  refine ⟨maxLinesFrom row ws 1, gridSpec ws row (maxLinesFrom row ws 1),
    splitGrid_spec ws hpos row (by omega), ?_, ?_⟩
  · rw [formatRow_spec f f1 ws row hcw hpos (by omega)]
    unfold formatRowSpec gridSpec
    rw [List.map_map]
    rfl
  · intro j
    refine ⟨gridRow_length ws row j (by omega), ?_⟩
    intro i cell w hc hw
    have hwpos := hpos w (List.getElem?_mem hw)
    refine ⟨sliceAt cell w.toNat j, gridRow_get ws row j i cell w hc hw, ?_, ?_⟩
    · rw [sliceAt_length]
      omega
    · intro k hk
      exact sliceAt_get cell w.toNat j k (by omega)

/-- Witness of C21: the row `["abcdefgh", "xy"]` in columns of widths 3 and
4. -/
theorem formatRow_reference_witness :
    ∃ (maxLines : Nat) (grid : List (List GoString)),
      splitGrid [3, 4] [ascii "abcdefgh", ascii "xy"] = some ((maxLines : Int), grid) ∧
      (columnFormatter.mk 0 (some [3, 4]) []).formatRow [ascii "abcdefgh", ascii "xy"]
        = some ((List.intercalate [10] ((List.range maxLines).map
          (fun j => List.intercalate [32, 32] (gridRow [3, 4] [ascii "abcdefgh", ascii "xy"] j))),
            none), columnFormatter.mk 0 (some [3, 4]) []) ∧
      ∀ (j : Nat), (gridRow [3, 4] [ascii "abcdefgh", ascii "xy"] j).length
          = [ascii "abcdefgh", ascii "xy"].length ∧
        ∀ (i : Nat) (cell : GoString) (w : Int),
          [ascii "abcdefgh", ascii "xy"][i]? = some cell → ([3, 4] : List Int)[i]? = some w →
          ∃ slice, (gridRow [3, 4] [ascii "abcdefgh", ascii "xy"] j)[i]? = some slice ∧
            (slice.length : Int) = w ∧
            ∀ (k : Nat), (k : Int) < w → slice[k]? = some (cell.getD (j * w.toNat + k) 32) :=
  formatRow_reference _ _ [3, 4] [ascii "abcdefgh", ascii "xy"] rfl (by decide) rfl

/-- Counterexample to C22 as stated: for the row of one empty cell in a column
of width 5, the only cell has `ceil(0/5) = 0` slices, so that the maximum over
the cells is 0, and `formatRow` builds one grid row and returns one line, of
five spaces. -/
theorem formatRow_empty_cell_counterexample :
    (newColumnFormatter 5 [⟨ascii "A", 0⟩]).columnWidths
      = some ([5], ⟨5, some [5], [⟨ascii "A", 0⟩]⟩) ∧
    (∀ cell ∈ [([] : GoString)], (cell.length + 5 - 1) / 5 = 0) ∧
    splitGrid [5] [[]] = some (1, [[ascii "     "]]) ∧
    (newColumnFormatter 5 [⟨ascii "A", 0⟩]).formatRow [[]]
      = some ((ascii "     ", none), ⟨5, some [5], [⟨ascii "A", 0⟩]⟩) ∧
    (splitNewlines (ascii "     ")).length = 1 := by
  refine ⟨by decide, by decide, by decide, by decide, by decide⟩

/-- C22, amended: for a row of `n` cells and `n` positive widths, the number
of grid rows that `formatRow` builds, which is the number of lines of its text
when no cell contains a newline, is `maxLines`, the maximum of 1 and of the
numbers of slices `ceil(len(cell)/w)` of the cells, `w` being the width of the
column of the cell: it is at least 1, at least the number of slices of every
cell, and it is 1 or the number of slices of some cell. -/
theorem formatRow_line_count (f f1 : columnFormatter) (ws : List Int) (row : List GoString)
    (hcw : f.columnWidths = some (ws, f1)) (hpos : ∀ w ∈ ws, 0 < w)
    (hlen : row.length = ws.length) :
    ∃ (maxLines : Nat) (grid : List (List GoString)) (out : GoString),
      splitGrid ws row = some ((maxLines : Int), grid) ∧
      f.formatRow row = some ((out, none), f1) ∧
      grid.length = maxLines ∧
      out = List.intercalate [10] (grid.map (fun line => List.intercalate [32, 32] line)) ∧
      ((∀ cell ∈ row, (10 : UInt8) ∉ cell) → (splitNewlines out).length = maxLines) ∧
      1 ≤ maxLines ∧
      (∀ (i : Nat) (cell : GoString) (w : Int), row[i]? = some cell → ws[i]? = some w →
        (cell.length + w.toNat - 1) / w.toNat ≤ maxLines) ∧
      (maxLines = 1 ∨ ∃ (i : Nat) (cell : GoString) (w : Int), row[i]? = some cell ∧
        ws[i]? = some w ∧ (cell.length + w.toNat - 1) / w.toNat = maxLines) := by
  refine ⟨maxLinesFrom row ws 1, gridSpec ws row (maxLinesFrom row ws 1), formatRowSpec ws row,
    splitGrid_spec ws hpos row (by omega), formatRow_spec f f1 ws row hcw hpos (by omega),
    gridSpec_length ws row _, rfl, ?_, one_le_maxLinesFrom row ws, ?_, ?_⟩
  · intro hnl
    have hne : (gridSpec ws row (maxLinesFrom row ws 1)).map
        (fun line => List.intercalate [32, 32] line) ≠ [] := by
      intro h
      have h1 := congrArg List.length h
      simp only [List.length_map, gridSpec_length, List.length_nil] at h1
      have := one_le_maxLinesFrom row ws
      omega
    unfold formatRowSpec
    rw [splitNewlines_intercalate _ hne (gridSpec_no_newline ws row _ hnl), List.length_map,
      gridSpec_length]
  · intro i cell w hc hw
    have hwpos := hpos w (List.getElem?_mem hw)
    rw [← cellLines_eq_ceil cell.length w.toNat (by omega)]
    exact cellLines_le_maxLinesFrom row ws 1 i cell w hc hw
  · rcases maxLinesFrom_attained row ws 1 with h | ⟨i, cell, w, hc, hw, h⟩
    · exact Or.inl h
    · right
      have hwpos := hpos w (List.getElem?_mem hw)
      refine ⟨i, cell, w, hc, hw, ?_⟩
      rw [← cellLines_eq_ceil cell.length w.toNat (by omega)]
      exact h

/-- Witness of the amended C22: the row `["abcdefgh", "xy"]` in columns of
widths 3 and 4 takes three lines. -/
theorem formatRow_line_count_witness :
    ∃ (maxLines : Nat) (grid : List (List GoString)) (out : GoString),
      splitGrid [3, 4] [ascii "abcdefgh", ascii "xy"] = some ((maxLines : Int), grid) ∧
      (columnFormatter.mk 0 (some [3, 4]) []).formatRow [ascii "abcdefgh", ascii "xy"]
        = some ((out, none), columnFormatter.mk 0 (some [3, 4]) []) ∧
      grid.length = maxLines ∧
      out = List.intercalate [10] (grid.map (fun line => List.intercalate [32, 32] line)) ∧
      ((∀ cell ∈ [ascii "abcdefgh", ascii "xy"], (10 : UInt8) ∉ cell) →
        (splitNewlines out).length = maxLines) ∧
      1 ≤ maxLines ∧
      (∀ (i : Nat) (cell : GoString) (w : Int),
        [ascii "abcdefgh", ascii "xy"][i]? = some cell → ([3, 4] : List Int)[i]? = some w →
        (cell.length + w.toNat - 1) / w.toNat ≤ maxLines) ∧
      (maxLines = 1 ∨ ∃ (i : Nat) (cell : GoString) (w : Int),
        [ascii "abcdefgh", ascii "xy"][i]? = some cell ∧
        ([3, 4] : List Int)[i]? = some w ∧ (cell.length + w.toNat - 1) / w.toNat = maxLines) :=
  formatRow_line_count _ _ [3, 4] [ascii "abcdefgh", ascii "xy"] rfl (by decide) rfl

/-! ## The render loop: formatters that format every row -/

/-- The JSON formatter formats rows that have one cell per field. -/
theorem formatAll_json (encodeString : GoString → GoString) (f : jsonFormatter) :
    ∀ (rows : List (List GoString)), (∀ row ∈ rows, row.length = f.fields.length) →
      ∃ texts, formatAll encodeString (tableFormatter.json f) rows
        = some (texts, tableFormatter.json f) := by
  intro rows
  induction rows with
  | nil => intro _; exact ⟨[], rfl⟩
  | cons row rows ih =>
    intro h
    obtain ⟨text, htext⟩ := jsonFormatRow_same_length encodeString f row
      (h row (List.mem_cons_self _ _)).symm
    obtain ⟨texts, htexts⟩ := ih (fun r hr => h r (List.mem_cons_of_mem _ hr))
    refine ⟨text :: texts, ?_⟩
    simp only [formatAll, tableFormatter.formatRow, htext, Option.map_some', htexts]

/-- The column formatter with positive widths formats rows that have at most
one cell per width. -/
theorem formatAll_column (encodeString : GoString → GoString) (ws : List Int)
    (hpos : ∀ w ∈ ws, 0 < w) :
    ∀ (rows : List (List GoString)) (f f1 : columnFormatter),
      f.columnWidths = some (ws, f1) → (∀ row ∈ rows, row.length ≤ ws.length) →
      ∃ texts fmtr1, formatAll encodeString (tableFormatter.column f) rows
        = some (texts, fmtr1) := by
  intro rows
  induction rows with
  | nil => intro f f1 _ _; exact ⟨[], _, rfl⟩
  | cons row rows ih =>
    intro f f1 hcw h
    have hrow := formatRow_spec f f1 ws row hcw hpos (h row (List.mem_cons_self _ _))
    obtain ⟨texts, fmtr1, htexts⟩ := ih f1 f1 (columnWidths_again f f1 ws hcw)
      (fun r hr => h r (List.mem_cons_of_mem _ hr))
    refine ⟨formatRowSpec ws row :: texts, fmtr1, ?_⟩
    simp only [formatAll, tableFormatter.formatRow, hrow, Option.map_some', htexts]

/-- Counterexample to C14 as stated: for the secret audit table on a terminal
of width 9, one event that the source yields and the mapper maps, and a pager
that accepts every write and never reports closed, the allocated widths are
`[0, 0, 0, 0]`, `formatRow` panics on the header with a division by zero, and
so does `AuditCommand.Run`, whatever the fuel; and with `cmd.perPage = 0` it
returns an error before it reads an event. -/
theorem run_narrow_terminal_counterexample :
    Yields (listIterator GoString) [ascii "ann"] [ascii "ann"] ∧
    (plainSecretTable.row (ascii "ann")).2 = none ∧
    (newColumnFormatter 9 plainSecretTable.columns).columnWidths
      = some ([0, 0, 0, 0], ⟨9, some [0, 0, 0, 0], plainSecretTable.columns⟩) ∧
    (AuditCommand.formatter false (9, none) plainSecretTable).formatRow quoteOnly
      plainSecretTable.header = none ∧
    (∀ fuel : Nat, AuditCommand.Run quoteOnly 20 none false (9, none) (listIterator GoString)
      plainSecretTable openPager bufferWriteCloser ([] : GoString) (Except.ok [])
      fuel [ascii "ann"] = none) ∧
    AuditCommand.Run quoteOnly 0 none false (80, none) (listIterator GoString)
      plainSecretTable openPager bufferWriteCloser ([] : GoString) (Except.ok [])
      2 [ascii "ann"]
      = some (some (GoError.errorf (ascii "per-page should be positive, got 0")), none) := by
  refine ⟨⟨rfl, rfl⟩, rfl, by decide, rfl, fun fuel => ?_, rfl⟩
  have hheader : (AuditCommand.formatter false (9, none) plainSecretTable).formatRow quoteOnly
      plainSecretTable.header = none := rfl
  have hprint : (AuditCommand.formatter false (9, none) plainSecretTable).printHeader = true :=
    rfl
  simp only [AuditCommand.Run, AuditCommand.run, runWithPager, writeHeader, hprint, hheader,
    if_true, Option.map_none']
  rfl

/-- C14, amended: for `cmd.perPage >= 1`, an event source that yields the
events `e_1..e_k` and then Done, a row mapper that succeeds on each of them, a
pager that never reports closed and accepts every write, and a formatter that
formats the header and the rows without error or panic, `AuditCommand.Run`
makes exactly these `Write` calls on the pager, in this order: the header
followed by a newline with the column formatter (none with the JSON
formatter), then the formatted row of each event followed by a newline; it
closes the pager once and returns no error. The JSON formatter formats the
rows when each has as many cells as the header; the column formatter formats
the header and the rows when the table has `n >= 1` columns without negative
`maxWidth`, the terminal width (80 when the probe fails) is at least
`2(n-1)+n`, and the header and the rows have at most `n` cells. -/
theorem run_writes_header_and_rows {ι E π σ : Type} (encodeString : GoString → GoString)
    (perPage : Int) (json : Bool) (terminalWidth : Int × Option GoError)
    (iter : AuditEventIterator ι E) (table : auditTable E) (pg : pager π)
    (stdout : ioWriteCloser σ) (out : σ) (it : ι) (p : π) (es : List E) (fuel : Nat)
    (hper : 1 ≤ perPage)
    (hy : Yields iter it es) (hrow : ∀ e ∈ es, (table.row e).2 = none)
    (hopen : ∀ q, (pg.IsClosed q).1 = false)
    (hacc : ∀ q data, ∃ n q1, pg.Write q data = some ((n, none), q1))
    (hfuel : es.length < fuel) :
    (∀ (texts : List GoString) (fmtr1 : tableFormatter),
      formatAll encodeString (AuditCommand.formatter json terminalWidth table)
        (rowsOf table (AuditCommand.formatter json terminalWidth table) es)
          = some (texts, fmtr1) →
      (∃ (it1 : ι) (q : π),
        AuditCommand.Run encodeString perPage none json terminalWidth iter table
            (recordingPager pg) stdout out (Except.ok ⟨p, [], 0⟩) fuel it
          = some (none, some ⟨it1, fmtr1,
              some (Sum.inl ⟨q, texts.map (fun t => t ++ [10]), 1⟩)⟩)) ∧
      texts.length = (if json then 0 else 1) + es.length) ∧
    (json = true → (∀ e ∈ es, (table.row e).1.length = table.header.length) →
      ∃ texts fmtr1, formatAll encodeString (AuditCommand.formatter json terminalWidth table)
        (rowsOf table (AuditCommand.formatter json terminalWidth table) es)
          = some (texts, fmtr1)) ∧
    (json = false → 1 ≤ table.columns.length → (∀ col ∈ table.columns, 0 ≤ col.maxWidth) →
      2 * ((table.columns.length : Int) - 1) + table.columns.length
        ≤ (if terminalWidth.2 = none then terminalWidth.1 else 80) →
      table.header.length ≤ table.columns.length →
      (∀ e ∈ es, (table.row e).1.length ≤ table.columns.length) →
      ∃ texts fmtr1, formatAll encodeString (AuditCommand.formatter json terminalWidth table)
        (rowsOf table (AuditCommand.formatter json terminalWidth table) es)
          = some (texts, fmtr1)) := by
  refine ⟨?_, ?_, ?_⟩
  · intro texts fmtr1 hfmt
    obtain ⟨⟨it1, q, hrun⟩, hlen⟩ := run_yields_writes encodeString iter table pg stdout out it
      (AuditCommand.formatter json terminalWidth table) fmtr1 p es texts fuel hy hrow hopen hacc
      hfmt hfuel
    refine ⟨⟨it1, q, ?_⟩, ?_⟩
    · simp only [AuditCommand.Run, if_neg (by omega : ¬ perPage < 1), hrun, Option.map_some']
    · rw [hlen]
      cases json with
      | true => rfl
      | false =>
        rcases terminalWidth with ⟨width, _ | err⟩ <;> rfl
  · intro hj hcells
    subst hj
    obtain ⟨texts, htexts⟩ := formatAll_json encodeString (newJSONFormatter table.header)
      (es.map (fun e => (table.row e).1)) (by
        intro row hr
        obtain ⟨e, he, rfl⟩ := List.mem_map.mp hr
        exact hcells e he)
    refine ⟨texts, tableFormatter.json (newJSONFormatter table.header), ?_⟩
    simp only [AuditCommand.formatter, if_true, rowsOf, tableFormatter.printHeader,
      jsonFormatter.printHeader, Bool.false_eq_true, if_false, List.nil_append]
    exact htexts
  · intro hj hn hmw hW hheader hcells
    subst hj
    have hrows : ∀ row ∈ [table.header] ++ es.map (fun e => (table.row e).1),
        row.length ≤ table.columns.length := by
      intro row hr
      rcases List.mem_append.mp hr with h1 | h1
      · rw [List.mem_singleton] at h1
        rw [h1]
        exact hheader
      · obtain ⟨e, he, rfl⟩ := List.mem_map.mp h1
        exact hcells e he
    have hall : ∀ W : Int, 2 * ((table.columns.length : Int) - 1) + table.columns.length ≤ W →
        ∃ texts fmtr1, formatAll encodeString
          (tableFormatter.column (newColumnFormatter W table.columns))
          ([table.header] ++ es.map (fun e => (table.row e).1)) = some (texts, fmtr1) := by
      intro W hW1
      obtain ⟨res, wpc, hpost, heq⟩ := columnWidths_fresh W table.columns hn hW1
      obtain ⟨h1, h2, -⟩ := loopPost_widths table.columns _ _ _ res wpc hn hmw hpost
      exact formatAll_column encodeString _ h2 _ _ _ heq (by rw [h1]; exact hrows)
    rcases terminalWidth with ⟨width, _ | err⟩
    · simp only [if_true] at hW
      obtain ⟨texts, fmtr1, h⟩ := hall width hW
      exact ⟨texts, fmtr1, h⟩
    · simp only [reduceCtorEq, if_false] at hW
      obtain ⟨texts, fmtr1, h⟩ := hall 80 hW
      exact ⟨texts, fmtr1, h⟩

/-- Witness of the amended C14: two events formatted in one column of width
20. -/
theorem run_writes_header_and_rows_witness :
    ∃ (it1 : List GoString) (q : GoString),
      AuditCommand.Run quoteOnly 20 none false (20, none) (listIterator GoString) authorTable
          (recordingPager openPager) bufferWriteCloser ([] : GoString) (Except.ok ⟨[], [], 0⟩) 3
          [ascii "ann", ascii "bob"]
        = some (none, some ⟨it1, tableFormatter.column ⟨20, some [20], authorTable.columns⟩,
            some (Sum.inl ⟨q, [ascii "AUTHOR              ", ascii "ann                 ",
              ascii "bob                 "].map (fun t => t ++ [10]), 1⟩)⟩) :=
  ((run_writes_header_and_rows quoteOnly 20 false (20, none) (listIterator GoString) authorTable
    openPager bufferWriteCloser ([] : GoString) [ascii "ann", ascii "bob"] []
    [ascii "ann", ascii "bob"] 3 (by decide) ⟨rfl, rfl, rfl⟩ (by decide) (fun _ => rfl)
    (fun _ _ => ⟨_, _, rfl⟩) (by decide)).1
    [ascii "AUTHOR              ", ascii "ann                 ", ascii "bob                 "]
    (tableFormatter.column ⟨20, some [20], authorTable.columns⟩) rfl).1
end Secrethub
